import Mathlib

/-! GoSymCryto: framing codec, encrypted blocks, sequenced messages and the channel

A shallow embedding of `internal/helpers` (encoder.go, encryption.go, data.go,
random.go) and `pkg/message/connection.go`.

Conventions of the embedding

* a Go `[]byte` argument is a `List Byte`; a returned `[]byte` is an
  `Option (List Byte)`, where `none` is the nil slice;
* a Go `error` result is an `Option GoError`, where `none` is the nil error;
* a Go `uint64` is a natural number, every arithmetic operation being reduced
  modulo `2 ^ 64` where the source can overflow;
* a function that can abort the program returns in `Except GoPanic`;
* writers, readers and connections are explicit states, threaded through;
* the AEAD primitive (AES-GCM in the source) is a parameter;
* the random source `crypto/rand.Reader` is a tape of bytes, threaded through;
  running off the tape stands for a failure of the source;
* the two mutexes of `Connection` are not modelled: operations are sequential.
-/

namespace GoSymCryto

/-! ## Bytes, errors, panics -/

/-- One byte. -/
abbrev Byte := Fin 256

/-- A byte string (the contents of a Go byte slice). -/
abbrev Bytes := List Byte

/-- Go conversion `byte(n)` of an unsigned integer: truncation to 8 bits. -/
def byte (n : Nat) : Byte := ⟨n % 256, Nat.mod_lt _ (by decide)⟩

/-- The largest value of the Go type `int` on a 64-bit platform. -/
def maxInt : Nat := 2 ^ 63 - 1

/-- The constant `maxAlloc` of the Go runtime on a 64-bit platform with 48
address bits: the largest number of bytes that `make` accepts. -/
def maxAlloc : Nat := 2 ^ 48

/-- The error values that the modelled code can return. The two sentinel errors
of `internal/helpers/data.go` and the two of `pkg/message/connection.go` are
created by separate `errors.New` calls, hence are distinct values. -/
inductive GoError where
  /-- Sentinel `io.EOF`. -/
  | EOF
  /-- Sentinel `io.ErrUnexpectedEOF`. -/
  | ErrUnexpectedEOF
  /-- Sentinel `io.ErrShortWrite`. -/
  | ErrShortWrite
  /-- Any other failure of a transport or of the random source. -/
  | transport (code : Nat)
  /-- Sentinel `helpers.ErrInvalidCiphertextSize`. -/
  | ErrInvalidCiphertextSize
  /-- The error of `cipher.AEAD.Open`: message authentication failed. -/
  | ErrOpen
  /-- Sentinel `helpers.ErrInvalidRemoteMessageSize`. -/
  | helpersErrInvalidRemoteMessageSize
  /-- Sentinel `helpers.ErrInvalidRemoteMessageChallenge`. -/
  | helpersErrInvalidRemoteMessageChallenge
  /-- Sentinel `message.ErrInvalidRemoteMessageSize`. -/
  | messageErrInvalidRemoteMessageSize
  /-- Sentinel `message.ErrInvalidRemoteMessageChallenge`. -/
  | messageErrInvalidRemoteMessageChallenge
  deriving DecidableEq, Repr

/-- The run-time panics that the modelled code can raise. -/
inductive GoPanic where
  /-- Raised by `make([]byte, n)` when `n` does not fit the type `int`. -/
  | makesliceLenOutOfRange
  /-- Raised by indexing a slice past its length. -/
  | indexOutOfRange
  /-- Raised by slicing a slice or string past its length. -/
  | sliceBoundsOutOfRange
  /-- Raised explicitly by `RandomHex` and `RandomUint64` when the random source fails. -/
  | randomSourceFailed
  /-- Raised explicitly by `DeriveKeySecure` when the derived key has not the key size. -/
  | derivedKeySizeMismatch
  deriving DecidableEq, Repr

instance instDecidableEqExcept {ε α : Type} [DecidableEq ε] [DecidableEq α] :
    DecidableEq (Except ε α)
  | .ok a, .ok b => decidable_of_iff (a = b) (by simp)
  | .error a, .error b => decidable_of_iff (a = b) (by simp)
  | .ok _, .error _ => isFalse (by simp)
  | .error _, .ok _ => isFalse (by simp)

/-! ## `encoding/binary` -/

/-- Go `binary.BigEndian.AppendUint64(b, v)` for `v : uint64`. -/
def BigEndian.AppendUint64 (b : Bytes) (v : Nat) : Bytes :=
  b ++ [byte (v / 2 ^ 56), byte (v / 2 ^ 48), byte (v / 2 ^ 40), byte (v / 2 ^ 32),
        byte (v / 2 ^ 24), byte (v / 2 ^ 16), byte (v / 2 ^ 8), byte v]

/-- Go `binary.BigEndian.Uint64(b)`: panics when `b` has fewer than 8 bytes,
otherwise combines the first 8 bytes, most significant first. The shifted
bytes occupy disjoint bits, so the bitwise or of the source is their sum. -/
def BigEndian.Uint64 : Bytes → Except GoPanic Nat
  | b0 :: b1 :: b2 :: b3 :: b4 :: b5 :: b6 :: b7 :: _ =>
    .ok (b7.val + b6.val * 2 ^ 8 + b5.val * 2 ^ 16 + b4.val * 2 ^ 24 + b3.val * 2 ^ 32
          + b2.val * 2 ^ 40 + b1.val * 2 ^ 48 + b0.val * 2 ^ 56)
  | _ => .error .indexOutOfRange

/-- Go `binary.LittleEndian.Uint64(b)`. -/
def LittleEndian.Uint64 : Bytes → Except GoPanic Nat
  | b0 :: b1 :: b2 :: b3 :: b4 :: b5 :: b6 :: b7 :: _ =>
    .ok (b0.val + b1.val * 2 ^ 8 + b2.val * 2 ^ 16 + b3.val * 2 ^ 24 + b4.val * 2 ^ 32
          + b5.val * 2 ^ 40 + b6.val * 2 ^ 48 + b7.val * 2 ^ 56)
  | _ => .error .indexOutOfRange

/-! ## Slices, writers and readers -/

/-- Go `make([]byte, n)` for a `uint64` length: panics (`makeslice: len out of
range`) when `n` bytes exceed `maxAlloc`, the limit of the runtime, which is
below the largest `int`; otherwise yields `n` zero bytes. Exhaustion of the
memory of the machine below that limit is not modelled. -/
def makeSlice (n : Nat) : Except GoPanic Bytes :=
  if n ≤ maxAlloc then .ok (List.replicate n 0) else .error .makesliceLenOutOfRange

/-- The contents of a buffer `buf` after a read stored `got` at its start. -/
def fill (buf got : Bytes) : Bytes :=
  got.take buf.length ++ buf.drop got.length

/-- A Go `io.Writer` over a state `σ`: `Write` returns the new state, the
number of bytes accepted and the error. -/
structure Writer (σ : Type) where
  /-- Method `Write(p []byte) (n int, err error)`. -/
  Write : σ → Bytes → σ × Nat × Option GoError

/-- A Go `io.Reader` over a state `σ`, seen through `io.ReadFull`: the field
gives, for a buffer of `n` bytes, the new state, the bytes stored at the start
of the buffer and the error. -/
structure Reader (σ : Type) where
  /-- Function `io.ReadFull(r, buf)` with `len(buf) = n`. -/
  ReadFull : σ → Nat → σ × Bytes × Option GoError

/-- Go `bytes.Buffer` as a writer: the state is the unread contents and a
write appends to it and never fails. -/
def bufferWriter : Writer Bytes where
  Write := fun b p => (b ++ p, p.length, none)

/-- Go `io.ReadFull` on a `bytes.Buffer` (or any finite stream that ends with
`io.EOF`): either the `n` requested bytes are there, or the stream is drained
and the error is `io.EOF` when nothing was read and `io.ErrUnexpectedEOF`
otherwise. Reading `0` bytes always succeeds. -/
def bufferReader : Reader Bytes where
  ReadFull := fun b n =>
    if n ≤ b.length then (b.drop n, b.take n, none)
    else if b.length = 0 then ([], [], some .EOF)
    else ([], b, some .ErrUnexpectedEOF)

/-! ## `internal/helpers/random.go` and `encoder.go` -/

/-- The number of bytes we require to store a 64-bit value. -/
def BytesFor64Bit : Nat := 64 / 8

/-- Writes a block of data into a writer: the 8-byte big-endian length, then
the data. The byte counts returned by the writer are discarded, as in the
source. -/
def Encode {σ : Type} (W : Writer σ) (writer : σ) (data : Bytes) : σ × Option GoError :=
  let buffer := BigEndian.AppendUint64 [] (data.length % 2 ^ 64)
  match W.Write writer buffer with
  | (writer, _, some err) => (writer, some err)
  | (writer, _, none) =>
    match W.Write writer data with
    | (writer, _, err) => (writer, err)

/-- Reads a block of data from a reader: 8 bytes of length, then that many
bytes. The first failure returns the nil slice; the second returns the
allocated buffer as far as it was filled, together with the error. -/
def Decode {σ : Type} (R : Reader σ) (reader : σ) :
    Except GoPanic (σ × Option Bytes × Option GoError) :=
  match R.ReadFull reader BytesFor64Bit with
  | (reader, _, some err) => .ok (reader, none, some err)
  | (reader, got, none) => do
    let buffer := fill (List.replicate BytesFor64Bit 0) got
    let length ← BigEndian.Uint64 buffer
    let data ← makeSlice length
    match R.ReadFull reader length with
    | (reader, got, err) => .ok (reader, some (fill data got), err)

/-! ## `internal/helpers/encryption.go` -/

/-- The nonce size. -/
def NonceSize : Nat := 12

/-- The key size. -/
def KeySize : Nat := 32

/-- A Go `[KeySize]byte` array: exactly `KeySize` bytes. -/
structure AESKey where
  /-- The bytes of the array. -/
  bytes : Bytes
  /-- The array has `KeySize` elements. -/
  size : bytes.length = KeySize

instance : DecidableEq AESKey := fun a b =>
  decidable_of_iff (a.bytes = b.bytes) (by cases a; cases b; simp)

/-- The AEAD primitive that the source obtains from `aes.NewCipher` and
`cipher.NewGCM`, used with no additional data: `Seal key nonce plaintext` is
the ciphertext followed by the tag, `Open key nonce ciphertext` is the
plaintext, or `none` when authentication fails. -/
structure AEAD where
  /-- Method `Seal` of `cipher.AEAD`, without the destination argument. -/
  Seal : AESKey → Bytes → Bytes → Bytes
  /-- Method `Open` of `cipher.AEAD`, without the destination argument. -/
  Open : AESKey → Bytes → Bytes → Option Bytes

/-- The assumption made on the primitive: opening what was sealed under the
same key and nonce gives the plaintext back. -/
def AEAD.Correct (A : AEAD) : Prop :=
  ∀ key nonce plaintext, A.Open key nonce (A.Seal key nonce plaintext) = some plaintext

/-- The primitive adds at most `overhead` bytes to a plaintext. -/
def AEAD.Expands (A : AEAD) (overhead : Nat) : Prop :=
  ∀ key nonce plaintext, (A.Seal key nonce plaintext).length ≤ plaintext.length + overhead

/-- Encrypt some plaintext data with a key. The nonce is read in full from the
random source `rnd`; `Seal(nonce, nonce, plaintext, nil)` appends the sealed
data to the nonce. The two `panic` calls of the source guard a wrong key size
and a non-standard nonce size, which the types exclude. -/
def Encrypt (A : AEAD) (key : AESKey) (plaintext : Bytes) (rnd : Bytes) :
    Bytes × Option Bytes × Option GoError :=
  match bufferReader.ReadFull rnd NonceSize with
  | (rnd, _, some err) => (rnd, none, some err)
  | (rnd, got, none) =>
    let nonce := fill (List.replicate NonceSize 0) got
    (rnd, some (nonce ++ A.Seal key nonce plaintext), none)

/-- The slice that results from appending the bytes `p` to the nil slice, as
`Open(nil, ...)` does with the plaintext: with nothing to append the result is
the nil slice itself. -/
def appendToNil (p : Bytes) : Option Bytes :=
  if p = [] then none else some p

/-- Decrypt some data with a key: the block must hold at least the nonce, which
is split off; the rest is opened, with the nil slice as destination, so that
an empty plaintext is returned as the nil slice. A failed `Open` returns the
nil slice. -/
def Decrypt (A : AEAD) (key : AESKey) (ciphertext : Bytes) : Option Bytes × Option GoError :=
  if ciphertext.length < NonceSize then (none, some .ErrInvalidCiphertextSize)
  else
    let nonce := ciphertext.take NonceSize
    let ciphertext := ciphertext.drop NonceSize
    match A.Open key nonce ciphertext with
    | some plaintext => (appendToNil plaintext, none)
    | none => (none, some .ErrOpen)

/-! ## `internal/helpers/data.go` -/

/-- Encrypts, encodes and writes data to writer. -/
def WriteEncrypted {σ : Type} (A : AEAD) (W : Writer σ) (writer : σ) (key : AESKey)
    (data : Bytes) (rnd : Bytes) : σ × Bytes × Option GoError :=
  match Encrypt A key data rnd with
  | (rnd, _, some err) => (writer, rnd, some err)
  | (rnd, ciphertext, none) =>
    match Encode W writer (ciphertext.getD []) with
    | (writer, err) => (writer, rnd, err)

/-- Reads, decodes, and decrypts data. -/
def ReadEncrypted {σ : Type} (A : AEAD) (R : Reader σ) (reader : σ) (key : AESKey) :
    Except GoPanic (σ × Option Bytes × Option GoError) := do
  match ← Decode R reader with
  | (reader, _, some err) => .ok (reader, none, some err)
  | (reader, ciphertext, none) =>
    match Decrypt A key (ciphertext.getD []) with
    | (data, err) => .ok (reader, data, err)

/-- Encrypts, encodes and writes data to writer, the sequence number being
encoded in front of the data. -/
def WriteEncryptedMessage {σ : Type} (A : AEAD) (W : Writer σ) (writer : σ) (key : AESKey)
    (sequenceNumber : Nat) (data : Bytes) (rnd : Bytes) : σ × Bytes × Option GoError :=
  WriteEncrypted A W writer key (BigEndian.AppendUint64 [] sequenceNumber ++ data) rnd

/-- Reads, decodes, and decrypts data, then checks the sequence number in
front of it and removes it. -/
def ReadEncryptedMessage {σ : Type} (A : AEAD) (R : Reader σ) (reader : σ) (key : AESKey)
    (sequenceNumber : Nat) : Except GoPanic (σ × Option Bytes × Option GoError) := do
  match ← ReadEncrypted A R reader key with
  | (reader, _, some err) => .ok (reader, none, some err)
  | (reader, data, none) =>
    let data := data.getD []
    if data.length < BytesFor64Bit then
      .ok (reader, none, some .helpersErrInvalidRemoteMessageSize)
    else do
      let received ← BigEndian.Uint64 (data.take BytesFor64Bit)
      if received ≠ sequenceNumber then
        .ok (reader, none, some .helpersErrInvalidRemoteMessageChallenge)
      else
        .ok (reader, some (data.drop BytesFor64Bit), none)

/-- Returns a true-random uint64 number: 8 bytes of the random source, little
endian; panics when the source fails. -/
def RandomUint64 (rnd : Bytes) : Except GoPanic (Bytes × Nat) :=
  match bufferReader.ReadFull rnd BytesFor64Bit with
  | (_, _, some _) => .error .randomSourceFailed
  | (rnd, got, none) => do
    let v ← LittleEndian.Uint64 (fill (List.replicate BytesFor64Bit 0) got)
    .ok (rnd, v)

/-! ## `pkg/message/connection.go` -/

/-- A Go `net.Conn` over a state `σ`: a writer, a reader and `Close`. -/
structure NetConn (σ : Type) extends Writer σ, Reader σ where
  /-- Method `Close() error`. -/
  Close : σ → σ × Option GoError

/-- The fields of `Connection` other than the underlying connection (threaded
as a separate state) and the two locks. The four numbers are `uint64`. -/
structure Connection where
  /-- The encryption key. -/
  key : AESKey
  /-- The remote challenge value. -/
  challengeRemote : Nat
  /-- A counter tracking the number of messages received. -/
  counterRemote : Nat
  /-- The local challenge value. -/
  challengeLocal : Nat
  /-- A counter tracking the number of messages sent. -/
  counterLocal : Nat
  deriving DecidableEq

/-- The zero value of `[KeySize]byte`. -/
def zeroKey : AESKey := ⟨List.replicate KeySize 0, by simp⟩

/-- Returns the sequence number to be appended to the next outgoing message
and increments the local counter. -/
def nextOutgoingSequenceNumber (conn : Connection) : Nat × Connection :=
  let sequenceNumber := ((conn.challengeLocal * conn.counterLocal) % 2 ^ 64) ^^^ conn.challengeRemote
  (sequenceNumber, { conn with counterLocal := (conn.counterLocal + 1) % 2 ^ 64 })

/-- Returns the sequence number that we expect to see on the next received
message and increments the remote counter. -/
def nextExpectedIncomingSequenceNumber (conn : Connection) : Nat × Connection :=
  let sequenceNumber := conn.challengeLocal ^^^ ((conn.challengeRemote * conn.counterRemote) % 2 ^ 64)
  (sequenceNumber, { conn with counterRemote := (conn.counterRemote + 1) % 2 ^ 64 })

/-- First half of `handshake`: the counters are reset, the local challenge is
drawn and sent as the plaintext of one encrypted block. -/
def handshakeSend {σ : Type} (A : AEAD) (T : NetConn σ) (net : σ) (conn : Connection)
    (rnd : Bytes) : Except GoPanic (σ × Connection × Bytes × Option GoError) := do
  let conn := { conn with counterLocal := 0, counterRemote := 0 }
  let (rnd, challenge) ← RandomUint64 rnd
  let conn := { conn with challengeLocal := challenge }
  let localChallengeBytes := BigEndian.AppendUint64 [] conn.challengeLocal
  match WriteEncrypted A T.toWriter net conn.key localChallengeBytes rnd with
  | (net, rnd, err) => .ok (net, conn, rnd, err)

/-- Second half of `handshake`: one encrypted block is read and the remote
challenge is taken from its plaintext. -/
def handshakeReceive {σ : Type} (A : AEAD) (T : NetConn σ) (net : σ) (conn : Connection) :
    Except GoPanic (σ × Connection × Option GoError) := do
  match ← ReadEncrypted A T.toReader net conn.key with
  | (net, _, some err) => .ok (net, conn, some err)
  | (net, remoteChallengeBytes, none) =>
    let challenge ← BigEndian.Uint64 (remoteChallengeBytes.getD [])
    .ok (net, { conn with challengeRemote := challenge }, none)

/-- Performs a challenge-response handshake: the send half, and when it
reports no error, the receive half. -/
def handshake {σ : Type} (A : AEAD) (T : NetConn σ) (net : σ) (conn : Connection)
    (rnd : Bytes) : Except GoPanic (σ × Connection × Bytes × Option GoError) := do
  match ← handshakeSend A T net conn rnd with
  | (net, conn, rnd, some err) => .ok (net, conn, rnd, some err)
  | (net, conn, rnd, none) =>
    match ← handshakeReceive A T net conn with
    | (net, conn, err) => .ok (net, conn, rnd, err)

set_option linter.unusedVariables false in
/-- Performs a handshake and returns a Connection object and the error. The
composite literal of the source sets `conn`, `writeLock` and `readLock` only:
every other field, `key` included, has its zero value. -/
def NewConnection {σ : Type} (A : AEAD) (T : NetConn σ) (conn : σ) (key : AESKey)
    (rnd : Bytes) : Except GoPanic (σ × Connection × Bytes × Option GoError) :=
  let connection : Connection :=
    { key := zeroKey, challengeRemote := 0, counterRemote := 0,
      challengeLocal := 0, counterLocal := 0 }
  handshake A T conn connection rnd

/-- Closes the underlying connection. -/
def Connection.Close {σ : Type} (T : NetConn σ) (net : σ) : σ × Option GoError :=
  T.Close net

/-- Writes a message to the remote connection. -/
def WriteMessage {σ : Type} (A : AEAD) (T : NetConn σ) (net : σ) (conn : Connection)
    (data : Bytes) (rnd : Bytes) : σ × Connection × Bytes × Option GoError :=
  match nextOutgoingSequenceNumber conn with
  | (sequenceNumber, conn) =>
    match WriteEncryptedMessage A T.toWriter net conn.key sequenceNumber data rnd with
    | (net, rnd, err) => (net, conn, rnd, err)

/-- Reads a block of data from the connection. -/
def ReadMessage {σ : Type} (A : AEAD) (T : NetConn σ) (net : σ) (conn : Connection) :
    Except GoPanic (σ × Connection × Option Bytes × Option GoError) := do
  match nextExpectedIncomingSequenceNumber conn with
  | (sequenceNumber, conn) =>
    match ← ReadEncryptedMessage A T.toReader net conn.key sequenceNumber with
    | (net, data, err) => .ok (net, conn, data, err)

/-! ## Instances used to evaluate the definitions -/

/-- A `bytes.Buffer` used as a connection that loops back on itself. -/
def bufferConn : NetConn Bytes where
  Write := bufferWriter.Write
  ReadFull := bufferReader.ReadFull
  Close := fun b => (b, none)

/-- A sample primitive: the sealed data is the plaintext followed by a 16-byte
tag made of the nonce and the first bytes of the key. It authenticates the key
and the nonce only and hides nothing; it serves to run the definitions. -/
def sampleAEAD : AEAD where
  Seal := fun key nonce plaintext => plaintext ++ (nonce ++ key.bytes).take 16
  Open := fun key nonce ciphertext =>
    if 16 ≤ ciphertext.length ∧
        ciphertext.drop (ciphertext.length - 16) = (nonce ++ key.bytes).take 16 then
      some (ciphertext.take (ciphertext.length - 16))
    else none

/-- A sample key: 32 bytes of value 1. -/
def sampleKey : AESKey := ⟨List.replicate KeySize 1, by simp⟩

/-- A sample draw of the random source: the 12 bytes of one nonce. -/
def sampleNonce : Bytes := [0, 1, 2, 3, 4, 5, 6, 7, 8, 9, 10, 11]

/-- The bytes that `WriteEncryptedMessage` writes for the sequence number
`2 ^ 64 - 1` and the empty body under `sampleAEAD`, `sampleKey` and
`sampleNonce`: length 36, nonce, sequence number, tag. -/
def sampleWireMax : Bytes :=
  [0, 0, 0, 0, 0, 0, 0, 36] ++ sampleNonce
    ++ [255, 255, 255, 255, 255, 255, 255, 255] ++ sampleNonce ++ [1, 1, 1, 1]

/-- The bytes that `WriteEncryptedMessage` writes for the sequence number `5`
and the body `42` under `sampleAEAD`, `sampleKey` and `sampleNonce`. -/
def sampleWire5 : Bytes :=
  [0, 0, 0, 0, 0, 0, 0, 37] ++ sampleNonce
    ++ [0, 0, 0, 0, 0, 0, 0, 5, 42] ++ sampleNonce ++ [1, 1, 1, 1]

/-! ## Runs of one connection -/

/-- A call made on an established connection. -/
inductive Op where
  /-- A call `WriteMessage(data)`. -/
  | write (data : Bytes)
  /-- A call `ReadMessage()`. -/
  | read

/-- The state that the calls on one connection thread through: the underlying
connection, the `Connection` fields and the random source. -/
structure Session (σ : Type) where
  /-- The state of the underlying connection. -/
  net : σ
  /-- The fields of the `Connection`. -/
  conn : Connection
  /-- The random source. -/
  rnd : Bytes
  deriving DecidableEq

/-- One call on the connection; what the call returns is dropped. -/
def Session.step {σ : Type} (A : AEAD) (T : NetConn σ) (s : Session σ) :
    Op → Except GoPanic (Session σ)
  | .write data =>
    match WriteMessage A T s.net s.conn data s.rnd with
    | (net, conn, rnd, _) => .ok ⟨net, conn, rnd⟩
  | .read => do
    match ← ReadMessage A T s.net s.conn with
    | (net, conn, _, _) => .ok ⟨net, conn, s.rnd⟩

/-- A sequence of calls on the connection, in order. -/
def Session.run {σ : Type} (A : AEAD) (T : NetConn σ) (s : Session σ) :
    List Op → Except GoPanic (Session σ)
  | [] => .ok s
  | op :: ops => do
    let s ← s.step A T op
    s.run A T ops

/-- The number of `WriteMessage` calls in a sequence of calls. -/
def countWrites : List Op → Nat
  | [] => 0
  | .write _ :: ops => countWrites ops + 1
  | .read :: ops => countWrites ops

/-- The number of `ReadMessage` calls in a sequence of calls. -/
def countReads : List Op → Nat
  | [] => 0
  | .write _ :: ops => countReads ops
  | .read :: ops => countReads ops + 1

/-- A sample draw of the random source: the 8 bytes of a challenge, then the
bytes of two nonces. -/
def sampleTape : Bytes := [1, 2, 3, 4, 5, 6, 7, 8] ++ sampleNonce ++ sampleNonce

/-- The challenge that `RandomUint64` reads from `sampleTape`. -/
def sampleChallenge : Nat := 578437695752307201

/-- The connection after a handshake over a buffer that loops back, under the
key `key`: the remote challenge is the local one. -/
def sampleConn (key : AESKey) : Connection :=
  { key := key, challengeRemote := sampleChallenge, counterRemote := 0,
    challengeLocal := sampleChallenge, counterLocal := 0 }

/-- The bytes that `WriteMessage` writes for the body `7` as the first message
of `sampleConn sampleKey`, with `sampleNonce`. -/
def sampleWire7 : Bytes :=
  [0, 0, 0, 0, 0, 0, 0, 37] ++ sampleNonce
    ++ [8, 7, 6, 5, 4, 3, 2, 1, 7] ++ sampleNonce ++ [1, 1, 1, 1]

/-- The bytes that `WriteMessage` writes for the body `7` as the first message
of `sampleConn zeroKey`, with `sampleNonce`. -/
def sampleWire7Zero : Bytes :=
  [0, 0, 0, 0, 0, 0, 0, 37] ++ sampleNonce
    ++ [8, 7, 6, 5, 4, 3, 2, 1, 7] ++ sampleNonce ++ [0, 0, 0, 0]

/-! ## Two peers over a reliable ordered transport -/

/-- The bytes in flight between two peers A and B: what A wrote and B has not
read yet, and what B wrote and A has not read yet. -/
structure Net where
  /-- Bytes written by A, not yet read by B. -/
  ab : Bytes
  /-- Bytes written by B, not yet read by A. -/
  ba : Bytes
  deriving DecidableEq

/-- The end of the transport held by A: writes are queued towards B and never
fail, reads take from what B wrote (as `bufferReader` does, so that a read
which finds too few bytes reports the end of the stream). -/
def peerA : NetConn Net where
  Write := fun n p => ({ n with ab := n.ab ++ p }, p.length, none)
  ReadFull := fun n k =>
    match bufferReader.ReadFull n.ba k with
    | (ba, got, err) => ({ n with ba := ba }, got, err)
  Close := fun n => (n, none)

/-- The end of the transport held by B. -/
def peerB : NetConn Net where
  Write := fun n p => ({ n with ba := n.ba ++ p }, p.length, none)
  ReadFull := fun n k =>
    match bufferReader.ReadFull n.ab k with
    | (ab, got, err) => ({ n with ab := ab }, got, err)
  Close := fun n => (n, none)

/-- Two connections, one at each end of the transport, each with its own
random source. -/
structure Duplex where
  /-- The bytes in flight. -/
  net : Net
  /-- The `Connection` of peer A. -/
  A : Connection
  /-- The `Connection` of peer B. -/
  B : Connection
  /-- The random source of peer A. -/
  rndA : Bytes
  /-- The random source of peer B. -/
  rndB : Bytes
  deriving DecidableEq

/-- A call made by one of the two peers. -/
inductive Event where
  /-- Peer A calls `WriteMessage(data)`. -/
  | sendA (data : Bytes)
  /-- Peer B calls `WriteMessage(data)`. -/
  | sendB (data : Bytes)
  /-- Peer A calls `ReadMessage()`. -/
  | recvA
  /-- Peer B calls `ReadMessage()`. -/
  | recvB
  deriving DecidableEq

/-- What a call returned. -/
inductive Returned where
  /-- The error returned by a `WriteMessage` of A. -/
  | sentA (err : Option GoError)
  /-- The error returned by a `WriteMessage` of B. -/
  | sentB (err : Option GoError)
  /-- The data and error returned by a `ReadMessage` of A. -/
  | gotA (data : Option Bytes) (err : Option GoError)
  /-- The data and error returned by a `ReadMessage` of B. -/
  | gotB (data : Option Bytes) (err : Option GoError)
  deriving DecidableEq

/-- The error that a call returned. -/
def Returned.err : Returned → Option GoError
  | .sentA err => err
  | .sentB err => err
  | .gotA _ err => err
  | .gotB _ err => err

/-- The two handshakes, each peer running `handshake` against the other: both
send halves, then both receive halves, a peer going on to its receive half
only when its send half reported no error. Returns the state and the errors
of the two handshakes. -/
def Duplex.establish (A : AEAD) (cA cB : Connection) (rndA rndB : Bytes) :
    Except GoPanic (Duplex × Option GoError × Option GoError) := do
  match ← handshakeSend A peerA ⟨[], []⟩ cA rndA with
  | (net, a, rndA, errA) =>
    match ← handshakeSend A peerB net cB rndB with
    | (net, b, rndB, errB) =>
      match ← (if errA = none then handshakeReceive A peerA net a else .ok (net, a, errA)) with
      | (net, a, errA) =>
        match ← (if errB = none then handshakeReceive A peerB net b else .ok (net, b, errB)) with
        | (net, b, errB) => .ok (⟨net, a, b, rndA, rndB⟩, errA, errB)

/-- One call by one of the peers. -/
def Duplex.step (A : AEAD) (d : Duplex) : Event → Except GoPanic (Duplex × Returned)
  | .sendA data =>
    match WriteMessage A peerA d.net d.A data d.rndA with
    | (net, conn, rnd, err) => .ok ({ d with net := net, A := conn, rndA := rnd }, .sentA err)
  | .sendB data =>
    match WriteMessage A peerB d.net d.B data d.rndB with
    | (net, conn, rnd, err) => .ok ({ d with net := net, B := conn, rndB := rnd }, .sentB err)
  | .recvA => do
    match ← ReadMessage A peerA d.net d.A with
    | (net, conn, data, err) => .ok ({ d with net := net, A := conn }, .gotA data err)
  | .recvB => do
    match ← ReadMessage A peerB d.net d.B with
    | (net, conn, data, err) => .ok ({ d with net := net, B := conn }, .gotB data err)

/-- A sequence of calls by the two peers, in the order in which they take
effect, with what each returned. -/
def Duplex.run (A : AEAD) (d : Duplex) : List Event → Except GoPanic (Duplex × List Returned)
  | [] => .ok (d, [])
  | e :: es => do
    let (d, r) ← d.step A e
    let (d, rs) ← d.run A es
    .ok (d, r :: rs)

/-- The bodies that A passes to `WriteMessage`, in order. -/
def sentByA : List Event → List Bytes
  | [] => []
  | .sendA data :: es => data :: sentByA es
  | _ :: es => sentByA es

/-- The bodies that B passes to `WriteMessage`, in order. -/
def sentByB : List Event → List Bytes
  | [] => []
  | .sendB data :: es => data :: sentByB es
  | _ :: es => sentByB es

/-- The number of `ReadMessage` calls of A. -/
def readsOfA : List Event → Nat
  | [] => 0
  | .recvA :: es => readsOfA es + 1
  | _ :: es => readsOfA es

/-- The number of `ReadMessage` calls of B. -/
def readsOfB : List Event → Nat
  | [] => 0
  | .recvB :: es => readsOfB es + 1
  | _ :: es => readsOfB es

/-- The data that the `ReadMessage` calls of A returned, in order. -/
def gotByA : List Returned → List (Option Bytes)
  | [] => []
  | .gotA data _ :: rs => data :: gotByA rs
  | _ :: rs => gotByA rs

/-- The data that the `ReadMessage` calls of B returned, in order. -/
def gotByB : List Returned → List (Option Bytes)
  | [] => []
  | .gotB data _ :: rs => data :: gotByB rs
  | _ :: rs => gotByB rs

/-- A sequence of calls in which every `ReadMessage` takes effect after the
`WriteMessage` of the message it reads, as a blocking read on the transport
does: `ab` and `ba` count the messages in flight in each direction. -/
def causal : Nat → Nat → List Event → Bool
  | _, _, [] => true
  | ab, ba, .sendA _ :: es => causal (ab + 1) ba es
  | ab, ba, .sendB _ :: es => causal ab (ba + 1) es
  | ab, ba, .recvA :: es => decide (0 < ba) && causal ab (ba - 1) es
  | ab, ba, .recvB :: es => decide (0 < ab) && causal (ab - 1) ba es

/-- The block that `WriteEncrypted` frames for the message `m` with the
sequence tag of counter value `i`, for a sender whose challenges are `a`
(local) and `b` (remote), under the nonce `nonce`. -/
def sealedMessage (A : AEAD) (key : AESKey) (a b i : Nat) (m nonce : Bytes) : Bytes :=
  nonce ++ A.Seal key nonce
    (BigEndian.AppendUint64 [] (((a * (i % 2 ^ 64)) % 2 ^ 64) ^^^ b) ++ m)

/-- The bytes `w` are the frames of the messages `ms`, in order, the first one
carrying the tag of counter value `i`, each under some nonce. -/
def Frames (A : AEAD) (key : AESKey) (a b : Nat) : Nat → List Bytes → Bytes → Prop
  | _, [], w => w = []
  | i, m :: ms, w =>
    ∃ nonce w2, nonce.length = NonceSize ∧
      (sealedMessage A key a b i m nonce).length ≤ maxAlloc ∧
      w = BigEndian.AppendUint64 [] (sealedMessage A key a b i m nonce).length
            ++ sealedMessage A key a b i m nonce ++ w2 ∧
      Frames A key a b (i + 1) ms w2

/-- The invariant of an established pair of connections: same key, challenges
exchanged, and in each direction the bytes in flight are the frames of the
messages written and not yet read, tagged from the counter of the reader on. -/
structure Duplex.Inv (A : AEAD) (key : AESKey) (a b : Nat) (d : Duplex)
    (pab pba : List Bytes) (rB rA : Nat) : Prop where
  /-- A holds the key. -/
  keyA : d.A.key = key
  /-- B holds the key. -/
  keyB : d.B.key = key
  /-- The local challenge of A. -/
  aL : d.A.challengeLocal = a
  /-- The remote challenge of A. -/
  aR : d.A.challengeRemote = b
  /-- The local challenge of B. -/
  bL : d.B.challengeLocal = b
  /-- The remote challenge of B. -/
  bR : d.B.challengeRemote = a
  /-- The challenge of A fits 64 bits. -/
  ha : a < 2 ^ 64
  /-- The challenge of B fits 64 bits. -/
  hb : b < 2 ^ 64
  /-- A has sent what B has read and what is in flight. -/
  cAl : d.A.counterLocal = (rB + pab.length) % 2 ^ 64
  /-- B has read `rB` messages. -/
  cBr : d.B.counterRemote = rB % 2 ^ 64
  /-- B has sent what A has read and what is in flight. -/
  cBl : d.B.counterLocal = (rA + pba.length) % 2 ^ 64
  /-- A has read `rA` messages. -/
  cAr : d.A.counterRemote = rA % 2 ^ 64
  /-- The frames in flight from A to B. -/
  fab : Frames A key a b rB pab d.net.ab
  /-- The frames in flight from B to A. -/
  fba : Frames A key b a rA pba d.net.ba

/-- A sample exchange: A sends two messages, B reads one and answers, A reads
the answer, B reads the second message. -/
def sampleEvents : List Event :=
  [.sendA [7], .sendA [], .recvB, .sendB [9, 9], .recvA, .recvB]

/-- A sample draw of the random source for a handshake and two messages. -/
def sampleLongTape : Bytes := sampleTape ++ sampleNonce

/-- The bytes that `WriteEncrypted` writes for the message `104 105` under
`sampleAEAD`, `sampleKey` and `sampleNonce`: length 30, nonce, message, tag. -/
def sampleWireHi : Bytes :=
  [0, 0, 0, 0, 0, 0, 0, 30] ++ sampleNonce ++ [104, 105] ++ sampleNonce ++ [1, 1, 1, 1]

/-! ## A connection that can fail and be closed -/

/-- The state of a socket-like connection: the bytes that can still be read,
the bytes written, whether `Close` was called, the error with which every
`Write` fails (when there is one), and the number of reads made. -/
structure Sock where
  /-- The bytes that the remote peer sent and that are still unread. -/
  rx : Bytes
  /-- The bytes written so far. -/
  tx : Bytes
  /-- Whether `Close` was called. -/
  closed : Bool
  /-- The error with which every `Write` fails, if any. -/
  writeErr : Option GoError
  /-- The number of `io.ReadFull` calls made on the connection. -/
  reads : Nat
  deriving DecidableEq

/-- The connection over a `Sock`: a `Write` fails with `writeErr`, accepting
nothing, or appends to `tx`; a read takes from `rx` as `bufferReader` does and
is counted; `Close` sets `closed`. -/
def sock : NetConn Sock where
  Write := fun s p =>
    match s.writeErr with
    | some e => (s, 0, some e)
    | none => ({ s with tx := s.tx ++ p }, p.length, none)
  ReadFull := fun s n =>
    match bufferReader.ReadFull s.rx n with
    | (rx, got, err) => ({ s with rx := rx, reads := s.reads + 1 }, got, err)
  Close := fun s => ({ s with closed := true }, none)

/-- The bytes that `handshake` writes under the zero key for the challenge of
`sampleTape`, with `sampleNonce`. -/
def sampleHandshakeWireZero : Bytes :=
  [0, 0, 0, 0, 0, 0, 0, 36] ++ sampleNonce
    ++ [8, 7, 6, 5, 4, 3, 2, 1] ++ sampleNonce ++ [0, 0, 0, 0]

/-- The connection that `NewConnection` returns when the handshake fails after
the challenge of `sampleTape` was drawn. -/
def sampleFailedConn : Connection :=
  { key := zeroKey, challengeRemote := 0, counterRemote := 0,
    challengeLocal := sampleChallenge, counterLocal := 0 }

/-- The bytes that `WriteMessage` writes for the body `42` with the sequence
tag `6` under `sampleAEAD`, `sampleKey` and `sampleNonce`. -/
def sampleWire6 : Bytes :=
  [0, 0, 0, 0, 0, 0, 0, 37] ++ sampleNonce
    ++ [0, 0, 0, 0, 0, 0, 0, 6, 42] ++ sampleNonce ++ [1, 1, 1, 1]

/-- The bytes that `WriteEncrypted` writes for the empty plaintext under
`sampleAEAD`, `sampleKey` and `sampleNonce`: length 28, nonce, tag. -/
def sampleWireEmpty : Bytes :=
  [0, 0, 0, 0, 0, 0, 0, 28] ++ sampleNonce ++ sampleNonce ++ [1, 1, 1, 1]

/-- The bytes that `WriteEncrypted` writes for the empty plaintext under
`sampleAEAD`, the zero key and `sampleNonce`. -/
def sampleWireEmptyZero : Bytes :=
  [0, 0, 0, 0, 0, 0, 0, 28] ++ sampleNonce ++ sampleNonce ++ [0, 0, 0, 0]

/-- A writer that breaks the contract of `io.Writer`: each `Write` accepts at
most `cap` bytes and reports the count with a nil error. -/
def shortWriter (cap : Nat) : Writer Bytes where
  Write := fun b p => (b ++ p.take cap, min cap p.length, none)

/-! ## `internal/helpers/keyDerivation.go` and `pkg/crypto/key.go` -/

/-- Derives a 32 byte key from a password using Argon2id. The function
`argon2.IDKey` of `golang.org/x/crypto` is the parameter `IDKey`, called with
the password bytes, the salt, the three cost parameters and the key length;
the key is the first `KeySize` bytes of what it returns, after a check of the
length that panics. -/
def DeriveKeySecure (IDKey : Bytes → Bytes → Nat → Nat → Nat → Nat → Bytes)
    (password : Bytes) (salt : Bytes) (time memory parallelism : Nat) :
    Except GoPanic AESKey :=
  let keyBytes := IDKey password salt time memory parallelism KeySize
  if h : keyBytes.length ≠ KeySize then .error .derivedKeySizeMismatch
  else .ok ⟨keyBytes.take KeySize, by
    rw [List.length_take]
    simp only [ne_eq, Decidable.not_not] at h
    omega⟩

/-- Default time value for `DeriveSecureKey` to use with Argon2id. -/
def DefaultTime : Nat := 2

/-- Default memory value for `DeriveSecureKey` to use with Argon2id. -/
def DefaultMemory : Nat := 124 * 1024

/-- Default threads value for `DeriveSecureKey` to use with Argon2id. -/
def DefaultParallelism : Nat := 4 * 2

/-- Salt used in case `DeriveSecureKey` is called with `nil` as salt. -/
def DefaultSalt : Bytes :=
  [163, 90, 143, 1, 169, 73, 126, 71, 149, 0, 49, 114, 247, 182, 221, 229, 185, 37, 74, 69, 68,
   112, 44, 66, 109, 233, 126, 29, 169, 95, 40, 59, 235, 179, 92, 137, 179, 178, 117, 209, 42,
   107, 106, 179, 2, 169, 144, 37, 239, 230, 186, 31, 90, 65, 5, 126, 186, 192, 215, 23, 175,
   45, 150, 47]

/-- Securely derives a key from a password and some salt: a nil salt and each
zero cost parameter are replaced, one after the other, by the default value,
then `helpers.DeriveKeySecure` is called. The salt is `none` for the nil
slice. -/
def DeriveSecureKey (IDKey : Bytes → Bytes → Nat → Nat → Nat → Nat → Bytes)
    (password : Bytes) (salt : Option Bytes) (time memory threads : Nat) :
    Except GoPanic AESKey :=
  let salt := match salt with
    | none => DefaultSalt
    | some salt => salt
  let time := if time = 0 then DefaultTime else time
  let memory := if memory = 0 then DefaultMemory else memory
  let threads := if threads = 0 then DefaultParallelism else threads
  DeriveKeySecure IDKey password salt time memory threads

/-- A sample key derivation function: the password, then the salt, then the
three cost parameters as bytes, cut or padded with zero bytes to the key
length. -/
def sampleIDKey (password salt : Bytes) (time memory threads keyLen : Nat) : Bytes :=
  ((password ++ salt ++ [byte time, byte memory, byte threads]) ++ List.replicate keyLen 0).take
    keyLen

/-! ## `RandomHex` -/

/-- The value of an `int` expression after overflow: two's complement on 64
bits. -/
def wrapInt (x : Int) : Int := (x + 2 ^ 63) % 2 ^ 64 - 2 ^ 63

/-- Go `make([]byte, n)` for an `int` length: panics (`makeslice: len out of
range`) when `n` is negative or exceeds `maxAlloc`, otherwise yields `n` zero
bytes. -/
def makeSliceInt (n : Int) : Except GoPanic Bytes :=
  if 0 ≤ n ∧ n ≤ (maxAlloc : Int) then .ok (List.replicate n.toNat 0)
  else .error .makesliceLenOutOfRange

/-- The table of `encoding/hex`: the 16 lowercase hexadecimal digits. -/
def hextable : List Char :=
  ['0', '1', '2', '3', '4', '5', '6', '7', '8', '9', 'a', 'b', 'c', 'd', 'e', 'f']

/-- Go `hex.Encode`: two digits of `hextable` per byte, the high half
first. -/
def hexEncode (src : Bytes) : List Char :=
  src.flatMap (fun v => [hextable.getD (v.val / 16) '0', hextable.getD (v.val % 16) '0'])

/-- Go `hex.EncodeToString`: allocates a buffer of twice the length of `src`
with `make`, which may panic, and fills it with the digits. -/
def hexEncodeToString (src : Bytes) : Except GoPanic (List Char) := do
  let _ ← makeSliceInt ((2 * src.length : Nat) : Int)
  .ok (hexEncode src)

/-- Returns a true-random hex string of a given length: `(length + 1) / 2`
random bytes (`int` arithmetic: the sum wraps, the division truncates), in
hexadecimal, cut to `length` characters. Panics when the random source fails,
and where `make` or the slice expression do. -/
def RandomHex (length : Int) (rnd : Bytes) : Except GoPanic (Bytes × List Char) := do
  let randomBytes ← makeSliceInt (Int.tdiv (wrapInt (length + 1)) 2)
  match bufferReader.ReadFull rnd randomBytes.length with
  | (_, _, some _) => .error .randomSourceFailed
  | (rnd, got, none) => do
    let encoded ← hexEncodeToString (fill randomBytes got)
    if 0 ≤ length ∧ length ≤ (encoded.length : Int) then
      .ok (rnd, encoded.take length.toNat)
    else .error .sliceBoundsOutOfRange

/-- Package `crypto`: returns a true-random hex string of a given length. -/
def crypto.RandomHex (length : Int) (rnd : Bytes) : Except GoPanic (Bytes × List Char) :=
  GoSymCryto.RandomHex length rnd

/-- A handshake block under `sampleKey` and `sampleNonce` whose plaintext has
9 bytes: the challenge `5` in big-endian order, then the byte `99`. -/
def sampleWireLong : Bytes :=
  [0, 0, 0, 0, 0, 0, 0, 37] ++ sampleNonce ++ [0, 0, 0, 0, 0, 0, 0, 5, 99] ++ sampleNonce
    ++ [1, 1, 1, 1]

/-- The bytes that `handshake` writes under `sampleKey` with the random tape
`sampleTape`: the challenge `sampleChallenge`, sealed. -/
def sampleHandshakeWire : Bytes :=
  [0, 0, 0, 0, 0, 0, 0, 36] ++ sampleNonce ++ [8, 7, 6, 5, 4, 3, 2, 1] ++ sampleNonce
    ++ [1, 1, 1, 1]

/-! ## Lemmas on the byte order helpers and on the buffer -/

theorem AppendUint64_length (b : Bytes) (v : Nat) :
    (BigEndian.AppendUint64 b v).length = b.length + 8 := by
  simp [BigEndian.AppendUint64]

theorem AppendUint64_mod (b : Bytes) (v : Nat) :
    BigEndian.AppendUint64 b (v % 2 ^ 64) = BigEndian.AppendUint64 b v := by
  simp only [BigEndian.AppendUint64, byte]
  congr 1
  simp only [List.cons.injEq, Fin.mk.injEq, and_true]
  omega

theorem Uint64_AppendUint64 (v : Nat) (rest : Bytes) :
    BigEndian.Uint64 (BigEndian.AppendUint64 [] v ++ rest) = .ok (v % 2 ^ 64) := by
  simp only [BigEndian.AppendUint64, byte, List.nil_append, List.cons_append, BigEndian.Uint64]
  congr 1
  omega

theorem Uint64_lt (b : Bytes) (v : Nat) (h : BigEndian.Uint64 b = .ok v) : v < 2 ^ 64 := by
  match b, h with
  | b0 :: b1 :: b2 :: b3 :: b4 :: b5 :: b6 :: b7 :: _, h =>
    simp only [BigEndian.Uint64, Except.ok.injEq] at h
    have h0 := b0.isLt; have h1 := b1.isLt; have h2 := b2.isLt; have h3 := b3.isLt
    have h4 := b4.isLt; have h5 := b5.isLt; have h6 := b6.isLt; have h7 := b7.isLt
    omega

theorem fill_full (buf got : Bytes) (h : got.length = buf.length) : fill buf got = got := by
  simp [fill, h]

theorem bufferReader_ReadFull_append (x rest : Bytes) :
    bufferReader.ReadFull (x ++ rest) x.length = (rest, x, none) := by
  simp [bufferReader]

theorem bufferReader_ReadFull_ok (b got b2 : Bytes) (n : Nat)
    (h : bufferReader.ReadFull b n = (b2, got, none)) : b = got ++ b2 ∧ got.length = n := by
  simp only [bufferReader] at h
  split at h
  · simp only [Prod.mk.injEq, and_true] at h
    obtain ⟨h1, h2⟩ := h
    subst h1 h2
    simp
    omega
  · split at h <;> simp at h

theorem Encode_buffer (w x : Bytes) :
    Encode bufferWriter w x = (w ++ BigEndian.AppendUint64 [] x.length ++ x, none) := by
  simp only [Encode, bufferWriter, AppendUint64_mod]

theorem Decode_frame (x rest : Bytes) (h : x.length ≤ maxAlloc) :
    Decode bufferReader (BigEndian.AppendUint64 [] x.length ++ x ++ rest)
      = .ok (rest, some x, none) := by
  have hlen : x.length % 2 ^ 64 = x.length := by
    apply Nat.mod_eq_of_lt
    simp only [maxAlloc] at h
    omega
  have h8 : BytesFor64Bit = (BigEndian.AppendUint64 [] x.length).length := by
    simp [AppendUint64_length, BytesFor64Bit]
  have hread : bufferReader.ReadFull (BigEndian.AppendUint64 [] x.length ++ x ++ rest)
      BytesFor64Bit = (x ++ rest, BigEndian.AppendUint64 [] x.length, none) := by
    rw [h8, List.append_assoc, bufferReader_ReadFull_append]
  have hfill : fill (List.replicate BytesFor64Bit 0) (BigEndian.AppendUint64 [] x.length)
      = BigEndian.AppendUint64 [] x.length := by
    apply fill_full
    simp [AppendUint64_length, BytesFor64Bit]
  have hu : BigEndian.Uint64 (BigEndian.AppendUint64 [] x.length) = .ok x.length := by
    have := Uint64_AppendUint64 x.length []
    rwa [List.append_nil, hlen] at this
  have hfill2 : fill (List.replicate x.length 0) x = x := fill_full _ _ (by simp)
  simp only [Decode, hread, hfill, hu, makeSlice, h, if_true, bind, Except.bind,
    bufferReader_ReadFull_append, hfill2]

/-- **C1** Framing round trip: on a stream holding the bytes that `Encode`
wrote for `x`, followed by any bytes `rest`, `Decode` returns `x` with no
error and leaves exactly `rest` unread; with nothing after the frame the
stream is fully consumed. The bound on the length is that of every Go slice. -/
theorem C1_Decode_Encode (x rest : Bytes) (h : x.length ≤ maxAlloc) :
    (Encode bufferWriter [] x).2 = none ∧
    Decode bufferReader ((Encode bufferWriter [] x).1 ++ rest) = .ok (rest, some x, none) ∧
    Decode bufferReader (Encode bufferWriter [] x).1 = .ok ([], some x, none) := by
  rw [Encode_buffer]
  refine ⟨rfl, ?_, ?_⟩
  · simpa using Decode_frame x rest h
  · simpa using Decode_frame x [] h

theorem C1_Decode_Encode_witness :
    ([50, 42, 10] : Bytes).length ≤ maxAlloc ∧
    (Encode bufferWriter [] [50, 42, 10]).2 = none ∧
    Decode bufferReader ((Encode bufferWriter [] [50, 42, 10]).1 ++ [7, 7])
      = .ok ([7, 7], some [50, 42, 10], none) ∧
    Decode bufferReader (Encode bufferWriter [] [50, 42, 10]).1
      = .ok ([], some [50, 42, 10], none) :=
  ⟨by decide, C1_Decode_Encode [50, 42, 10] [7, 7] (by decide)⟩

/-- **C2** Wire image of `Encode`: on a writer that accepts all bytes it
reports no error and writes exactly `8 + len(x)` bytes; the first 8 are
`len(x)` as an unsigned 64-bit big-endian integer (byte `i` is
`len(x) / 256 ^ (7 - i)` truncated to 8 bits, and `Uint64` reads `len(x)`
back), and the remaining bytes are `x` unchanged. -/
theorem C2_Encode_wire (x : Bytes) (h : x.length < 2 ^ 64) :
    (Encode bufferWriter [] x).2 = none ∧
    (Encode bufferWriter [] x).1.length = 8 + x.length ∧
    (∀ i, i < 8 → (Encode bufferWriter [] x).1.get? i
        = some (byte (x.length / 256 ^ (7 - i)))) ∧
    BigEndian.Uint64 ((Encode bufferWriter [] x).1.take 8) = .ok x.length ∧
    (Encode bufferWriter [] x).1.drop 8 = x := by
  rw [Encode_buffer]
  refine ⟨rfl, ?_, ?_, ?_, ?_⟩
  · simp only [List.length_append, AppendUint64_length, List.length_nil, Nat.zero_add]
  · intro i hi
    interval_cases i <;> simp [BigEndian.AppendUint64]
  · have h8 : (BigEndian.AppendUint64 [] x.length).length = 8 := by simp [AppendUint64_length]
    have := Uint64_AppendUint64 x.length []
    rw [List.append_nil, Nat.mod_eq_of_lt h] at this
    simpa [List.take_append_eq_append_take, h8] using this
  · simp [BigEndian.AppendUint64]

theorem C2_Encode_wire_witness :
    ([1] : Bytes).length < 2 ^ 64 ∧
    (Encode bufferWriter [] [1]).2 = none ∧
    (Encode bufferWriter [] [1]).1.length = 8 + ([1] : Bytes).length ∧
    (∀ i, i < 8 → (Encode bufferWriter [] [1]).1.get? i
        = some (byte (([1] : Bytes).length / 256 ^ (7 - i)))) ∧
    BigEndian.Uint64 ((Encode bufferWriter [] [1]).1.take 8) = .ok ([1] : Bytes).length ∧
    (Encode bufferWriter [] [1]).1.drop 8 = [1] :=
  ⟨by decide, C2_Encode_wire [1] (by decide)⟩

/-- The examples of the test table of `Encode`: the empty block, the block
`01` and a block of 1000 zero bytes. -/
theorem Encode_examples :
    Encode bufferWriter [] [] = ([0, 0, 0, 0, 0, 0, 0, 0], none) ∧
    Encode bufferWriter [] [1] = ([0, 0, 0, 0, 0, 0, 0, 1, 1], none) ∧
    Encode bufferWriter [] [50, 42, 10] = ([0, 0, 0, 0, 0, 0, 0, 3, 50, 42, 10], none) ∧
    Encode bufferWriter [] (List.replicate 1000 0)
      = ([0, 0, 0, 0, 0, 0, 0x3, 0xe8] ++ List.replicate 1000 0, none) := by
  refine ⟨by decide, by decide, by decide, ?_⟩
  have h8 : BigEndian.AppendUint64 [] 1000 = [0, 0, 0, 0, 0, 0, 0x3, 0xe8] := by decide
  rw [Encode_buffer, List.length_replicate, List.nil_append, h8]

/-! ## Encrypted blocks -/

theorem sampleAEAD_correct : sampleAEAD.Correct := by
  intro key nonce plaintext
  have hk : ((nonce ++ key.bytes).take 16).length = 16 := by
    have := key.size
    simp only [KeySize] at this
    simp only [List.length_take, List.length_append]
    omega
  simp only [sampleAEAD, List.length_append, hk]
  simp

theorem sampleAEAD_expands : sampleAEAD.Expands 16 := by
  intro key nonce plaintext
  simp only [sampleAEAD, List.length_append, List.length_take]
  omega

theorem Encrypt_ok (A : AEAD) (key : AESKey) (p rnd rnd2 : Bytes) (c : Option Bytes)
    (h : Encrypt A key p rnd = (rnd2, c, none)) :
    ∃ nonce, nonce.length = NonceSize ∧ rnd = nonce ++ rnd2 ∧
      c = some (nonce ++ A.Seal key nonce p) := by
  simp only [Encrypt] at h
  rcases hr : bufferReader.ReadFull rnd NonceSize with ⟨r, got, e⟩
  rw [hr] at h
  cases e with
  | some err => simp at h
  | none =>
    obtain ⟨h1, h2⟩ := bufferReader_ReadFull_ok _ _ _ _ hr
    have hf : fill (List.replicate NonceSize 0) got = got := fill_full _ _ (by simp [h2])
    simp only [hf, Prod.mk.injEq, and_true] at h
    obtain ⟨hr2, hc⟩ := h
    subst hr2
    exact ⟨got, h2, h1, hc.symm⟩

theorem Encrypt_enough (A : AEAD) (key : AESKey) (p nonce rnd2 : Bytes)
    (hn : nonce.length = NonceSize) :
    Encrypt A key p (nonce ++ rnd2) = (rnd2, some (nonce ++ A.Seal key nonce p), none) := by
  have hf : fill (List.replicate NonceSize 0) nonce = nonce := fill_full _ _ (by simp [hn])
  simp only [Encrypt, ← hn, bufferReader_ReadFull_append]
  rw [hn, hf]

theorem Encrypt_err (A : AEAD) (key : AESKey) (p rnd rnd2 : Bytes) (c : Option Bytes)
    (err : GoError) (h : Encrypt A key p rnd = (rnd2, c, some err)) : c = none := by
  simp only [Encrypt] at h
  rcases hr : bufferReader.ReadFull rnd NonceSize with ⟨r, got, e⟩
  rw [hr] at h
  cases e with
  | some err2 =>
    simp only [Prod.mk.injEq] at h
    exact h.2.1.symm
  | none => simp at h

theorem appendToNil_getD (p : Bytes) : (appendToNil p).getD [] = p := by
  unfold appendToNil
  split
  · rename_i h
    rw [h]
    rfl
  · rfl

theorem appendToNil_of_ne (p : Bytes) (h : p ≠ []) : appendToNil p = some p := by
  unfold appendToNil
  rw [if_neg h]

theorem Decrypt_sealed (A : AEAD) (hA : A.Correct) (key : AESKey) (nonce p : Bytes)
    (hn : nonce.length = NonceSize) :
    Decrypt A key (nonce ++ A.Seal key nonce p) = (appendToNil p, none) := by
  have h1 : ¬ (nonce ++ A.Seal key nonce p).length < NonceSize := by
    simp only [List.length_append, hn]
    omega
  have h2 : (nonce ++ A.Seal key nonce p).take NonceSize = nonce := by
    rw [← hn, List.take_left]
  have h3 : (nonce ++ A.Seal key nonce p).drop NonceSize = A.Seal key nonce p := by
    rw [← hn, List.drop_left]
  simp only [Decrypt, h1, if_false, h2, h3, hA key nonce p]

/-- **C3** Encryption round trip: for every key and plaintext, whenever
`Encrypt` returns a block `c` and no error, whatever the random source held,
`Decrypt` under the same key returns the plaintext and no error, provided the
primitive opens what it sealed. The slice returned holds exactly the bytes of
the plaintext; it is the nil slice when the plaintext is empty. -/
theorem C3_Decrypt_Encrypt (A : AEAD) (hA : A.Correct) (key : AESKey) (p rnd rnd2 c : Bytes)
    (h : Encrypt A key p rnd = (rnd2, some c, none)) :
    Decrypt A key c = (appendToNil p, none) ∧
      (Decrypt A key c).1.getD [] = p ∧
      (p ≠ [] → Decrypt A key c = (some p, none)) ∧
      (p = [] → Decrypt A key c = (none, none)) := by
  obtain ⟨nonce, hn, -, hc⟩ := Encrypt_ok A key p rnd rnd2 (some c) h
  simp only [Option.some.injEq] at hc
  rw [hc, Decrypt_sealed A hA key nonce p hn]
  refine ⟨rfl, appendToNil_getD p, ?_, ?_⟩
  · intro hp
    rw [appendToNil_of_ne p hp]
  · intro hp
    rw [hp]
    rfl

theorem C3_Decrypt_Encrypt_witness :
    (sampleAEAD.Correct ∧
      Encrypt sampleAEAD sampleKey [104, 105] [9, 8, 7, 6, 5, 4, 3, 2, 1, 0, 1, 2, 3]
        = ([3], some [9, 8, 7, 6, 5, 4, 3, 2, 1, 0, 1, 2, 104, 105, 9, 8, 7, 6, 5, 4, 3, 2,
                      1, 0, 1, 2, 1, 1, 1, 1], none)) ∧
    Decrypt sampleAEAD sampleKey
        [9, 8, 7, 6, 5, 4, 3, 2, 1, 0, 1, 2, 104, 105, 9, 8, 7, 6, 5, 4, 3, 2, 1, 0, 1, 2,
          1, 1, 1, 1]
      = (some [104, 105], none) ∧
    (Decrypt sampleAEAD sampleKey
        [9, 8, 7, 6, 5, 4, 3, 2, 1, 0, 1, 2, 104, 105, 9, 8, 7, 6, 5, 4, 3, 2, 1, 0, 1, 2,
          1, 1, 1, 1]
      = (appendToNil [104, 105], none) ∧
      (Decrypt sampleAEAD sampleKey
        [9, 8, 7, 6, 5, 4, 3, 2, 1, 0, 1, 2, 104, 105, 9, 8, 7, 6, 5, 4, 3, 2, 1, 0, 1, 2,
          1, 1, 1, 1]).1.getD [] = [104, 105] ∧
      (([104, 105] : Bytes) ≠ [] →
        Decrypt sampleAEAD sampleKey
          [9, 8, 7, 6, 5, 4, 3, 2, 1, 0, 1, 2, 104, 105, 9, 8, 7, 6, 5, 4, 3, 2, 1, 0, 1, 2,
            1, 1, 1, 1]
        = (some [104, 105], none)) ∧
      (([104, 105] : Bytes) = [] →
        Decrypt sampleAEAD sampleKey
          [9, 8, 7, 6, 5, 4, 3, 2, 1, 0, 1, 2, 104, 105, 9, 8, 7, 6, 5, 4, 3, 2, 1, 0, 1, 2,
            1, 1, 1, 1]
        = (none, none))) :=
  ⟨⟨sampleAEAD_correct, by decide⟩, by decide,
    C3_Decrypt_Encrypt sampleAEAD sampleAEAD_correct sampleKey [104, 105]
      [9, 8, 7, 6, 5, 4, 3, 2, 1, 0, 1, 2, 3] [3] _ (by decide)⟩

/-- The empty plaintext: `Encrypt` returns the nonce and the tag, and
`Decrypt` of that block returns the nil slice and no error. -/
theorem Decrypt_Encrypt_empty :
    Encrypt sampleAEAD sampleKey [] [9, 8, 7, 6, 5, 4, 3, 2, 1, 0, 1, 2, 3]
      = ([3], some [9, 8, 7, 6, 5, 4, 3, 2, 1, 0, 1, 2, 9, 8, 7, 6, 5, 4, 3, 2, 1, 0, 1, 2,
                    1, 1, 1, 1], none) ∧
    Decrypt sampleAEAD sampleKey
      [9, 8, 7, 6, 5, 4, 3, 2, 1, 0, 1, 2, 9, 8, 7, 6, 5, 4, 3, 2, 1, 0, 1, 2, 1, 1, 1, 1]
      = (none, none) := by
  decide

theorem WriteEncrypted_enough {σ : Type} (A : AEAD) (W : Writer σ) (w : σ) (key : AESKey)
    (data nonce rnd2 : Bytes) (hn : nonce.length = NonceSize) :
    WriteEncrypted A W w key data (nonce ++ rnd2)
      = ((Encode W w (nonce ++ A.Seal key nonce data)).1, rnd2,
         (Encode W w (nonce ++ A.Seal key nonce data)).2) := by
  simp only [WriteEncrypted, Encrypt_enough A key data nonce rnd2 hn, Option.getD_some]

theorem WriteEncrypted_ok {σ : Type} (A : AEAD) (W : Writer σ) (w w2 : σ) (key : AESKey)
    (data rnd rnd2 : Bytes) (h : WriteEncrypted A W w key data rnd = (w2, rnd2, none)) :
    ∃ nonce, nonce.length = NonceSize ∧ rnd = nonce ++ rnd2 ∧
      Encode W w (nonce ++ A.Seal key nonce data) = (w2, none) := by
  simp only [WriteEncrypted] at h
  rcases he : Encrypt A key data rnd with ⟨r, c, e⟩
  rw [he] at h
  cases e with
  | some err => simp at h
  | none =>
    obtain ⟨nonce, hn, hr, hc⟩ := Encrypt_ok A key data rnd r c he
    subst hc
    simp only [Option.getD_some, Prod.mk.injEq] at h
    obtain ⟨h1, h2, h3⟩ := h
    subst h2
    exact ⟨nonce, hn, hr, Prod.ext h1 h3⟩

theorem ReadEncrypted_frame (A : AEAD) (hA : A.Correct) (key : AESKey) (nonce p rest : Bytes)
    (hn : nonce.length = NonceSize)
    (hlen : (nonce ++ A.Seal key nonce p).length ≤ maxAlloc) :
    ReadEncrypted A bufferReader
        (BigEndian.AppendUint64 [] (nonce ++ A.Seal key nonce p).length
          ++ (nonce ++ A.Seal key nonce p) ++ rest) key
      = .ok (rest, appendToNil p, none) := by
  simp only [ReadEncrypted, Decode_frame _ rest hlen, bind, Except.bind, Option.getD_some,
    Decrypt_sealed A hA key nonce p hn]

theorem ReadEncryptedMessage_frame (A : AEAD) (hA : A.Correct) (key : AESKey)
    (nonce b rest : Bytes) (s t : Nat) (hn : nonce.length = NonceSize)
    (hlen : (nonce ++ A.Seal key nonce (BigEndian.AppendUint64 [] s ++ b)).length ≤ maxAlloc) :
    ReadEncryptedMessage A bufferReader
        (BigEndian.AppendUint64 []
            (nonce ++ A.Seal key nonce (BigEndian.AppendUint64 [] s ++ b)).length
          ++ (nonce ++ A.Seal key nonce (BigEndian.AppendUint64 [] s ++ b)) ++ rest) key t
      = .ok (if s % 2 ^ 64 = t then (rest, some b, none)
             else (rest, none, some .helpersErrInvalidRemoteMessageChallenge)) := by
  have h8 : (BigEndian.AppendUint64 [] s).length = BytesFor64Bit := by
    simp [AppendUint64_length, BytesFor64Bit]
  have hshort : ¬ (BigEndian.AppendUint64 [] s ++ b).length < BytesFor64Bit := by
    simp only [List.length_append, h8]
    omega
  have htake : (BigEndian.AppendUint64 [] s ++ b).take BytesFor64Bit
      = BigEndian.AppendUint64 [] s := by
    rw [← h8, List.take_left]
  have hdrop : (BigEndian.AppendUint64 [] s ++ b).drop BytesFor64Bit = b := by
    rw [← h8, List.drop_left]
  have hu : BigEndian.Uint64 (BigEndian.AppendUint64 [] s) = .ok (s % 2 ^ 64) := by
    simpa using Uint64_AppendUint64 s []
  simp only [ReadEncryptedMessage, ReadEncrypted_frame A hA key nonce _ rest hn hlen, bind,
    Except.bind, appendToNil_getD, hshort, if_false, htake, hdrop, hu, ne_eq, ite_not]
  split <;> rfl

/-! ## Sequenced messages -/

theorem WriteEncryptedMessage_buffer_ok (A : AEAD) (key : AESKey) (s : Nat)
    (b rnd buf rnd2 : Bytes)
    (hw : WriteEncryptedMessage A bufferWriter [] key s b rnd = (buf, rnd2, none)) :
    ∃ nonce, nonce.length = NonceSize ∧ rnd = nonce ++ rnd2 ∧
      buf = BigEndian.AppendUint64 []
              (nonce ++ A.Seal key nonce (BigEndian.AppendUint64 [] s ++ b)).length
            ++ (nonce ++ A.Seal key nonce (BigEndian.AppendUint64 [] s ++ b)) := by
  obtain ⟨nonce, hn, hr, he⟩ := WriteEncrypted_ok A bufferWriter [] buf key _ rnd rnd2 hw
  rw [Encode_buffer] at he
  simp only [List.nil_append, Prod.mk.injEq, and_true] at he
  exact ⟨nonce, hn, hr, he.symm⟩

/-- **C4** Sequenced round trip: for every key, every sequence number of 64
bits and every body, once `WriteEncryptedMessage` has succeeded on an empty
buffer, `ReadEncryptedMessage` with the same key and sequence number returns
exactly the body with no error and leaves the buffer empty, provided the
primitive opens what it sealed. The bound on the buffer is that of every Go
slice. -/
theorem C4_Read_Write_EncryptedMessage (A : AEAD) (hA : A.Correct) (key : AESKey) (s : Nat)
    (hs : s < 2 ^ 64) (b rnd buf rnd2 : Bytes)
    (hw : WriteEncryptedMessage A bufferWriter [] key s b rnd = (buf, rnd2, none))
    (hbuf : buf.length ≤ maxAlloc) :
    ReadEncryptedMessage A bufferReader buf key s = .ok ([], some b, none) := by
  obtain ⟨nonce, hn, -, hb⟩ := WriteEncryptedMessage_buffer_ok A key s b rnd buf rnd2 hw
  have hlen : (nonce ++ A.Seal key nonce (BigEndian.AppendUint64 [] s ++ b)).length ≤ maxAlloc := by
    rw [hb, List.length_append] at hbuf
    omega
  have := ReadEncryptedMessage_frame A hA key nonce b [] s s hn hlen
  rw [List.append_nil, ← hb, if_pos (Nat.mod_eq_of_lt hs)] at this
  exact this

theorem C4_Read_Write_EncryptedMessage_witness :
    sampleAEAD.Correct ∧ 2 ^ 64 - 1 < 2 ^ 64 ∧
    WriteEncryptedMessage sampleAEAD bufferWriter [] sampleKey (2 ^ 64 - 1) [] sampleNonce
      = (sampleWireMax, [], none) ∧
    sampleWireMax.length ≤ maxAlloc ∧
    ReadEncryptedMessage sampleAEAD bufferReader sampleWireMax sampleKey (2 ^ 64 - 1)
      = .ok ([], some [], none) :=
  ⟨sampleAEAD_correct, by decide, by decide, by decide,
    C4_Read_Write_EncryptedMessage sampleAEAD sampleAEAD_correct sampleKey (2 ^ 64 - 1)
      (by decide) [] sampleNonce sampleWireMax [] (by decide) (by decide)⟩

/-- **C5** Replay rejection: for every key, body and sequence numbers `s` and
`t` with `t ≠ s`, reading the bytes that `WriteEncryptedMessage` wrote for `s`
with `ReadEncryptedMessage` expecting `t` returns the nil slice and
`ErrInvalidRemoteMessageChallenge`, and the whole frame has been consumed. -/
theorem C5_replay_rejected (A : AEAD) (hA : A.Correct) (key : AESKey) (s t : Nat)
    (hs : s < 2 ^ 64) (hst : t ≠ s) (b rnd buf rnd2 : Bytes)
    (hw : WriteEncryptedMessage A bufferWriter [] key s b rnd = (buf, rnd2, none))
    (hbuf : buf.length ≤ maxAlloc) :
    ReadEncryptedMessage A bufferReader buf key t
      = .ok ([], none, some .helpersErrInvalidRemoteMessageChallenge) := by
  obtain ⟨nonce, hn, -, hb⟩ := WriteEncryptedMessage_buffer_ok A key s b rnd buf rnd2 hw
  have hlen : (nonce ++ A.Seal key nonce (BigEndian.AppendUint64 [] s ++ b)).length ≤ maxAlloc := by
    rw [hb, List.length_append] at hbuf
    omega
  have hne : ¬ s % 2 ^ 64 = t := by
    rw [Nat.mod_eq_of_lt hs]
    exact fun h => hst h.symm
  have := ReadEncryptedMessage_frame A hA key nonce b [] s t hn hlen
  rw [List.append_nil, ← hb, if_neg hne] at this
  exact this

theorem C5_replay_rejected_witness :
    sampleAEAD.Correct ∧ 5 < 2 ^ 64 ∧ 6 ≠ 5 ∧
    WriteEncryptedMessage sampleAEAD bufferWriter [] sampleKey 5 [42] sampleNonce
      = (sampleWire5, [], none) ∧
    sampleWire5.length ≤ maxAlloc ∧
    ReadEncryptedMessage sampleAEAD bufferReader sampleWire5 sampleKey 6
      = .ok ([], none, some .helpersErrInvalidRemoteMessageChallenge) :=
  ⟨sampleAEAD_correct, by decide, by decide, by decide, by decide,
    C5_replay_rejected sampleAEAD sampleAEAD_correct sampleKey 5 6 (by decide) (by decide)
      [42] sampleNonce sampleWire5 [] (by decide) (by decide)⟩

/-! ## The handshake and the sequence numbers -/

theorem RandomUint64_lt (rnd rnd2 : Bytes) (v : Nat) (h : RandomUint64 rnd = .ok (rnd2, v)) :
    v < 2 ^ 64 := by
  simp only [RandomUint64] at h
  split at h
  · simp at h
  · rename_i r got hr
    generalize fill (List.replicate BytesFor64Bit 0) got = buf at h
    match buf, h with
    | b0 :: b1 :: b2 :: b3 :: b4 :: b5 :: b6 :: b7 :: _, h =>
      simp only [LittleEndian.Uint64, bind, Except.bind, Except.ok.injEq, Prod.mk.injEq] at h
      have h0 := b0.isLt; have h1 := b1.isLt; have h2 := b2.isLt; have h3 := b3.isLt
      have h4 := b4.isLt; have h5 := b5.isLt; have h6 := b6.isLt; have h7 := b7.isLt
      omega

theorem handshakeSend_fields {σ : Type} (A : AEAD) (T : NetConn σ) (net net2 : σ)
    (c c2 : Connection) (rnd rnd2 : Bytes) (e : Option GoError)
    (h : handshakeSend A T net c rnd = .ok (net2, c2, rnd2, e)) :
    c2.key = c.key ∧ c2.counterLocal = 0 ∧ c2.counterRemote = 0 ∧
      c2.challengeRemote = c.challengeRemote ∧ c2.challengeLocal < 2 ^ 64 := by
  simp only [handshakeSend, bind, Except.bind] at h
  split at h
  · simp at h
  · rename_i v hr
    obtain ⟨r, ch⟩ := v
    simp only [Except.ok.injEq, Prod.mk.injEq] at h
    obtain ⟨-, hc, -, -⟩ := h
    subst hc
    exact ⟨rfl, rfl, rfl, rfl, RandomUint64_lt _ _ _ hr⟩

theorem handshakeReceive_fields {σ : Type} (A : AEAD) (T : NetConn σ) (net net2 : σ)
    (c c2 : Connection) (e : Option GoError)
    (h : handshakeReceive A T net c = .ok (net2, c2, e)) :
    c2.key = c.key ∧ c2.counterLocal = c.counterLocal ∧ c2.counterRemote = c.counterRemote ∧
      c2.challengeLocal = c.challengeLocal ∧ (e = none → c2.challengeRemote < 2 ^ 64) := by
  simp only [handshakeReceive, bind, Except.bind] at h
  split at h
  · simp at h
  · rename_i v hr
    obtain ⟨n, d, err⟩ := v
    cases err with
    | some err =>
      simp only [Except.ok.injEq, Prod.mk.injEq] at h
      obtain ⟨-, hc, he⟩ := h
      subst hc he
      simp
    | none =>
      simp only at h
      split at h
      · simp at h
      · rename_i w hu
        simp only [Except.ok.injEq, Prod.mk.injEq] at h
        obtain ⟨-, hc, -⟩ := h
        subst hc
        exact ⟨rfl, rfl, rfl, rfl, fun _ => Uint64_lt _ _ hu⟩

theorem handshake_fields {σ : Type} (A : AEAD) (T : NetConn σ) (net net2 : σ)
    (c c2 : Connection) (rnd rnd2 : Bytes) (e : Option GoError)
    (h : handshake A T net c rnd = .ok (net2, c2, rnd2, e)) :
    c2.key = c.key ∧ c2.counterLocal = 0 ∧ c2.counterRemote = 0 ∧
      c2.challengeLocal < 2 ^ 64 ∧ (e = none → c2.challengeRemote < 2 ^ 64) := by
  simp only [handshake, bind, Except.bind] at h
  split at h
  · simp at h
  · rename_i v hs
    obtain ⟨n1, c1, r1, e1⟩ := v
    obtain ⟨k1, l1, m1, -, b1⟩ := handshakeSend_fields A T _ _ _ _ _ _ _ hs
    cases e1 with
    | some err =>
      simp only [Except.ok.injEq, Prod.mk.injEq] at h
      obtain ⟨-, hc, -, he⟩ := h
      subst hc he
      exact ⟨k1, l1, m1, b1, fun h => by simp at h⟩
    | none =>
      simp only at h
      split at h
      · simp at h
      · rename_i w hr
        obtain ⟨n3, c3, e3⟩ := w
        simp only [Except.ok.injEq, Prod.mk.injEq] at h
        obtain ⟨-, hc, -, he⟩ := h
        subst hc he
        obtain ⟨k3, l3, m3, a3, b3⟩ := handshakeReceive_fields A T _ _ _ _ _ hr
        exact ⟨k3.trans k1, l3.trans l1, m3.trans m1, a3 ▸ b1, b3⟩

theorem NewConnection_key {σ : Type} (A : AEAD) (T : NetConn σ) (conn net2 : σ) (key : AESKey)
    (c2 : Connection) (rnd rnd2 : Bytes) (e : Option GoError)
    (h : NewConnection A T conn key rnd = .ok (net2, c2, rnd2, e)) : c2.key = zeroKey :=
  (handshake_fields A T _ _ _ _ _ _ _ h).1

theorem WriteMessage_eq {σ : Type} (A : AEAD) (T : NetConn σ) (net : σ) (c : Connection)
    (data rnd : Bytes) :
    WriteMessage A T net c data rnd
      = ((WriteEncryptedMessage A T.toWriter net c.key
            (((c.challengeLocal * c.counterLocal) % 2 ^ 64) ^^^ c.challengeRemote) data rnd).1,
         { c with counterLocal := (c.counterLocal + 1) % 2 ^ 64 },
         (WriteEncryptedMessage A T.toWriter net c.key
            (((c.challengeLocal * c.counterLocal) % 2 ^ 64) ^^^ c.challengeRemote) data rnd).2) := by
  simp only [WriteMessage, nextOutgoingSequenceNumber]

theorem ReadMessage_eq {σ : Type} (A : AEAD) (T : NetConn σ) (net : σ) (c : Connection) :
    ReadMessage A T net c
      = (ReadEncryptedMessage A T.toReader net c.key
          (c.challengeLocal ^^^ ((c.challengeRemote * c.counterRemote) % 2 ^ 64))).map
        (fun r => (r.1, { c with counterRemote := (c.counterRemote + 1) % 2 ^ 64 }, r.2)) := by
  simp only [ReadMessage, nextExpectedIncomingSequenceNumber, bind, Except.bind, Except.map]

theorem Session.step_fields {σ : Type} (A : AEAD) (T : NetConn σ) (s s2 : Session σ) (op : Op)
    (h : s.step A T op = .ok s2) :
    s2.conn.key = s.conn.key ∧ s2.conn.challengeLocal = s.conn.challengeLocal ∧
      s2.conn.challengeRemote = s.conn.challengeRemote ∧
      s2.conn.counterLocal % 2 ^ 64 = (s.conn.counterLocal + countWrites [op]) % 2 ^ 64 ∧
      s2.conn.counterRemote % 2 ^ 64 = (s.conn.counterRemote + countReads [op]) % 2 ^ 64 := by
  cases op with
  | write data =>
    simp only [Session.step, WriteMessage_eq, Except.ok.injEq] at h
    subst h
    simp [countWrites, countReads]
  | read =>
    simp only [Session.step, ReadMessage_eq, bind, Except.bind, Except.map] at h
    split at h
    · simp at h
    · rename_i v hv
      split at hv
      · simp at hv
      · simp only [Except.ok.injEq] at hv
        subst hv
        simp only [Except.ok.injEq] at h
        subst h
        simp [countWrites, countReads]

theorem countWrites_cons (op : Op) (ops : List Op) :
    countWrites (op :: ops) = countWrites [op] + countWrites ops := by
  cases op
  · simp only [countWrites]
    omega
  · simp only [countWrites]
    omega

theorem countReads_cons (op : Op) (ops : List Op) :
    countReads (op :: ops) = countReads [op] + countReads ops := by
  cases op
  · simp only [countReads]
    omega
  · simp only [countReads]
    omega

theorem Session.run_fields {σ : Type} (A : AEAD) (T : NetConn σ) (ops : List Op) :
    ∀ (s s2 : Session σ), s.run A T ops = .ok s2 →
      s2.conn.key = s.conn.key ∧ s2.conn.challengeLocal = s.conn.challengeLocal ∧
      s2.conn.challengeRemote = s.conn.challengeRemote ∧
      s2.conn.counterLocal % 2 ^ 64 = (s.conn.counterLocal + countWrites ops) % 2 ^ 64 ∧
      s2.conn.counterRemote % 2 ^ 64 = (s.conn.counterRemote + countReads ops) % 2 ^ 64 := by
  induction ops with
  | nil =>
    intro s s2 h
    simp only [Session.run, Except.ok.injEq] at h
    subst h
    simp [countWrites, countReads]
  | cons op ops ih =>
    intro s s2 h
    simp only [Session.run, bind, Except.bind] at h
    split at h
    · simp at h
    · rename_i s1 hs1
      obtain ⟨k1, a1, b1, l1, r1⟩ := Session.step_fields A T s s1 op hs1
      obtain ⟨k2, a2, b2, l2, r2⟩ := ih s1 s2 h
      rw [countWrites_cons op ops, countReads_cons op ops]
      refine ⟨k2.trans k1, a2.trans a1, b2.trans b1, ?_, ?_⟩ <;> omega

/-- **C6** The key given to `NewConnection` is not stored. Called with
`sampleKey` over a buffer that loops back, it returns a connection whose key
is the zero key, not `sampleKey`; the first message that this connection
writes cannot be opened under `sampleKey` and opens under the zero key. -/
theorem C6_NewConnection_drops_key :
    NewConnection sampleAEAD bufferConn [] sampleKey sampleTape
      = .ok ([], sampleConn zeroKey, sampleNonce, none) ∧
    (sampleConn zeroKey).key ≠ sampleKey ∧
    (WriteMessage sampleAEAD bufferConn [] (sampleConn zeroKey) [7] sampleNonce).1
      = sampleWire7Zero ∧
    ReadEncrypted sampleAEAD bufferReader sampleWire7Zero sampleKey
      = .ok ([], none, some .ErrOpen) ∧
    ReadEncrypted sampleAEAD bufferReader sampleWire7Zero zeroKey
      = .ok ([], some [8, 7, 6, 5, 4, 3, 2, 1, 7], none) := by
  refine ⟨by decide, by decide, by decide, by decide, by decide⟩

/-- **C7** Tag agreement: when peer A holds the challenges `(a, b)` as
(local, remote) and peer B holds them in the opposite roles, then for every
counter value `N` the tag that `nextOutgoingSequenceNumber` returns to A at
`counterLocal = N` is the tag that `nextExpectedIncomingSequenceNumber`
returns to B at `counterRemote = N`, namely `((a * N) mod 2 ^ 64) xor b`;
the keys and the other two counters play no part. -/
theorem C7_tag_agreement (a b N : Nat) (keyA keyB : AESKey) (receivedA sentB : Nat) :
    (nextOutgoingSequenceNumber
        { key := keyA, challengeLocal := a, challengeRemote := b,
          counterLocal := N, counterRemote := receivedA }).1
      = (nextExpectedIncomingSequenceNumber
          { key := keyB, challengeLocal := b, challengeRemote := a,
            counterLocal := sentB, counterRemote := N }).1 ∧
    (nextOutgoingSequenceNumber
        { key := keyA, challengeLocal := a, challengeRemote := b,
          counterLocal := N, counterRemote := receivedA }).1
      = ((a * N) % 2 ^ 64) ^^^ b := by
  simp only [nextOutgoingSequenceNumber, nextExpectedIncomingSequenceNumber, and_true]
  exact Nat.xor_comm _ _

/-- **C9** Outgoing tag: in a state with `challengeLocal = a`,
`challengeRemote = b` and `counterLocal = N`, `nextOutgoingSequenceNumber`
returns `((a * N) mod 2 ^ 64) xor b` and leaves `counterLocal = (N + 1) mod
2 ^ 64`, the other fields unchanged. Hence, after a handshake and any calls
of which `N` are `WriteMessage` calls, the next `WriteMessage` is
`WriteEncryptedMessage` under the key of the connection with that tag for
`N`, and it leaves `counterLocal = (N + 1) mod 2 ^ 64`. -/
theorem C9_outgoing_tag {σ : Type} (A : AEAD) (T : NetConn σ) (net0 net : σ)
    (c0 conn : Connection) (rnd0 rnd : Bytes) (err : Option GoError)
    (hs : handshake A T net0 c0 rnd0 = .ok (net, conn, rnd, err))
    (ops : List Op) (s : Session σ)
    (hrun : Session.run A T ⟨net, conn, rnd⟩ ops = .ok s) (data : Bytes) :
    (∀ (key : AESKey) (a b N M : Nat),
      nextOutgoingSequenceNumber
          { key := key, challengeLocal := a, challengeRemote := b,
            counterLocal := N, counterRemote := M }
        = (((a * N) % 2 ^ 64) ^^^ b,
           { key := key, challengeLocal := a, challengeRemote := b,
             counterLocal := (N + 1) % 2 ^ 64, counterRemote := M })) ∧
    WriteMessage A T s.net s.conn data s.rnd
      = ((WriteEncryptedMessage A T.toWriter s.net conn.key
            (((conn.challengeLocal * countWrites ops) % 2 ^ 64) ^^^ conn.challengeRemote)
            data s.rnd).1,
         { s.conn with counterLocal := (countWrites ops + 1) % 2 ^ 64 },
         (WriteEncryptedMessage A T.toWriter s.net conn.key
            (((conn.challengeLocal * countWrites ops) % 2 ^ 64) ^^^ conn.challengeRemote)
            data s.rnd).2) := by
  refine ⟨fun _ _ _ _ _ => rfl, ?_⟩
  obtain ⟨-, hl, -, -, -⟩ := handshake_fields A T _ _ _ _ _ _ _ hs
  obtain ⟨hk, ha, hb, hcl, -⟩ := Session.run_fields A T ops _ s hrun
  simp only at hk ha hb hcl
  rw [hl, Nat.zero_add] at hcl
  have e1 : (s.conn.challengeLocal * s.conn.counterLocal) % 2 ^ 64
      = (conn.challengeLocal * countWrites ops) % 2 ^ 64 := by
    rw [ha, Nat.mul_mod, hcl, ← Nat.mul_mod]
  have e2 : (s.conn.counterLocal + 1) % 2 ^ 64 = (countWrites ops + 1) % 2 ^ 64 := by
    omega
  rw [WriteMessage_eq, e1, e2]
  simp only [hk, hb]

theorem C9_outgoing_tag_witness :
    handshake sampleAEAD bufferConn [] (sampleConn sampleKey) sampleTape
      = .ok ([], sampleConn sampleKey, sampleNonce, none) ∧
    Session.run sampleAEAD bufferConn ⟨[], sampleConn sampleKey, sampleNonce⟩ [.write [7]]
      = .ok ⟨sampleWire7, { sampleConn sampleKey with counterLocal := 1 }, []⟩ ∧
    (∀ (key : AESKey) (a b N M : Nat),
      nextOutgoingSequenceNumber
          { key := key, challengeLocal := a, challengeRemote := b,
            counterLocal := N, counterRemote := M }
        = (((a * N) % 2 ^ 64) ^^^ b,
           { key := key, challengeLocal := a, challengeRemote := b,
             counterLocal := (N + 1) % 2 ^ 64, counterRemote := M })) ∧
    WriteMessage sampleAEAD bufferConn sampleWire7
        { sampleConn sampleKey with counterLocal := 1 } [9] []
      = ((WriteEncryptedMessage sampleAEAD bufferConn.toWriter sampleWire7
            (sampleConn sampleKey).key
            ((((sampleConn sampleKey).challengeLocal * countWrites [.write [7]]) % 2 ^ 64)
              ^^^ (sampleConn sampleKey).challengeRemote) [9] []).1,
         { ({ sampleConn sampleKey with counterLocal := 1 } : Connection) with
           counterLocal := (countWrites [.write [7]] + 1) % 2 ^ 64 },
         (WriteEncryptedMessage sampleAEAD bufferConn.toWriter sampleWire7
            (sampleConn sampleKey).key
            ((((sampleConn sampleKey).challengeLocal * countWrites [.write [7]]) % 2 ^ 64)
              ^^^ (sampleConn sampleKey).challengeRemote) [9] []).2) :=
  ⟨by decide, by decide,
    C9_outgoing_tag sampleAEAD bufferConn [] [] (sampleConn sampleKey) (sampleConn sampleKey)
      sampleTape sampleNonce none (by decide) [.write [7]]
      ⟨sampleWire7, { sampleConn sampleKey with counterLocal := 1 }, []⟩ (by decide) [9]⟩

/-- **C10** Expected incoming tag: in a state with `challengeLocal = a`,
`challengeRemote = b` and `counterRemote = M`,
`nextExpectedIncomingSequenceNumber` returns `a xor ((b * M) mod 2 ^ 64)` and
leaves `counterRemote = (M + 1) mod 2 ^ 64`, the other fields unchanged.
Hence, after a handshake and any calls of which `M` are `ReadMessage` calls,
the next `ReadMessage` is `ReadEncryptedMessage` under the key of the
connection, validating against that tag for `M`, and it leaves
`counterRemote = (M + 1) mod 2 ^ 64`. -/
theorem C10_expected_tag {σ : Type} (A : AEAD) (T : NetConn σ) (net0 net : σ)
    (c0 conn : Connection) (rnd0 rnd : Bytes) (err : Option GoError)
    (hs : handshake A T net0 c0 rnd0 = .ok (net, conn, rnd, err))
    (ops : List Op) (s : Session σ)
    (hrun : Session.run A T ⟨net, conn, rnd⟩ ops = .ok s) :
    (∀ (key : AESKey) (a b N M : Nat),
      nextExpectedIncomingSequenceNumber
          { key := key, challengeLocal := a, challengeRemote := b,
            counterLocal := N, counterRemote := M }
        = (a ^^^ ((b * M) % 2 ^ 64),
           { key := key, challengeLocal := a, challengeRemote := b,
             counterLocal := N, counterRemote := (M + 1) % 2 ^ 64 })) ∧
    ReadMessage A T s.net s.conn
      = (ReadEncryptedMessage A T.toReader s.net conn.key
          (conn.challengeLocal ^^^ ((conn.challengeRemote * countReads ops) % 2 ^ 64))).map
        (fun r => (r.1, { s.conn with counterRemote := (countReads ops + 1) % 2 ^ 64 }, r.2)) := by
  refine ⟨fun _ _ _ _ _ => rfl, ?_⟩
  obtain ⟨-, -, hr, -, -⟩ := handshake_fields A T _ _ _ _ _ _ _ hs
  obtain ⟨hk, ha, hb, -, hcr⟩ := Session.run_fields A T ops _ s hrun
  simp only at hk ha hb hcr
  rw [hr, Nat.zero_add] at hcr
  have e1 : (s.conn.challengeRemote * s.conn.counterRemote) % 2 ^ 64
      = (conn.challengeRemote * countReads ops) % 2 ^ 64 := by
    rw [hb, Nat.mul_mod, hcr, ← Nat.mul_mod]
  have e2 : (s.conn.counterRemote + 1) % 2 ^ 64 = (countReads ops + 1) % 2 ^ 64 := by
    omega
  rw [ReadMessage_eq, e1, e2]
  simp only [hk, ha]

theorem C10_expected_tag_witness :
    handshake sampleAEAD bufferConn [] (sampleConn sampleKey) sampleTape
      = .ok ([], sampleConn sampleKey, sampleNonce, none) ∧
    Session.run sampleAEAD bufferConn ⟨[], sampleConn sampleKey, sampleNonce⟩ [.read]
      = .ok ⟨[], { sampleConn sampleKey with counterRemote := 1 }, sampleNonce⟩ ∧
    (∀ (key : AESKey) (a b N M : Nat),
      nextExpectedIncomingSequenceNumber
          { key := key, challengeLocal := a, challengeRemote := b,
            counterLocal := N, counterRemote := M }
        = (a ^^^ ((b * M) % 2 ^ 64),
           { key := key, challengeLocal := a, challengeRemote := b,
             counterLocal := N, counterRemote := (M + 1) % 2 ^ 64 })) ∧
    ReadMessage sampleAEAD bufferConn [] { sampleConn sampleKey with counterRemote := 1 }
      = (ReadEncryptedMessage sampleAEAD bufferConn.toReader [] (sampleConn sampleKey).key
          ((sampleConn sampleKey).challengeLocal
            ^^^ (((sampleConn sampleKey).challengeRemote * countReads [.read]) % 2 ^ 64))).map
        (fun r => (r.1,
          { ({ sampleConn sampleKey with counterRemote := 1 } : Connection) with
            counterRemote := (countReads [.read] + 1) % 2 ^ 64 }, r.2)) :=
  ⟨by decide, by decide,
    C10_expected_tag sampleAEAD bufferConn [] [] (sampleConn sampleKey) (sampleConn sampleKey)
      sampleTape sampleNonce none (by decide) [.read]
      ⟨[], { sampleConn sampleKey with counterRemote := 1 }, sampleNonce⟩ (by decide)⟩

/-! ## Reading frames from any reader -/

theorem Decode_of_reads {σ : Type} (R : Reader σ) (r r1 r2 : σ) (x : Bytes)
    (hx : x.length ≤ maxAlloc)
    (h1 : R.ReadFull r BytesFor64Bit = (r1, BigEndian.AppendUint64 [] x.length, none))
    (h2 : R.ReadFull r1 x.length = (r2, x, none)) :
    Decode R r = .ok (r2, some x, none) := by
  have hlen : x.length % 2 ^ 64 = x.length := by
    apply Nat.mod_eq_of_lt
    simp only [maxAlloc] at hx
    omega
  have hfill : fill (List.replicate BytesFor64Bit 0) (BigEndian.AppendUint64 [] x.length)
      = BigEndian.AppendUint64 [] x.length := by
    apply fill_full
    simp [AppendUint64_length, BytesFor64Bit]
  have hu : BigEndian.Uint64 (BigEndian.AppendUint64 [] x.length) = .ok x.length := by
    have := Uint64_AppendUint64 x.length []
    rwa [List.append_nil, hlen] at this
  have hfill2 : fill (List.replicate x.length 0) x = x := fill_full _ _ (by simp)
  simp only [Decode, h1, hfill, hu, makeSlice, hx, if_true, bind, Except.bind, h2, hfill2]

theorem ReadEncrypted_of_reads {σ : Type} (A : AEAD) (hA : A.Correct) (R : Reader σ)
    (r r1 r2 : σ) (key : AESKey) (nonce p : Bytes) (hn : nonce.length = NonceSize)
    (hlen : (nonce ++ A.Seal key nonce p).length ≤ maxAlloc)
    (h1 : R.ReadFull r BytesFor64Bit
      = (r1, BigEndian.AppendUint64 [] (nonce ++ A.Seal key nonce p).length, none))
    (h2 : R.ReadFull r1 (nonce ++ A.Seal key nonce p).length
      = (r2, nonce ++ A.Seal key nonce p, none)) :
    ReadEncrypted A R r key = .ok (r2, appendToNil p, none) := by
  simp only [ReadEncrypted, Decode_of_reads R r r1 r2 _ hlen h1 h2, bind, Except.bind,
    Option.getD_some, Decrypt_sealed A hA key nonce p hn]

theorem ReadEncryptedMessage_of_reads {σ : Type} (A : AEAD) (hA : A.Correct) (R : Reader σ)
    (r r1 r2 : σ) (key : AESKey) (nonce b : Bytes) (s t : Nat) (hn : nonce.length = NonceSize)
    (hlen : (nonce ++ A.Seal key nonce (BigEndian.AppendUint64 [] s ++ b)).length ≤ maxAlloc)
    (h1 : R.ReadFull r BytesFor64Bit
      = (r1, BigEndian.AppendUint64 []
          (nonce ++ A.Seal key nonce (BigEndian.AppendUint64 [] s ++ b)).length, none))
    (h2 : R.ReadFull r1 (nonce ++ A.Seal key nonce (BigEndian.AppendUint64 [] s ++ b)).length
      = (r2, nonce ++ A.Seal key nonce (BigEndian.AppendUint64 [] s ++ b), none)) :
    ReadEncryptedMessage A R r key t
      = .ok (if s % 2 ^ 64 = t then (r2, some b, none)
             else (r2, none, some .helpersErrInvalidRemoteMessageChallenge)) := by
  have h8 : (BigEndian.AppendUint64 [] s).length = BytesFor64Bit := by
    simp [AppendUint64_length, BytesFor64Bit]
  have hshort : ¬ (BigEndian.AppendUint64 [] s ++ b).length < BytesFor64Bit := by
    simp only [List.length_append, h8]
    omega
  have htake : (BigEndian.AppendUint64 [] s ++ b).take BytesFor64Bit
      = BigEndian.AppendUint64 [] s := by
    rw [← h8, List.take_left]
  have hdrop : (BigEndian.AppendUint64 [] s ++ b).drop BytesFor64Bit = b := by
    rw [← h8, List.drop_left]
  have hu : BigEndian.Uint64 (BigEndian.AppendUint64 [] s) = .ok (s % 2 ^ 64) := by
    simpa using Uint64_AppendUint64 s []
  simp only [ReadEncryptedMessage, ReadEncrypted_of_reads A hA R r r1 r2 key nonce _ hn hlen h1 h2,
    bind, Except.bind, appendToNil_getD, hshort, if_false, htake, hdrop, hu, ne_eq, ite_not]
  split <;> rfl

/-! ## The two ends of the transport -/

theorem peerA_ReadFull (x rest ab : Bytes) (n : Nat) (hn : n = x.length) :
    peerA.toReader.ReadFull ⟨ab, x ++ rest⟩ n = (⟨ab, rest⟩, x, none) := by
  subst hn
  simp only [peerA, bufferReader_ReadFull_append]

theorem peerB_ReadFull (x rest ba : Bytes) (n : Nat) (hn : n = x.length) :
    peerB.toReader.ReadFull ⟨x ++ rest, ba⟩ n = (⟨rest, ba⟩, x, none) := by
  subst hn
  simp only [peerB, bufferReader_ReadFull_append]

theorem Encode_peerA (n : Net) (x : Bytes) :
    Encode peerA.toWriter n x
      = (⟨n.ab ++ (BigEndian.AppendUint64 [] x.length ++ x), n.ba⟩, none) := by
  simp only [Encode, peerA, AppendUint64_mod, List.append_assoc]

theorem Encode_peerB (n : Net) (x : Bytes) :
    Encode peerB.toWriter n x
      = (⟨n.ab, n.ba ++ (BigEndian.AppendUint64 [] x.length ++ x)⟩, none) := by
  simp only [Encode, peerB, AppendUint64_mod, List.append_assoc]

theorem sealedMessage_length_le (A : AEAD) (overhead : Nat) (hE : A.Expands overhead)
    (key : AESKey) (a b i : Nat) (m nonce : Bytes) (hn : nonce.length = NonceSize)
    (hsz : m.length + overhead + 20 ≤ maxAlloc) :
    (sealedMessage A key a b i m nonce).length ≤ maxAlloc := by
  have h := hE key nonce (BigEndian.AppendUint64 [] (((a * (i % 2 ^ 64)) % 2 ^ 64) ^^^ b) ++ m)
  simp only [List.length_append, AppendUint64_length, List.length_nil] at h
  simp only [sealedMessage, List.length_append, hn, NonceSize]
  omega

theorem Frames_append (A : AEAD) (key : AESKey) (a b : Nat) (m nonce : Bytes)
    (hn : nonce.length = NonceSize) :
    ∀ (ms : List Bytes) (i : Nat) (w : Bytes), Frames A key a b i ms w →
      (sealedMessage A key a b (i + ms.length) m nonce).length ≤ maxAlloc →
      Frames A key a b i (ms ++ [m])
        (w ++ (BigEndian.AppendUint64 []
                (sealedMessage A key a b (i + ms.length) m nonce).length
              ++ sealedMessage A key a b (i + ms.length) m nonce)) := by
  intro ms
  induction ms with
  | nil =>
    intro i w hw hlen
    simp only [Frames] at hw
    subst hw
    simp only [List.length_nil, Nat.add_zero] at hlen ⊢
    exact ⟨nonce, [], hn, hlen, by simp, rfl⟩
  | cons m0 ms ih =>
    intro i w hw hlen
    obtain ⟨n0, w2, hn0, hl0, hw0, hrest⟩ := hw
    have e : i + (m0 :: ms).length = (i + 1) + ms.length := by
      simp only [List.length_cons]
      omega
    rw [e] at hlen ⊢
    refine ⟨n0, _, hn0, hl0, ?_, ih (i + 1) w2 hrest hlen⟩
    rw [hw0]
    simp only [List.append_assoc]

theorem tag_lt (a b i : Nat) (hb : b < 2 ^ 64) : ((a * i) % 2 ^ 64) ^^^ b < 2 ^ 64 :=
  Nat.xor_lt_two_pow (Nat.mod_lt _ (by decide)) hb

theorem Duplex.step_sendA (A : AEAD) (overhead : Nat) (hE : A.Expands overhead) (key : AESKey)
    (a b : Nat) (d : Duplex) (pab pba : List Bytes) (rB rA : Nat)
    (inv : Duplex.Inv A key a b d pab pba rB rA) (m : Bytes)
    (hsz : m.length + overhead + 20 ≤ maxAlloc) (hr : NonceSize ≤ d.rndA.length) :
    ∃ d2, d.step A (.sendA m) = .ok (d2, .sentA none) ∧
      Duplex.Inv A key a b d2 (pab ++ [m]) pba rB rA ∧
      d2.rndA.length + NonceSize = d.rndA.length ∧ d2.rndB = d.rndB := by
  obtain ⟨⟨ab, ba⟩, cA, cB, rndA, rndB⟩ := d
  obtain ⟨keyA, keyB, aL, aR, bL, bR, ha, hb, cAl, cBr, cBl, cAr, fab, fba⟩ := inv
  simp only at keyA keyB aL aR bL bR cAl cBr cBl cAr fab fba hr
  have hsplit : rndA = rndA.take NonceSize ++ rndA.drop NonceSize :=
    (List.take_append_drop _ _).symm
  have hn : (rndA.take NonceSize).length = NonceSize := by
    rw [List.length_take]
    omega
  generalize rndA.take NonceSize = nonce at hsplit hn
  generalize rndA.drop NonceSize = rest at hsplit
  subst hsplit
  have hlen := sealedMessage_length_le A overhead hE key a b (rB + pab.length) m nonce hn hsz
  have hstep : Duplex.step A ⟨⟨ab, ba⟩, cA, cB, nonce ++ rest, rndB⟩ (.sendA m)
      = .ok (⟨⟨ab ++ (BigEndian.AppendUint64 []
                  (sealedMessage A key a b (rB + pab.length) m nonce).length
                ++ sealedMessage A key a b (rB + pab.length) m nonce), ba⟩,
              { cA with counterLocal := (cA.counterLocal + 1) % 2 ^ 64 }, cB, rest, rndB⟩,
             .sentA none) := by
    simp only [Duplex.step, WriteMessage_eq, WriteEncryptedMessage,
      WriteEncrypted_enough A peerA.toWriter _ _ _ nonce rest hn, Encode_peerA, keyA, aL, aR,
      cAl, sealedMessage]
  refine ⟨_, hstep, ?_, ?_, rfl⟩
  · refine ⟨keyA, keyB, aL, aR, bL, bR, ha, hb, ?_, cBr, cBl, cAr, ?_, fba⟩
    · simp only [cAl, List.length_append, List.length_singleton]
      omega
    · exact Frames_append A key a b m nonce hn pab rB ab fab hlen
  · simp only [List.length_append, hn]
    omega

theorem Duplex.step_recvB (A : AEAD) (hA : A.Correct) (key : AESKey)
    (a b : Nat) (d : Duplex) (m : Bytes) (pab pba : List Bytes) (rB rA : Nat)
    (inv : Duplex.Inv A key a b d (m :: pab) pba rB rA) :
    ∃ d2, d.step A .recvB = .ok (d2, .gotB (some m) none) ∧
      Duplex.Inv A key a b d2 pab pba (rB + 1) rA ∧
      d2.rndA = d.rndA ∧ d2.rndB = d.rndB := by
  obtain ⟨⟨ab, ba⟩, cA, cB, rndA, rndB⟩ := d
  obtain ⟨keyA, keyB, aL, aR, bL, bR, ha, hb, cAl, cBr, cBl, cAr, fab, fba⟩ := inv
  simp only at keyA keyB aL aR bL bR cAl cBr cBl cAr fab fba
  obtain ⟨nonce, w2, hn, hlen, hw, hrest⟩ := fab
  subst hw
  have h8 : BytesFor64Bit
      = (BigEndian.AppendUint64 [] (sealedMessage A key a b rB m nonce).length).length := by
    simp [AppendUint64_length, BytesFor64Bit]
  have hread := ReadEncryptedMessage_of_reads A hA peerB.toReader
    ⟨BigEndian.AppendUint64 [] (sealedMessage A key a b rB m nonce).length
      ++ sealedMessage A key a b rB m nonce ++ w2, ba⟩
    ⟨sealedMessage A key a b rB m nonce ++ w2, ba⟩ ⟨w2, ba⟩ key nonce m
    (((a * (rB % 2 ^ 64)) % 2 ^ 64) ^^^ b) (b ^^^ ((a * (rB % 2 ^ 64)) % 2 ^ 64)) hn hlen
    (by rw [List.append_assoc]; exact peerB_ReadFull _ _ _ _ h8)
    (peerB_ReadFull _ _ _ _ rfl)
  have htag : (((a * (rB % 2 ^ 64)) % 2 ^ 64) ^^^ b) % 2 ^ 64
      = b ^^^ ((a * (rB % 2 ^ 64)) % 2 ^ 64) := by
    rw [Nat.mod_eq_of_lt (tag_lt a b _ hb), Nat.xor_comm]
  rw [if_pos htag] at hread
  have hstep : Duplex.step A
      ⟨⟨BigEndian.AppendUint64 [] (sealedMessage A key a b rB m nonce).length
          ++ sealedMessage A key a b rB m nonce ++ w2, ba⟩, cA, cB, rndA, rndB⟩ .recvB
      = .ok (⟨⟨w2, ba⟩, cA, { cB with counterRemote := (cB.counterRemote + 1) % 2 ^ 64 },
              rndA, rndB⟩, .gotB (some m) none) := by
    simp only [Duplex.step, ReadMessage_eq, keyB, bL, bR, cBr, hread, bind, Except.bind,
      Except.map]
  refine ⟨_, hstep, ?_, rfl, rfl⟩
  refine ⟨keyA, keyB, aL, aR, bL, bR, ha, hb, ?_, ?_, cBl, cAr, hrest, fba⟩
  · simp only [cAl, List.length_cons]
    congr 1
    omega
  · simp only [cBr]
    omega

theorem Duplex.step_sendB (A : AEAD) (overhead : Nat) (hE : A.Expands overhead) (key : AESKey)
    (a b : Nat) (d : Duplex) (pab pba : List Bytes) (rB rA : Nat)
    (inv : Duplex.Inv A key a b d pab pba rB rA) (m : Bytes)
    (hsz : m.length + overhead + 20 ≤ maxAlloc) (hr : NonceSize ≤ d.rndB.length) :
    ∃ d2, d.step A (.sendB m) = .ok (d2, .sentB none) ∧
      Duplex.Inv A key a b d2 pab (pba ++ [m]) rB rA ∧
      d2.rndB.length + NonceSize = d.rndB.length ∧ d2.rndA = d.rndA := by
  obtain ⟨⟨ab, ba⟩, cA, cB, rndA, rndB⟩ := d
  obtain ⟨keyA, keyB, aL, aR, bL, bR, ha, hb, cAl, cBr, cBl, cAr, fab, fba⟩ := inv
  simp only at keyA keyB aL aR bL bR cAl cBr cBl cAr fab fba hr
  have hsplit : rndB = rndB.take NonceSize ++ rndB.drop NonceSize :=
    (List.take_append_drop _ _).symm
  have hn : (rndB.take NonceSize).length = NonceSize := by
    rw [List.length_take]
    omega
  generalize rndB.take NonceSize = nonce at hsplit hn
  generalize rndB.drop NonceSize = rest at hsplit
  subst hsplit
  have hlen := sealedMessage_length_le A overhead hE key b a (rA + pba.length) m nonce hn hsz
  have hstep : Duplex.step A ⟨⟨ab, ba⟩, cA, cB, rndA, nonce ++ rest⟩ (.sendB m)
      = .ok (⟨⟨ab, ba ++ (BigEndian.AppendUint64 []
                  (sealedMessage A key b a (rA + pba.length) m nonce).length
                ++ sealedMessage A key b a (rA + pba.length) m nonce)⟩,
              cA, { cB with counterLocal := (cB.counterLocal + 1) % 2 ^ 64 }, rndA, rest⟩,
             .sentB none) := by
    simp only [Duplex.step, WriteMessage_eq, WriteEncryptedMessage,
      WriteEncrypted_enough A peerB.toWriter _ _ _ nonce rest hn, Encode_peerB, keyB, bL, bR,
      cBl, sealedMessage]
  refine ⟨_, hstep, ?_, ?_, rfl⟩
  · refine ⟨keyA, keyB, aL, aR, bL, bR, ha, hb, cAl, cBr, ?_, cAr, fab, ?_⟩
    · simp only [cBl, List.length_append, List.length_singleton]
      omega
    · exact Frames_append A key b a m nonce hn pba rA ba fba hlen
  · simp only [List.length_append, hn]
    omega

theorem Duplex.step_recvA (A : AEAD) (hA : A.Correct) (key : AESKey)
    (a b : Nat) (d : Duplex) (m : Bytes) (pab pba : List Bytes) (rB rA : Nat)
    (inv : Duplex.Inv A key a b d pab (m :: pba) rB rA) :
    ∃ d2, d.step A .recvA = .ok (d2, .gotA (some m) none) ∧
      Duplex.Inv A key a b d2 pab pba rB (rA + 1) ∧
      d2.rndA = d.rndA ∧ d2.rndB = d.rndB := by
  obtain ⟨⟨ab, ba⟩, cA, cB, rndA, rndB⟩ := d
  obtain ⟨keyA, keyB, aL, aR, bL, bR, ha, hb, cAl, cBr, cBl, cAr, fab, fba⟩ := inv
  simp only at keyA keyB aL aR bL bR cAl cBr cBl cAr fab fba
  obtain ⟨nonce, w2, hn, hlen, hw, hrest⟩ := fba
  subst hw
  have h8 : BytesFor64Bit
      = (BigEndian.AppendUint64 [] (sealedMessage A key b a rA m nonce).length).length := by
    simp [AppendUint64_length, BytesFor64Bit]
  have hread := ReadEncryptedMessage_of_reads A hA peerA.toReader
    ⟨ab, BigEndian.AppendUint64 [] (sealedMessage A key b a rA m nonce).length
      ++ sealedMessage A key b a rA m nonce ++ w2⟩
    ⟨ab, sealedMessage A key b a rA m nonce ++ w2⟩ ⟨ab, w2⟩ key nonce m
    (((b * (rA % 2 ^ 64)) % 2 ^ 64) ^^^ a) (a ^^^ ((b * (rA % 2 ^ 64)) % 2 ^ 64)) hn hlen
    (by rw [List.append_assoc]; exact peerA_ReadFull _ _ _ _ h8)
    (peerA_ReadFull _ _ _ _ rfl)
  have htag : (((b * (rA % 2 ^ 64)) % 2 ^ 64) ^^^ a) % 2 ^ 64
      = a ^^^ ((b * (rA % 2 ^ 64)) % 2 ^ 64) := by
    rw [Nat.mod_eq_of_lt (tag_lt b a _ ha), Nat.xor_comm]
  rw [if_pos htag] at hread
  have hstep : Duplex.step A
      ⟨⟨ab, BigEndian.AppendUint64 [] (sealedMessage A key b a rA m nonce).length
          ++ sealedMessage A key b a rA m nonce ++ w2⟩, cA, cB, rndA, rndB⟩ .recvA
      = .ok (⟨⟨ab, w2⟩, { cA with counterRemote := (cA.counterRemote + 1) % 2 ^ 64 }, cB,
              rndA, rndB⟩, .gotA (some m) none) := by
    simp only [Duplex.step, ReadMessage_eq, keyA, aL, aR, cAr, hread, bind, Except.bind,
      Except.map]
  refine ⟨_, hstep, ?_, rfl, rfl⟩
  refine ⟨keyA, keyB, aL, aR, bL, bR, ha, hb, cAl, cBr, ?_, ?_, fab, hrest⟩
  · simp only [cBl, List.length_cons]
    congr 1
    omega
  · simp only [cAr]
    omega

theorem Duplex.run_cons (A : AEAD) (d d2 d3 : Duplex) (e : Event) (es : List Event)
    (r : Returned) (rs : List Returned) (h1 : d.step A e = .ok (d2, r))
    (h2 : d2.run A es = .ok (d3, rs)) : d.run A (e :: es) = .ok (d3, r :: rs) := by
  simp only [Duplex.run, h1, h2, bind, Except.bind]

theorem Duplex.run_delivers (A : AEAD) (hA : A.Correct) (overhead : Nat)
    (hE : A.Expands overhead) (key : AESKey) (a b : Nat) (evs : List Event) :
    ∀ (d : Duplex) (pab pba : List Bytes) (rB rA : Nat),
      Duplex.Inv A key a b d pab pba rB rA →
      causal pab.length pba.length evs = true →
      NonceSize * (sentByA evs).length ≤ d.rndA.length →
      NonceSize * (sentByB evs).length ≤ d.rndB.length →
      (∀ m ∈ sentByA evs, m.length + overhead + 20 ≤ maxAlloc) →
      (∀ m ∈ sentByB evs, m.length + overhead + 20 ≤ maxAlloc) →
      ∃ d2 log, d.run A evs = .ok (d2, log) ∧ (∀ r ∈ log, r.err = none) ∧
        gotByB log = ((pab ++ sentByA evs).take (readsOfB evs)).map some ∧
        gotByA log = ((pba ++ sentByB evs).take (readsOfA evs)).map some := by
  induction evs with
  | nil =>
    intro d pab pba rB rA _ _ _ _ _ _
    exact ⟨d, [], rfl, by simp, by simp [gotByB, readsOfB], by simp [gotByA, readsOfA]⟩
  | cons e es ih =>
    intro d pab pba rB rA inv hc hrA hrB hsA hsB
    cases e with
    | sendA m =>
      simp only [sentByA, List.length_cons, List.mem_cons, forall_eq_or_imp] at hrA hsA
      simp only [sentByB] at hrB hsB
      simp only [causal] at hc
      obtain ⟨d2, hstep, inv2, hr2, hr2B⟩ := Duplex.step_sendA A overhead hE key a b d pab pba
        rB rA inv m hsA.1 (by simp only [NonceSize] at hrA ⊢; omega)
      obtain ⟨d3, log, hrun, herr, hB, hA2⟩ := ih d2 (pab ++ [m]) pba rB rA inv2
        (by simpa using hc) (by simp only [NonceSize] at hrA hr2 ⊢; omega) (by rw [hr2B]; exact hrB)
        hsA.2 hsB
      refine ⟨d3, _, Duplex.run_cons A d d2 d3 _ es _ log hstep hrun, ?_, ?_, ?_⟩
      · intro r hr
        simp only [List.mem_cons] at hr
        rcases hr with rfl | hr
        · rfl
        · exact herr r hr
      · simpa [gotByB, sentByA, readsOfB] using hB
      · simpa [gotByA, sentByB, readsOfA] using hA2
    | sendB m =>
      simp only [sentByB, List.length_cons, List.mem_cons, forall_eq_or_imp] at hrB hsB
      simp only [sentByA] at hrA hsA
      simp only [causal] at hc
      obtain ⟨d2, hstep, inv2, hr2, hr2A⟩ := Duplex.step_sendB A overhead hE key a b d pab pba
        rB rA inv m hsB.1 (by simp only [NonceSize] at hrB ⊢; omega)
      obtain ⟨d3, log, hrun, herr, hB, hA2⟩ := ih d2 pab (pba ++ [m]) rB rA inv2
        (by simpa using hc) (by rw [hr2A]; exact hrA) (by simp only [NonceSize] at hrB hr2 ⊢; omega)
        hsA hsB.2
      refine ⟨d3, _, Duplex.run_cons A d d2 d3 _ es _ log hstep hrun, ?_, ?_, ?_⟩
      · intro r hr
        simp only [List.mem_cons] at hr
        rcases hr with rfl | hr
        · rfl
        · exact herr r hr
      · simpa [gotByB, sentByA, readsOfB] using hB
      · simpa [gotByA, sentByB, readsOfA] using hA2
    | recvA =>
      simp only [sentByA] at hrA hsA
      simp only [sentByB] at hrB hsB
      simp only [causal, Bool.and_eq_true, decide_eq_true_eq] at hc
      obtain ⟨hpos, hc⟩ := hc
      cases pba with
      | nil => simp at hpos
      | cons m ms =>
        obtain ⟨d2, hstep, inv2, hr2A, hr2B⟩ := Duplex.step_recvA A hA key a b d m pab ms
          rB rA inv
        obtain ⟨d3, log, hrun, herr, hB, hA2⟩ := ih d2 pab ms rB (rA + 1) inv2
          (by simpa using hc) (by rw [hr2A]; exact hrA) (by rw [hr2B]; exact hrB) hsA hsB
        refine ⟨d3, _, Duplex.run_cons A d d2 d3 _ es _ log hstep hrun, ?_, ?_, ?_⟩
        · intro r hr
          simp only [List.mem_cons] at hr
          rcases hr with rfl | hr
          · rfl
          · exact herr r hr
        · simpa [gotByB, sentByA, readsOfB] using hB
        · simp only [gotByA, sentByB, readsOfA, hA2, List.cons_append, List.take_succ_cons,
            List.map_cons]
    | recvB =>
      simp only [sentByA] at hrA hsA
      simp only [sentByB] at hrB hsB
      simp only [causal, Bool.and_eq_true, decide_eq_true_eq] at hc
      obtain ⟨hpos, hc⟩ := hc
      cases pab with
      | nil => simp at hpos
      | cons m ms =>
        obtain ⟨d2, hstep, inv2, hr2A, hr2B⟩ := Duplex.step_recvB A hA key a b d m ms pba
          rB rA inv
        obtain ⟨d3, log, hrun, herr, hB, hA2⟩ := ih d2 ms pba (rB + 1) rA inv2
          (by simpa using hc) (by rw [hr2A]; exact hrA) (by rw [hr2B]; exact hrB) hsA hsB
        refine ⟨d3, _, Duplex.run_cons A d d2 d3 _ es _ log hstep hrun, ?_, ?_, ?_⟩
        · intro r hr
          simp only [List.mem_cons] at hr
          rcases hr with rfl | hr
          · rfl
          · exact herr r hr
        · simp only [gotByB, sentByA, readsOfB, hB, List.cons_append, List.take_succ_cons,
            List.map_cons]
        · simpa [gotByA, sentByB, readsOfA] using hA2

/-! ## The handshake between two peers -/

theorem RandomUint64_enough (ch rest : Bytes) (hch : ch.length = BytesFor64Bit) :
    ∃ v, v < 2 ^ 64 ∧ RandomUint64 (ch ++ rest) = .ok (rest, v) := by
  have hf : fill (List.replicate BytesFor64Bit 0) ch = ch := fill_full _ _ (by simp [hch])
  match ch, hch, hf with
  | [b0, b1, b2, b3, b4, b5, b6, b7], hch, hf =>
    have hread : bufferReader.ReadFull ([b0, b1, b2, b3, b4, b5, b6, b7] ++ rest) BytesFor64Bit
        = (rest, [b0, b1, b2, b3, b4, b5, b6, b7], none) := by
      rw [← hch, bufferReader_ReadFull_append]
    have hv : RandomUint64 ([b0, b1, b2, b3, b4, b5, b6, b7] ++ rest)
        = .ok (rest, b0.val + b1.val * 2 ^ 8 + b2.val * 2 ^ 16 + b3.val * 2 ^ 24
            + b4.val * 2 ^ 32 + b5.val * 2 ^ 40 + b6.val * 2 ^ 48 + b7.val * 2 ^ 56) := by
      simp only [RandomUint64, hread, hf, LittleEndian.Uint64, bind, Except.bind]
    exact ⟨_, RandomUint64_lt _ _ _ hv, hv⟩

theorem handshakeSend_enough {σ : Type} (A : AEAD) (T : NetConn σ) (net : σ) (c : Connection)
    (ch nonce rest : Bytes) (hch : ch.length = BytesFor64Bit) (hn : nonce.length = NonceSize) :
    ∃ v, v < 2 ^ 64 ∧ handshakeSend A T net c (ch ++ (nonce ++ rest))
      = .ok ((Encode T.toWriter net
                (nonce ++ A.Seal c.key nonce (BigEndian.AppendUint64 [] v))).1,
             { c with counterLocal := 0, counterRemote := 0, challengeLocal := v }, rest,
             (Encode T.toWriter net
                (nonce ++ A.Seal c.key nonce (BigEndian.AppendUint64 [] v))).2) := by
  obtain ⟨v, hv, hr⟩ := RandomUint64_enough ch (nonce ++ rest) hch
  refine ⟨v, hv, ?_⟩
  simp only [handshakeSend, hr, bind, Except.bind,
    WriteEncrypted_enough A T.toWriter _ _ _ nonce rest hn]

theorem handshakeReceive_of_reads {σ : Type} (A : AEAD) (hA : A.Correct) (T : NetConn σ)
    (r r1 r2 : σ) (c : Connection) (nonce : Bytes) (v : Nat) (hv : v < 2 ^ 64)
    (hn : nonce.length = NonceSize)
    (hlen : (nonce ++ A.Seal c.key nonce (BigEndian.AppendUint64 [] v)).length ≤ maxAlloc)
    (h1 : T.toReader.ReadFull r BytesFor64Bit
      = (r1, BigEndian.AppendUint64 []
          (nonce ++ A.Seal c.key nonce (BigEndian.AppendUint64 [] v)).length, none))
    (h2 : T.toReader.ReadFull r1
        (nonce ++ A.Seal c.key nonce (BigEndian.AppendUint64 [] v)).length
      = (r2, nonce ++ A.Seal c.key nonce (BigEndian.AppendUint64 [] v), none)) :
    handshakeReceive A T r c = .ok (r2, { c with challengeRemote := v }, none) := by
  have hu : BigEndian.Uint64 (BigEndian.AppendUint64 [] v) = .ok v := by
    have := Uint64_AppendUint64 v []
    rwa [List.append_nil, Nat.mod_eq_of_lt hv] at this
  simp only [handshakeReceive,
    ReadEncrypted_of_reads A hA T.toReader r r1 r2 c.key nonce _ hn hlen h1 h2, bind,
    Except.bind, appendToNil_getD, hu]

theorem split_tape (rnd : Bytes) (h : 20 ≤ rnd.length) :
    ∃ ch nonce rest, rnd = ch ++ (nonce ++ rest) ∧ ch.length = BytesFor64Bit ∧
      nonce.length = NonceSize ∧ rest.length + 20 = rnd.length := by
  refine ⟨rnd.take 8, (rnd.drop 8).take 12, (rnd.drop 8).drop 12, ?_, ?_, ?_, ?_⟩
  · simp only [List.take_append_drop]
  · simp only [List.length_take, BytesFor64Bit]
    omega
  · simp only [List.length_take, List.length_drop, NonceSize]
    omega
  · simp only [List.length_drop]
    omega

theorem handshake_block_length_le (A : AEAD) (overhead : Nat) (hE : A.Expands overhead)
    (hov : overhead + 20 ≤ maxAlloc) (key : AESKey) (nonce : Bytes) (v : Nat)
    (hn : nonce.length = NonceSize) :
    (nonce ++ A.Seal key nonce (BigEndian.AppendUint64 [] v)).length ≤ maxAlloc := by
  have h := hE key nonce (BigEndian.AppendUint64 [] v)
  simp only [AppendUint64_length, List.length_nil] at h
  simp only [List.length_append, hn, NonceSize]
  omega

theorem Duplex.establish_ok (A : AEAD) (hA : A.Correct) (overhead : Nat)
    (hE : A.Expands overhead) (hov : overhead + 20 ≤ maxAlloc) (cA cB : Connection)
    (hkey : cA.key = cB.key) (rndA rndB : Bytes) (hrA : 20 ≤ rndA.length)
    (hrB : 20 ≤ rndB.length) :
    ∃ d a b, Duplex.establish A cA cB rndA rndB = .ok (d, none, none) ∧
      Duplex.Inv A cA.key a b d [] [] 0 0 ∧
      d.rndA.length + 20 = rndA.length ∧ d.rndB.length + 20 = rndB.length := by
  obtain ⟨chA, nA, restA, hsA, hchA, hnA, hlA⟩ := split_tape rndA hrA
  obtain ⟨chB, nB, restB, hsB, hchB, hnB, hlB⟩ := split_tape rndB hrB
  subst hsA hsB
  obtain ⟨key, a1, a2, a3, a4⟩ := cA
  obtain ⟨keyB, b1, b2, b3, b4⟩ := cB
  simp only at hkey
  subst hkey
  obtain ⟨a, ha, hsendA⟩ := handshakeSend_enough A peerA ⟨[], []⟩ ⟨key, a1, a2, a3, a4⟩
    chA nA restA hchA hnA
  rw [Encode_peerA] at hsendA
  simp only [List.nil_append] at hsendA
  obtain ⟨b, hb, hsendB⟩ := handshakeSend_enough A peerB
    ⟨BigEndian.AppendUint64 [] (nA ++ A.Seal key nA (BigEndian.AppendUint64 [] a)).length
      ++ (nA ++ A.Seal key nA (BigEndian.AppendUint64 [] a)), []⟩ ⟨key, b1, b2, b3, b4⟩
    chB nB restB hchB hnB
  rw [Encode_peerB] at hsendB
  simp only [List.nil_append] at hsendB
  have hlenA := handshake_block_length_le A overhead hE hov key nA a hnA
  have hlenB := handshake_block_length_le A overhead hE hov key nB b hnB
  have h8 : ∀ n : Nat, BytesFor64Bit = (BigEndian.AppendUint64 [] n).length := by
    intro n
    simp [AppendUint64_length, BytesFor64Bit]
  have hrecvA := handshakeReceive_of_reads A hA peerA
    ⟨BigEndian.AppendUint64 [] (nA ++ A.Seal key nA (BigEndian.AppendUint64 [] a)).length
      ++ (nA ++ A.Seal key nA (BigEndian.AppendUint64 [] a)),
     BigEndian.AppendUint64 [] (nB ++ A.Seal key nB (BigEndian.AppendUint64 [] b)).length
      ++ (nB ++ A.Seal key nB (BigEndian.AppendUint64 [] b))⟩
    ⟨BigEndian.AppendUint64 [] (nA ++ A.Seal key nA (BigEndian.AppendUint64 [] a)).length
      ++ (nA ++ A.Seal key nA (BigEndian.AppendUint64 [] a)),
     nB ++ A.Seal key nB (BigEndian.AppendUint64 [] b)⟩
    ⟨BigEndian.AppendUint64 [] (nA ++ A.Seal key nA (BigEndian.AppendUint64 [] a)).length
      ++ (nA ++ A.Seal key nA (BigEndian.AppendUint64 [] a)), []⟩
    ⟨key, a1, 0, a, 0⟩ nB b hb hnB hlenB
    (peerA_ReadFull _ _ _ _ (h8 _))
    (by simpa only [List.append_nil] using
      peerA_ReadFull (nB ++ A.Seal key nB (BigEndian.AppendUint64 [] b)) [] _ _ rfl)
  have hrecvB := handshakeReceive_of_reads A hA peerB
    ⟨BigEndian.AppendUint64 [] (nA ++ A.Seal key nA (BigEndian.AppendUint64 [] a)).length
      ++ (nA ++ A.Seal key nA (BigEndian.AppendUint64 [] a)), []⟩
    ⟨nA ++ A.Seal key nA (BigEndian.AppendUint64 [] a), []⟩ ⟨[], []⟩
    ⟨key, b1, 0, b, 0⟩ nA a ha hnA hlenA
    (peerB_ReadFull _ _ _ _ (h8 _))
    (by simpa only [List.append_nil] using
      peerB_ReadFull (nA ++ A.Seal key nA (BigEndian.AppendUint64 [] a)) [] _ _ rfl)
  refine ⟨⟨⟨[], []⟩, ⟨key, b, 0, a, 0⟩, ⟨key, a, 0, b, 0⟩, restA, restB⟩, a, b, ?_, ?_, hlA, hlB⟩
  · simp only [Duplex.establish, hsendA, hsendB, bind, Except.bind, if_true, hrecvA, hrecvB]
  · exact ⟨rfl, rfl, rfl, rfl, rfl, rfl, ha, hb, rfl, rfl, rfl, rfl, rfl, rfl⟩

/-- **C8** End-to-end ordered delivery. Two connections A and B with the same
key run the handshake with each other over a reliable ordered transport; then
the peers make any sequence of `WriteMessage` and `ReadMessage` calls, in both
directions and interleaved at will, each `ReadMessage` taking effect after
the `WriteMessage` of the message it reads. Provided the primitive opens what
it sealed and adds at most `overhead` bytes, the random sources do not fail
and every frame fits a Go slice: the handshake succeeds, every call returns
no error, and the `ReadMessage` calls of B return, in order, the bodies that
A passed to `WriteMessage`, in the same order (and likewise from B to A). -/
theorem C8_ordered_delivery (A : AEAD) (hA : A.Correct) (overhead : Nat)
    (hE : A.Expands overhead) (hov : overhead + 20 ≤ maxAlloc) (cA cB : Connection)
    (hkey : cA.key = cB.key) (rndA rndB : Bytes) (evs : List Event)
    (hcausal : causal 0 0 evs = true)
    (hrA : 20 + NonceSize * (sentByA evs).length ≤ rndA.length)
    (hrB : 20 + NonceSize * (sentByB evs).length ≤ rndB.length)
    (hsA : ∀ m ∈ sentByA evs, m.length + overhead + 20 ≤ maxAlloc)
    (hsB : ∀ m ∈ sentByB evs, m.length + overhead + 20 ≤ maxAlloc) :
    ∃ d d2 log, Duplex.establish A cA cB rndA rndB = .ok (d, none, none) ∧
      d.run A evs = .ok (d2, log) ∧ (∀ r ∈ log, r.err = none) ∧
      gotByB log = ((sentByA evs).take (readsOfB evs)).map some ∧
      gotByA log = ((sentByB evs).take (readsOfA evs)).map some := by
  obtain ⟨d, a, b, hest, inv, hlA, hlB⟩ := Duplex.establish_ok A hA overhead hE hov cA cB hkey
    rndA rndB (by omega) (by omega)
  obtain ⟨d2, log, hrun, herr, hB, hA2⟩ := Duplex.run_delivers A hA overhead hE cA.key a b evs
    d [] [] 0 0 inv hcausal (by omega) (by omega) hsA hsB
  exact ⟨d, d2, log, hest, hrun, herr, by simpa using hB, by simpa using hA2⟩

theorem C8_ordered_delivery_witness :
    sampleAEAD.Correct ∧ sampleAEAD.Expands 16 ∧ 16 + 20 ≤ maxAlloc ∧
    (sampleConn sampleKey).key = (sampleConn sampleKey).key ∧
    causal 0 0 sampleEvents = true ∧
    20 + NonceSize * (sentByA sampleEvents).length ≤ sampleLongTape.length ∧
    20 + NonceSize * (sentByB sampleEvents).length ≤ sampleTape.length ∧
    (∀ m ∈ sentByA sampleEvents, m.length + 16 + 20 ≤ maxAlloc) ∧
    (∀ m ∈ sentByB sampleEvents, m.length + 16 + 20 ≤ maxAlloc) ∧
    ∃ d d2 log,
      Duplex.establish sampleAEAD (sampleConn sampleKey) (sampleConn sampleKey)
        sampleLongTape sampleTape = .ok (d, none, none) ∧
      d.run sampleAEAD sampleEvents = .ok (d2, log) ∧ (∀ r ∈ log, r.err = none) ∧
      gotByB log = ((sentByA sampleEvents).take (readsOfB sampleEvents)).map some ∧
      gotByA log = ((sentByB sampleEvents).take (readsOfA sampleEvents)).map some :=
  ⟨sampleAEAD_correct, sampleAEAD_expands, by decide, rfl, by decide, by decide, by decide,
    by decide, by decide,
    C8_ordered_delivery sampleAEAD sampleAEAD_correct 16 sampleAEAD_expands (by decide)
      (sampleConn sampleKey) (sampleConn sampleKey) rfl sampleLongTape sampleTape sampleEvents
      (by decide) (by decide) (by decide) (by decide) (by decide)⟩

/-- The sample exchange, evaluated: the handshake succeeds and leaves nothing
in flight; then B reads `7` and the empty body, in that order, and A reads
the answer `9 9`, every call returning no error. -/
theorem Duplex_example :
    (Duplex.establish sampleAEAD (sampleConn sampleKey) (sampleConn sampleKey)
        sampleLongTape sampleTape).map (fun r => (r.1.net, r.2))
      = .ok (⟨[], []⟩, none, none) ∧
    ((Duplex.establish sampleAEAD (sampleConn sampleKey) (sampleConn sampleKey)
        sampleLongTape sampleTape).bind
      (fun r => (r.1.run sampleAEAD sampleEvents).map (fun s => s.2)))
      = .ok [.sentA none, .sentA none, .gotB (some [7]) none, .sentB none,
             .gotA (some [9, 9]) none, .gotB (some []) none] := by
  refine ⟨by decide, by decide⟩

/-! ## Distinct tags -/

theorem odd_mul_mod_inj (a N M : Nat) (ha : a % 2 = 1) (hN : N < 2 ^ 64) (hM : M < 2 ^ 64)
    (h : (a * N) % 2 ^ 64 = (a * M) % 2 ^ 64) : N = M := by
  have hodd : Odd a := Nat.odd_iff.mpr ha
  have hco : Nat.gcd (2 ^ 64) a = 1 :=
    Nat.Coprime.pow_left 64 (Nat.coprime_two_left.mpr hodd)
  have hmod : N ≡ M [MOD 2 ^ 64] := Nat.ModEq.cancel_left_of_coprime hco h
  have := Nat.ModEq.eq_of_lt_of_lt hmod hN hM
  exact this

theorem tags_eq_iff (a b N M : Nat) :
    ((a * N) % 2 ^ 64) ^^^ b = ((a * M) % 2 ^ 64) ^^^ b
      ↔ (a * N) % 2 ^ 64 = (a * M) % 2 ^ 64 := by
  rw [Nat.xor_comm _ b, Nat.xor_comm _ b, Nat.xor_right_inj]

theorem bufferConn_toWriter : bufferConn.toWriter = bufferWriter := rfl

theorem bufferConn_toReader : bufferConn.toReader = bufferReader := rfl

/-- **C11** (as amended) Distinct tags under an odd challenge. The outgoing
tags of counters `N` and `M` coincide exactly when `a * N` and `a * M` agree
modulo `2 ^ 64`. When the local challenge `a` of the sender is odd and
`N ≠ M` are counter values of 64 bits, the two tags differ, and a message that
the sender wrote at counter `N` is rejected with
`ErrInvalidRemoteMessageChallenge` and nil data by `ReadMessage` of a receiver
that holds the challenges in the opposite roles and expects counter `M`. -/
theorem C11_distinct_tags (A : AEAD) (hA : A.Correct) (key : AESKey) (a b N M : Nat)
    (ha : a % 2 = 1) (hb : b < 2 ^ 64) (hN : N < 2 ^ 64) (hM : M < 2 ^ 64) (hNM : N ≠ M)
    (received sent : Nat) (body rnd buf rnd2 : Bytes) (c2 : Connection)
    (hw : WriteMessage A bufferConn []
        { key := key, challengeLocal := a, challengeRemote := b,
          counterLocal := N, counterRemote := received } body rnd = (buf, c2, rnd2, none))
    (hbuf : buf.length ≤ maxAlloc) :
    (∀ n m : Nat, ((a * n) % 2 ^ 64) ^^^ b = ((a * m) % 2 ^ 64) ^^^ b
        ↔ (a * n) % 2 ^ 64 = (a * m) % 2 ^ 64) ∧
    (nextOutgoingSequenceNumber
        { key := key, challengeLocal := a, challengeRemote := b,
          counterLocal := N, counterRemote := received }).1
      ≠ (nextOutgoingSequenceNumber
          { key := key, challengeLocal := a, challengeRemote := b,
            counterLocal := M, counterRemote := received }).1 ∧
    ReadMessage A bufferConn buf
        { key := key, challengeLocal := b, challengeRemote := a,
          counterLocal := sent, counterRemote := M }
      = .ok ([], { key := key, challengeLocal := b, challengeRemote := a,
                   counterLocal := sent, counterRemote := (M + 1) % 2 ^ 64 },
             none, some .helpersErrInvalidRemoteMessageChallenge) := by
  have hne : ((a * N) % 2 ^ 64) ^^^ b ≠ ((a * M) % 2 ^ 64) ^^^ b := by
    intro h
    exact hNM (odd_mul_mod_inj a N M ha hN hM ((tags_eq_iff a b N M).mp h))
  refine ⟨fun n m => tags_eq_iff a b n m, by simpa [nextOutgoingSequenceNumber] using hne, ?_⟩
  rw [WriteMessage_eq] at hw
  rw [bufferConn_toWriter] at hw
  have h1 := congrArg Prod.fst hw
  have h2 := congrArg (fun r => r.2.2) hw
  simp only at h1 h2
  have hw2 : WriteEncryptedMessage A bufferWriter [] key (((a * N) % 2 ^ 64) ^^^ b) body rnd
      = (buf, rnd2, none) := Prod.ext h1 h2
  obtain ⟨nonce, hn, -, hbuf2⟩ := WriteEncryptedMessage_buffer_ok A key _ body rnd buf rnd2 hw2
  have hlen : (nonce ++ A.Seal key nonce
      (BigEndian.AppendUint64 [] (((a * N) % 2 ^ 64) ^^^ b) ++ body)).length ≤ maxAlloc := by
    rw [hbuf2, List.length_append] at hbuf
    omega
  have hread := ReadEncryptedMessage_frame A hA key nonce body [] (((a * N) % 2 ^ 64) ^^^ b)
    (b ^^^ ((a * M) % 2 ^ 64)) hn hlen
  have hneq : ¬ (((a * N) % 2 ^ 64) ^^^ b) % 2 ^ 64 = b ^^^ ((a * M) % 2 ^ 64) := by
    rw [Nat.mod_eq_of_lt (tag_lt a b N hb), Nat.xor_comm b]
    exact hne
  rw [List.append_nil, ← hbuf2, if_neg hneq] at hread
  simp only [ReadMessage_eq, bufferConn_toReader, hread, Except.map]

theorem C11_distinct_tags_witness :
    sampleAEAD.Correct ∧ 3 % 2 = 1 ∧ 5 < 2 ^ 64 ∧ 0 < 2 ^ 64 ∧ 1 < 2 ^ 64 ∧ 0 ≠ 1 ∧
    WriteMessage sampleAEAD bufferConn []
        { key := sampleKey, challengeLocal := 3, challengeRemote := 5,
          counterLocal := 0, counterRemote := 0 } [42] sampleNonce
      = (sampleWire5, { key := sampleKey, challengeLocal := 3, challengeRemote := 5,
                        counterLocal := 1, counterRemote := 0 }, [], none) ∧
    sampleWire5.length ≤ maxAlloc ∧
    (∀ n m : Nat, ((3 * n) % 2 ^ 64) ^^^ 5 = ((3 * m) % 2 ^ 64) ^^^ 5
        ↔ (3 * n) % 2 ^ 64 = (3 * m) % 2 ^ 64) ∧
    (nextOutgoingSequenceNumber
        { key := sampleKey, challengeLocal := 3, challengeRemote := 5,
          counterLocal := 0, counterRemote := 0 }).1
      ≠ (nextOutgoingSequenceNumber
          { key := sampleKey, challengeLocal := 3, challengeRemote := 5,
            counterLocal := 1, counterRemote := 0 }).1 ∧
    ReadMessage sampleAEAD bufferConn sampleWire5
        { key := sampleKey, challengeLocal := 5, challengeRemote := 3,
          counterLocal := 0, counterRemote := 1 }
      = .ok ([], { key := sampleKey, challengeLocal := 5, challengeRemote := 3,
                   counterLocal := 0, counterRemote := (1 + 1) % 2 ^ 64 },
             none, some .helpersErrInvalidRemoteMessageChallenge) :=
  ⟨sampleAEAD_correct, by decide, by decide, by decide, by decide, by decide, by decide,
    by decide,
    C11_distinct_tags sampleAEAD sampleAEAD_correct sampleKey 3 5 0 1 (by decide) (by decide)
      (by decide) (by decide) (by decide) 0 0 [42] sampleNonce sampleWire5 []
      { key := sampleKey, challengeLocal := 3, challengeRemote := 5,
        counterLocal := 1, counterRemote := 0 } (by decide) (by decide)⟩

/-- Counterexample to **C11** as stated: with the local challenge `0` (which
`RandomUint64` returns on eight zero bytes) the tags of the distinct counters
`0` and `1` are both the remote challenge `5`; the message that the sender
wrote at counter `0` is accepted, body delivered, by a receiver that expects
counter `1`. The same tags coincide for the challenge `2 ^ 63` at counters `0`
and `2`. -/
theorem C11_tags_repeat :
    RandomUint64 [0, 0, 0, 0, 0, 0, 0, 0] = .ok ([], 0) ∧
    (0 : Nat) ≠ 1 ∧
    (nextOutgoingSequenceNumber
        { key := sampleKey, challengeLocal := 0, challengeRemote := 5,
          counterLocal := 0, counterRemote := 0 }).1
      = (nextOutgoingSequenceNumber
          { key := sampleKey, challengeLocal := 0, challengeRemote := 5,
            counterLocal := 1, counterRemote := 0 }).1 ∧
    WriteMessage sampleAEAD bufferConn []
        { key := sampleKey, challengeLocal := 0, challengeRemote := 5,
          counterLocal := 0, counterRemote := 0 } [42] sampleNonce
      = (sampleWire5, { key := sampleKey, challengeLocal := 0, challengeRemote := 5,
                        counterLocal := 1, counterRemote := 0 }, [], none) ∧
    ReadMessage sampleAEAD bufferConn sampleWire5
        { key := sampleKey, challengeLocal := 5, challengeRemote := 0,
          counterLocal := 0, counterRemote := 1 }
      = .ok ([], { key := sampleKey, challengeLocal := 5, challengeRemote := 0,
                   counterLocal := 0, counterRemote := 2 }, some [42], none) ∧
    (nextOutgoingSequenceNumber
        { key := sampleKey, challengeLocal := 2 ^ 63, challengeRemote := 5,
          counterLocal := 0, counterRemote := 0 }).1
      = (nextOutgoingSequenceNumber
          { key := sampleKey, challengeLocal := 2 ^ 63, challengeRemote := 5,
            counterLocal := 2, counterRemote := 0 }).1 := by
  refine ⟨by decide, by decide, by decide, by decide, by decide, by decide⟩

/-! ## Encrypted blocks: round trip and failures -/

/-- **C12** Encrypted block round trip: for every key and message, once
`WriteEncrypted` has succeeded on an empty buffer, `ReadEncrypted` with the
same key returns exactly the message with no error and leaves the buffer
empty, provided the primitive opens what it sealed. The slice returned holds
exactly the bytes of the message; it is the nil slice when the message is
empty. The bound on the buffer is that of every Go slice. -/
theorem C12_Read_Write_Encrypted (A : AEAD) (hA : A.Correct) (key : AESKey)
    (message rnd buf rnd2 : Bytes)
    (hw : WriteEncrypted A bufferWriter [] key message rnd = (buf, rnd2, none))
    (hbuf : buf.length ≤ maxAlloc) :
    ReadEncrypted A bufferReader buf key = .ok ([], appendToNil message, none) ∧
      (appendToNil message).getD [] = message ∧
      (message ≠ [] → ReadEncrypted A bufferReader buf key = .ok ([], some message, none)) := by
  obtain ⟨nonce, hn, -, he⟩ := WriteEncrypted_ok A bufferWriter [] buf key message rnd rnd2 hw
  rw [Encode_buffer] at he
  simp only [List.nil_append, Prod.mk.injEq, and_true] at he
  have hlen : (nonce ++ A.Seal key nonce message).length ≤ maxAlloc := by
    rw [← he, List.length_append] at hbuf
    omega
  have := ReadEncrypted_frame A hA key nonce message [] hn hlen
  rw [List.append_nil, he] at this
  refine ⟨this, appendToNil_getD message, ?_⟩
  intro hm
  rw [this, appendToNil_of_ne message hm]

theorem C12_Read_Write_Encrypted_witness :
    sampleAEAD.Correct ∧
    WriteEncrypted sampleAEAD bufferWriter [] sampleKey [104, 105] sampleNonce
      = (sampleWireHi, [], none) ∧
    sampleWireHi.length ≤ maxAlloc ∧
    ReadEncrypted sampleAEAD bufferReader sampleWireHi sampleKey
      = .ok ([], some [104, 105], none) ∧
    (ReadEncrypted sampleAEAD bufferReader sampleWireHi sampleKey
        = .ok ([], appendToNil [104, 105], none) ∧
      (appendToNil [104, 105]).getD [] = [104, 105] ∧
      (([104, 105] : Bytes) ≠ [] →
        ReadEncrypted sampleAEAD bufferReader sampleWireHi sampleKey
          = .ok ([], some [104, 105], none))) :=
  ⟨sampleAEAD_correct, by decide, by decide, by decide,
    C12_Read_Write_Encrypted sampleAEAD sampleAEAD_correct sampleKey [104, 105] sampleNonce
      sampleWireHi [] (by decide) (by decide)⟩

/-- **C13** Size check of `Decrypt`: for every key and block `c`, `Decrypt`
returns `ErrInvalidCiphertextSize` exactly when `len(c) < 12`, and then with
the nil plaintext; for `len(c) ≥ 12` its result is that of `Open` on the key,
the first 12 bytes as nonce and the rest as sealed data: the plaintext (as
the nil slice when it is empty) and no error, or the nil plaintext and the
error of `Open`. -/
theorem C13_Decrypt_size (A : AEAD) (key : AESKey) (c : Bytes) :
    NonceSize = 12 ∧
    ((Decrypt A key c).2 = some .ErrInvalidCiphertextSize ↔ c.length < NonceSize) ∧
    (c.length < NonceSize → Decrypt A key c = (none, some .ErrInvalidCiphertextSize)) ∧
    (NonceSize ≤ c.length → Decrypt A key c =
      match A.Open key (c.take NonceSize) (c.drop NonceSize) with
      | some plaintext => (appendToNil plaintext, none)
      | none => (none, some .ErrOpen)) := by
  refine ⟨rfl, ?_, ?_, ?_⟩
  · constructor
    · intro h
      by_contra hlt
      simp only [Decrypt, hlt, if_false] at h
      split at h <;> simp at h
    · intro h
      simp only [Decrypt, h, if_true]
  · intro h
    simp only [Decrypt, h, if_true]
  · intro h
    have hlt : ¬ c.length < NonceSize := by omega
    simp only [Decrypt, hlt, if_false]

theorem Decrypt_err (A : AEAD) (key : AESKey) (c : Bytes) (d : Option Bytes) (e : GoError)
    (h : Decrypt A key c = (d, some e)) : d = none := by
  simp only [Decrypt] at h
  split at h
  · simp only [Prod.mk.injEq] at h
    exact h.1.symm
  · split at h
    · simp at h
    · simp only [Prod.mk.injEq] at h
      exact h.1.symm

theorem ReadEncrypted_err {σ : Type} (A : AEAD) (R : Reader σ) (r r2 : σ) (key : AESKey)
    (data : Option Bytes) (err : GoError)
    (h : ReadEncrypted A R r key = .ok (r2, data, some err)) : data = none := by
  simp only [ReadEncrypted, bind, Except.bind] at h
  split at h
  · simp at h
  · rename_i v hv
    obtain ⟨rd, ct, e⟩ := v
    cases e with
    | some e2 =>
      simp only [Except.ok.injEq, Prod.mk.injEq] at h
      exact h.2.1.symm
    | none =>
      simp only [Except.ok.injEq, Prod.mk.injEq] at h
      obtain ⟨-, h1, h2⟩ := h
      exact Decrypt_err A key _ data err (Prod.ext h1 h2)

theorem ReadEncryptedMessage_err {σ : Type} (A : AEAD) (R : Reader σ) (r r2 : σ)
    (key : AESKey) (s : Nat) (data : Option Bytes) (err : GoError)
    (h : ReadEncryptedMessage A R r key s = .ok (r2, data, some err)) : data = none := by
  simp only [ReadEncryptedMessage, bind, Except.bind] at h
  split at h
  · simp at h
  · rename_i v hv
    obtain ⟨rd, d, e⟩ := v
    cases e with
    | some e2 =>
      simp only [Except.ok.injEq, Prod.mk.injEq] at h
      exact h.2.1.symm
    | none =>
      simp only at h
      split at h
      · simp only [Except.ok.injEq, Prod.mk.injEq] at h
        exact h.2.1.symm
      · split at h
        · simp at h
        · split at h
          · simp only [Except.ok.injEq, Prod.mk.injEq] at h
            exact h.2.1.symm
          · simp at h

/-- **C16** No partial delivery: whenever `ReadEncrypted`,
`ReadEncryptedMessage` or `ReadMessage` returns an error, whatever its cause,
the data returned with it is the nil slice; data is returned only together
with the nil error. -/
theorem C16_no_partial_delivery {σ : Type} (A : AEAD) (R : Reader σ) (T : NetConn σ)
    (r r2 : σ) (key : AESKey) (s : Nat) (conn conn2 : Connection) (data : Option Bytes) :
    (∀ err : GoError, ReadEncrypted A R r key = .ok (r2, data, some err) → data = none) ∧
    (∀ err : GoError, ReadEncryptedMessage A R r key s = .ok (r2, data, some err)
      → data = none) ∧
    (∀ err : GoError, ReadMessage A T r conn = .ok (r2, conn2, data, some err)
      → data = none) ∧
    (∀ err : Option GoError, data ≠ none →
      (ReadEncrypted A R r key = .ok (r2, data, err) → err = none) ∧
      (ReadEncryptedMessage A R r key s = .ok (r2, data, err) → err = none) ∧
      (ReadMessage A T r conn = .ok (r2, conn2, data, err) → err = none)) := by
  have h1 : ∀ err : GoError, ReadEncrypted A R r key = .ok (r2, data, some err)
      → data = none := fun err h => ReadEncrypted_err A R r r2 key data err h
  have h2 : ∀ err : GoError, ReadEncryptedMessage A R r key s = .ok (r2, data, some err)
      → data = none := fun err h => ReadEncryptedMessage_err A R r r2 key s data err h
  have h3 : ∀ err : GoError, ReadMessage A T r conn = .ok (r2, conn2, data, some err)
      → data = none := by
    intro err h
    rw [ReadMessage_eq] at h
    simp only [Except.map] at h
    split at h
    · simp at h
    · rename_i v hv
      obtain ⟨rd, d, e⟩ := v
      simp only [Except.ok.injEq, Prod.mk.injEq] at h
      obtain ⟨-, -, hd, he⟩ := h
      subst hd he
      exact ReadEncryptedMessage_err A T.toReader r rd _ _ d err hv
  refine ⟨h1, h2, h3, ?_⟩
  intro err hne
  cases err with
  | none => exact ⟨fun _ => rfl, fun _ => rfl, fun _ => rfl⟩
  | some e =>
    exact ⟨fun h => absurd (h1 e h) hne, fun h => absurd (h2 e h) hne,
      fun h => absurd (h3 e h) hne⟩

/-- The failures of the read path, evaluated on a buffer: a stream that ends
in the length, a stream that ends in the payload, a block shorter than the
nonce, a block that does not authenticate, a plaintext without sequence
number, a wrong sequence number. Each returns the nil slice. -/
theorem read_failures :
    ReadEncrypted sampleAEAD bufferReader [0, 0] sampleKey
      = .ok ([], none, some .ErrUnexpectedEOF) ∧
    ReadEncrypted sampleAEAD bufferReader [0, 0, 0, 0, 0, 0, 0, 3, 1] sampleKey
      = .ok ([], none, some .ErrUnexpectedEOF) ∧
    ReadEncrypted sampleAEAD bufferReader [0, 0, 0, 0, 0, 0, 0, 3, 1, 2, 3] sampleKey
      = .ok ([], none, some .ErrInvalidCiphertextSize) ∧
    ReadEncrypted sampleAEAD bufferReader sampleWireHi zeroKey
      = .ok ([], none, some .ErrOpen) ∧
    ReadEncryptedMessage sampleAEAD bufferReader sampleWireHi sampleKey 0
      = .ok ([], none, some .helpersErrInvalidRemoteMessageSize) ∧
    ReadEncryptedMessage sampleAEAD bufferReader sampleWire5 sampleKey 0
      = .ok ([], none, some .helpersErrInvalidRemoteMessageChallenge) := by
  refine ⟨by decide, by decide, by decide, by decide, by decide, by decide⟩

theorem Uint64_ok_of_length (b : Bytes) (h : 8 ≤ b.length) : ∃ v, BigEndian.Uint64 b = .ok v := by
  match b, h with
  | b0 :: b1 :: b2 :: b3 :: b4 :: b5 :: b6 :: b7 :: _, _ => exact ⟨_, rfl⟩

/-- **C15** Message too short: for every key and expected sequence number,
when the block read authenticates and its plaintext has fewer than 8 bytes
(the nil or empty plaintext included), `ReadEncryptedMessage` returns the nil
slice and `ErrInvalidRemoteMessageSize`; when the plaintext has 8 bytes or
more it returns normally and its error is not that one. -/
theorem C15_message_too_short {σ : Type} (A : AEAD) (R : Reader σ) (r r2 : σ) (key : AESKey)
    (s : Nat) (data : Option Bytes)
    (hread : ReadEncrypted A R r key = .ok (r2, data, none)) :
    BytesFor64Bit = 8 ∧
    ((data.getD []).length < BytesFor64Bit →
      ReadEncryptedMessage A R r key s
        = .ok (r2, none, some .helpersErrInvalidRemoteMessageSize)) ∧
    (BytesFor64Bit ≤ (data.getD []).length →
      ∃ d e, ReadEncryptedMessage A R r key s = .ok (r2, d, e) ∧
        e ≠ some .helpersErrInvalidRemoteMessageSize) := by
  refine ⟨rfl, ?_, ?_⟩
  · intro h
    simp only [ReadEncryptedMessage, hread, bind, Except.bind, h, if_true]
  · intro h
    have hlt : ¬ (data.getD []).length < BytesFor64Bit := by omega
    have h8 : 8 ≤ ((data.getD []).take BytesFor64Bit).length := by
      simp only [List.length_take, BytesFor64Bit] at h ⊢
      omega
    obtain ⟨v, hv⟩ := Uint64_ok_of_length _ h8
    simp only [ReadEncryptedMessage, hread, bind, Except.bind, hlt, if_false, hv]
    by_cases hs : v = s
    · exact ⟨some ((data.getD []).drop BytesFor64Bit), none, by simp [hs], by simp⟩
    · exact ⟨none, some .helpersErrInvalidRemoteMessageChallenge, by simp [hs], by simp⟩

theorem C15_message_too_short_witness :
    ReadEncrypted sampleAEAD bufferReader sampleWireHi sampleKey
      = .ok ([], some [104, 105], none) ∧
    BytesFor64Bit = 8 ∧
    (((some [104, 105] : Option Bytes).getD []).length < BytesFor64Bit →
      ReadEncryptedMessage sampleAEAD bufferReader sampleWireHi sampleKey 7
        = .ok ([], none, some .helpersErrInvalidRemoteMessageSize)) ∧
    (BytesFor64Bit ≤ ((some [104, 105] : Option Bytes).getD []).length →
      ∃ d e, ReadEncryptedMessage sampleAEAD bufferReader sampleWireHi sampleKey 7
          = .ok ([], d, e) ∧
        e ≠ some .helpersErrInvalidRemoteMessageSize) :=
  ⟨by decide,
    C15_message_too_short sampleAEAD bufferReader sampleWireHi [] sampleKey 7
      (some [104, 105]) (by decide)⟩

/-! ## `Decode` on streams that end early -/

theorem fill_short (L : Nat) (got : Bytes) (h : got.length ≤ L) :
    fill (List.replicate L 0) got = got ++ List.replicate (L - got.length) 0 := by
  simp only [fill, List.length_replicate, List.drop_replicate]
  rw [List.take_of_length_le h]

theorem bufferReader_ReadFull_short (b : Bytes) (n : Nat) (h : b.length < n) :
    bufferReader.ReadFull b n
      = ([], b, some (if b.length = 0 then .EOF else .ErrUnexpectedEOF)) := by
  have hn : ¬ n ≤ b.length := by omega
  simp only [bufferReader, hn, if_false]
  by_cases h0 : b.length = 0
  · have hnil : b = [] := List.length_eq_zero.mp h0
    subst hnil
    rfl
  · simp only [h0, if_false]

/-- What `Decode` returns on a stream that ends early. When the stream ends
before 8 length bytes, `Decode` returns the nil slice and an I/O error
(`io.EOF` on an empty stream, `io.ErrUnexpectedEOF` otherwise). When the 8
length bytes declare `L` bytes, `L` within the limit of `make`, and fewer than
`L` bytes follow, `Decode` returns an I/O error (`io.EOF` when nothing
follows, `io.ErrUnexpectedEOF` otherwise) together with the buffer of `L`
bytes that it allocated: the bytes read, then zero bytes. In both cases the
stream is drained. -/
theorem Decode_short_stream (st : Bytes) :
    (st.length < 8 →
      Decode bufferReader st
        = .ok ([], none, some (if st.length = 0 then .EOF else .ErrUnexpectedEOF))) ∧
    (∀ (hdr rest : Bytes) (L : Nat), st = hdr ++ rest → hdr.length = 8 →
      BigEndian.Uint64 hdr = .ok L → L ≤ maxAlloc → rest.length < L →
      Decode bufferReader st
        = .ok ([], some (rest ++ List.replicate (L - rest.length) 0),
               some (if rest.length = 0 then .EOF else .ErrUnexpectedEOF))) := by
  constructor
  · intro h
    have hread := bufferReader_ReadFull_short st BytesFor64Bit (by simpa [BytesFor64Bit] using h)
    simp only [Decode, hread]
  · intro hdr rest L hst hh hu hL hr
    subst hst
    have hread : bufferReader.ReadFull (hdr ++ rest) BytesFor64Bit = (rest, hdr, none) := by
      have : BytesFor64Bit = hdr.length := by rw [hh]; rfl
      rw [this, bufferReader_ReadFull_append]
    have hfill : fill (List.replicate BytesFor64Bit 0) hdr = hdr :=
      fill_full _ _ (by simp [hh, BytesFor64Bit])
    simp only [Decode, hread, hfill, hu, makeSlice, hL, if_true, bind, Except.bind,
      bufferReader_ReadFull_short rest L hr, fill_short L rest (by omega)]

/-- **C17** `Decode` hands a partial frame to its caller. On a stream whose
length bytes declare 3 bytes and which holds 1 more byte, `Decode` returns,
with the error `io.ErrUnexpectedEOF`, a payload that is not nil: the buffer of
3 bytes whose first byte is the byte read. On a stream that ends in the length
bytes it returns the nil slice, as `ReadEncrypted` does on every error. -/
theorem C17_partial_frame :
    Decode bufferReader [0, 0, 0, 0, 0, 0, 0, 3, 1]
      = .ok ([], some [1, 0, 0], some .ErrUnexpectedEOF) ∧
    (some [1, 0, 0] : Option Bytes) ≠ none ∧
    Decode bufferReader [0, 0, 0] = .ok ([], none, some .ErrUnexpectedEOF) ∧
    ReadEncrypted sampleAEAD bufferReader [0, 0, 0, 0, 0, 0, 0, 3, 1] sampleKey
      = .ok ([], none, some .ErrUnexpectedEOF) := by
  refine ⟨by decide, by decide, by decide, by decide⟩

/-! ## The wire format of a message -/

theorem sampleAEAD_tag16 (key : AESKey) (nonce p : Bytes) :
    (sampleAEAD.Seal key nonce p).length = p.length + 16 := by
  have := key.size
  simp only [KeySize] at this
  simp only [sampleAEAD, List.length_append, List.length_take]
  omega

/-- **C18** Wire format: for every key, sequence number `s` and body `b`, when
`WriteEncryptedMessage` succeeds on a buffer, it has appended exactly
`BE64(12 + |c|) || nonce || c`, where `nonce` is the 12 bytes drawn from the
random source for this call and `c = Seal(key, nonce, BE64(s) || b)`; when the
primitive adds a 16-byte tag to every plaintext, these are `len(b) + 44`
bytes. -/
theorem C18_wire_format (A : AEAD) (key : AESKey) (s : Nat) (b w rnd buf rnd2 : Bytes)
    (hw : WriteEncryptedMessage A bufferWriter w key s b rnd = (buf, rnd2, none)) :
    ∃ nonce, nonce.length = 12 ∧ rnd = nonce ++ rnd2 ∧
      buf = w ++ (BigEndian.AppendUint64 []
                    (12 + (A.Seal key nonce (BigEndian.AppendUint64 [] s ++ b)).length)
                  ++ nonce ++ A.Seal key nonce (BigEndian.AppendUint64 [] s ++ b)) ∧
      ((∀ k n p, (A.Seal k n p).length = p.length + 16) →
        buf.length = w.length + (b.length + 44)) := by
  obtain ⟨nonce, hn, hr, he⟩ := WriteEncrypted_ok A bufferWriter w buf key _ rnd rnd2 hw
  rw [Encode_buffer] at he
  simp only [Prod.mk.injEq, and_true] at he
  simp only [NonceSize] at hn
  refine ⟨nonce, hn, hr, ?_, ?_⟩
  · rw [← he]
    simp only [List.length_append, hn, List.append_assoc]
  · intro htag
    rw [← he]
    simp only [List.length_append, AppendUint64_length, List.length_nil, hn, htag]
    omega

theorem C18_wire_format_witness :
    WriteEncryptedMessage sampleAEAD bufferWriter [] sampleKey 5 [42] sampleNonce
      = (sampleWire5, [], none) ∧
    ∃ nonce, nonce.length = 12 ∧ sampleNonce = nonce ++ [] ∧
      sampleWire5 = [] ++ (BigEndian.AppendUint64 []
          (12 + (sampleAEAD.Seal sampleKey nonce (BigEndian.AppendUint64 [] 5 ++ [42])).length)
        ++ nonce ++ sampleAEAD.Seal sampleKey nonce (BigEndian.AppendUint64 [] 5 ++ [42])) ∧
      ((∀ k n p, (sampleAEAD.Seal k n p).length = p.length + 16) →
        sampleWire5.length = ([] : Bytes).length + (([42] : Bytes).length + 44)) :=
  ⟨by decide, C18_wire_format sampleAEAD sampleKey 5 [42] [] sampleNonce sampleWire5 []
    (by decide)⟩

/-! ## The exchange of challenges -/

theorem handshakeSend_draw {σ : Type} (A : AEAD) (T : NetConn σ) (net : σ) (c : Connection)
    (ch nonce rest : Bytes) (hch : ch.length = BytesFor64Bit) (hn : nonce.length = NonceSize) :
    ∃ v, v < 2 ^ 64 ∧ RandomUint64 (ch ++ (nonce ++ rest)) = .ok (nonce ++ rest, v) ∧
      handshakeSend A T net c (ch ++ (nonce ++ rest))
        = .ok ((Encode T.toWriter net
                  (nonce ++ A.Seal c.key nonce (BigEndian.AppendUint64 [] v))).1,
               { c with counterLocal := 0, counterRemote := 0, challengeLocal := v }, rest,
               (Encode T.toWriter net
                  (nonce ++ A.Seal c.key nonce (BigEndian.AppendUint64 [] v))).2) := by
  obtain ⟨v, hv, hr⟩ := RandomUint64_enough ch (nonce ++ rest) hch
  refine ⟨v, hv, hr, ?_⟩
  simp only [handshakeSend, hr, bind, Except.bind,
    WriteEncrypted_enough A T.toWriter _ _ _ nonce rest hn]

theorem Duplex.establish_explicit (A : AEAD) (hA : A.Correct) (overhead : Nat)
    (hE : A.Expands overhead) (hov : overhead + 20 ≤ maxAlloc) (key : AESKey)
    (a1 a2 a3 a4 b1 b2 b3 b4 : Nat) (chA nA restA chB nB restB : Bytes)
    (hchA : chA.length = BytesFor64Bit) (hnA : nA.length = NonceSize)
    (hchB : chB.length = BytesFor64Bit) (hnB : nB.length = NonceSize) :
    ∃ a b, a < 2 ^ 64 ∧ b < 2 ^ 64 ∧
      RandomUint64 (chA ++ (nA ++ restA)) = .ok (nA ++ restA, a) ∧
      RandomUint64 (chB ++ (nB ++ restB)) = .ok (nB ++ restB, b) ∧
      handshakeSend A peerA ⟨[], []⟩ ⟨key, a1, a2, a3, a4⟩ (chA ++ (nA ++ restA))
        = .ok (⟨BigEndian.AppendUint64 []
                  (nA ++ A.Seal key nA (BigEndian.AppendUint64 [] a)).length
                ++ (nA ++ A.Seal key nA (BigEndian.AppendUint64 [] a)), []⟩,
               ⟨key, a1, 0, a, 0⟩, restA, none) ∧
      handshakeSend A peerB
          ⟨BigEndian.AppendUint64 [] (nA ++ A.Seal key nA (BigEndian.AppendUint64 [] a)).length
            ++ (nA ++ A.Seal key nA (BigEndian.AppendUint64 [] a)), []⟩
          ⟨key, b1, b2, b3, b4⟩ (chB ++ (nB ++ restB))
        = .ok (⟨BigEndian.AppendUint64 []
                  (nA ++ A.Seal key nA (BigEndian.AppendUint64 [] a)).length
                ++ (nA ++ A.Seal key nA (BigEndian.AppendUint64 [] a)),
                BigEndian.AppendUint64 []
                  (nB ++ A.Seal key nB (BigEndian.AppendUint64 [] b)).length
                ++ (nB ++ A.Seal key nB (BigEndian.AppendUint64 [] b))⟩,
               ⟨key, b1, 0, b, 0⟩, restB, none) ∧
      Duplex.establish A ⟨key, a1, a2, a3, a4⟩ ⟨key, b1, b2, b3, b4⟩
          (chA ++ (nA ++ restA)) (chB ++ (nB ++ restB))
        = .ok (⟨⟨[], []⟩, ⟨key, b, 0, a, 0⟩, ⟨key, a, 0, b, 0⟩, restA, restB⟩, none, none) := by
  obtain ⟨a, ha, hdA, hsendA⟩ := handshakeSend_draw A peerA ⟨[], []⟩ ⟨key, a1, a2, a3, a4⟩
    chA nA restA hchA hnA
  rw [Encode_peerA] at hsendA
  simp only [List.nil_append] at hsendA
  obtain ⟨b, hb, hdB, hsendB⟩ := handshakeSend_draw A peerB
    ⟨BigEndian.AppendUint64 [] (nA ++ A.Seal key nA (BigEndian.AppendUint64 [] a)).length
      ++ (nA ++ A.Seal key nA (BigEndian.AppendUint64 [] a)), []⟩ ⟨key, b1, b2, b3, b4⟩
    chB nB restB hchB hnB
  rw [Encode_peerB] at hsendB
  simp only [List.nil_append] at hsendB
  have hlenA := handshake_block_length_le A overhead hE hov key nA a hnA
  have hlenB := handshake_block_length_le A overhead hE hov key nB b hnB
  have h8 : ∀ n : Nat, BytesFor64Bit = (BigEndian.AppendUint64 [] n).length := by
    intro n
    simp [AppendUint64_length, BytesFor64Bit]
  have hrecvA := handshakeReceive_of_reads A hA peerA
    ⟨BigEndian.AppendUint64 [] (nA ++ A.Seal key nA (BigEndian.AppendUint64 [] a)).length
      ++ (nA ++ A.Seal key nA (BigEndian.AppendUint64 [] a)),
     BigEndian.AppendUint64 [] (nB ++ A.Seal key nB (BigEndian.AppendUint64 [] b)).length
      ++ (nB ++ A.Seal key nB (BigEndian.AppendUint64 [] b))⟩
    ⟨BigEndian.AppendUint64 [] (nA ++ A.Seal key nA (BigEndian.AppendUint64 [] a)).length
      ++ (nA ++ A.Seal key nA (BigEndian.AppendUint64 [] a)),
     nB ++ A.Seal key nB (BigEndian.AppendUint64 [] b)⟩
    ⟨BigEndian.AppendUint64 [] (nA ++ A.Seal key nA (BigEndian.AppendUint64 [] a)).length
      ++ (nA ++ A.Seal key nA (BigEndian.AppendUint64 [] a)), []⟩
    ⟨key, a1, 0, a, 0⟩ nB b hb hnB hlenB
    (peerA_ReadFull _ _ _ _ (h8 _))
    (by simpa only [List.append_nil] using
      peerA_ReadFull (nB ++ A.Seal key nB (BigEndian.AppendUint64 [] b)) [] _ _ rfl)
  have hrecvB := handshakeReceive_of_reads A hA peerB
    ⟨BigEndian.AppendUint64 [] (nA ++ A.Seal key nA (BigEndian.AppendUint64 [] a)).length
      ++ (nA ++ A.Seal key nA (BigEndian.AppendUint64 [] a)), []⟩
    ⟨nA ++ A.Seal key nA (BigEndian.AppendUint64 [] a), []⟩ ⟨[], []⟩
    ⟨key, b1, 0, b, 0⟩ nA a ha hnA hlenA
    (peerB_ReadFull _ _ _ _ (h8 _))
    (by simpa only [List.append_nil] using
      peerB_ReadFull (nA ++ A.Seal key nA (BigEndian.AppendUint64 [] a)) [] _ _ rfl)
  refine ⟨a, b, ha, hb, hdA, hdB, hsendA, hsendB, ?_⟩
  simp only [Duplex.establish, hsendA, hsendB, bind, Except.bind, if_true, hrecvA, hrecvB]

/-- **C19** Handshake exchange. Every `handshake` that returns leaves
`counterLocal = 0` and `counterRemote = 0`. When two peers with the same key
run it with each other (random sources not failing, blocks fitting a Go slice,
the primitive opening what it sealed), each peer draws its local challenge
from its random source, writes exactly one encrypted block, the frame of
`nonce || Seal(key, nonce, BE64(challengeLocal))` with no sequence prefix,
then reads exactly one encrypted block, which leaves nothing in flight, and
sets `challengeRemote` to the big-endian value of its plaintext: each peer's
`challengeRemote` is the other peer's `challengeLocal`. -/
theorem C19_handshake_exchange (A : AEAD) (hA : A.Correct) (overhead : Nat)
    (hE : A.Expands overhead) (hov : overhead + 20 ≤ maxAlloc) (cA cB : Connection)
    (hkey : cA.key = cB.key) (rndA rndB : Bytes) (hrA : 20 ≤ rndA.length)
    (hrB : 20 ≤ rndB.length) :
    (∀ (σ : Type) (T : NetConn σ) (net net2 : σ) (c c2 : Connection) (rnd rnd2 : Bytes)
        (e : Option GoError), handshake A T net c rnd = .ok (net2, c2, rnd2, e) →
        c2.counterLocal = 0 ∧ c2.counterRemote = 0) ∧
    ∃ d nA nB blockA blockB,
      nA.length = NonceSize ∧ nB.length = NonceSize ∧
      Duplex.establish A cA cB rndA rndB = .ok (d, none, none) ∧
      d.A.counterLocal = 0 ∧ d.A.counterRemote = 0 ∧
      d.B.counterLocal = 0 ∧ d.B.counterRemote = 0 ∧
      (RandomUint64 rndA).map Prod.snd = .ok d.A.challengeLocal ∧
      (RandomUint64 rndB).map Prod.snd = .ok d.B.challengeLocal ∧
      blockA = nA ++ A.Seal cA.key nA (BigEndian.AppendUint64 [] d.A.challengeLocal) ∧
      blockB = nB ++ A.Seal cB.key nB (BigEndian.AppendUint64 [] d.B.challengeLocal) ∧
      (handshakeSend A peerA ⟨[], []⟩ cA rndA).map (fun r => (r.1, r.2.2.2))
        = .ok (⟨BigEndian.AppendUint64 [] blockA.length ++ blockA, []⟩, none) ∧
      (handshakeSend A peerB ⟨BigEndian.AppendUint64 [] blockA.length ++ blockA, []⟩
          cB rndB).map (fun r => (r.1, r.2.2.2))
        = .ok (⟨BigEndian.AppendUint64 [] blockA.length ++ blockA,
                BigEndian.AppendUint64 [] blockB.length ++ blockB⟩, none) ∧
      d.net = ⟨[], []⟩ ∧
      d.A.challengeRemote = d.B.challengeLocal ∧
      d.B.challengeRemote = d.A.challengeLocal := by
  refine ⟨fun σ T net net2 c c2 rnd rnd2 e h => ?_, ?_⟩
  · obtain ⟨-, h1, h2, -, -⟩ := handshake_fields A T net net2 c c2 rnd rnd2 e h
    exact ⟨h1, h2⟩
  · obtain ⟨chA, nA, restA, hsA, hchA, hnA, -⟩ := split_tape rndA hrA
    obtain ⟨chB, nB, restB, hsB, hchB, hnB, -⟩ := split_tape rndB hrB
    subst hsA hsB
    obtain ⟨key, a1, a2, a3, a4⟩ := cA
    obtain ⟨keyB, b1, b2, b3, b4⟩ := cB
    simp only at hkey
    subst hkey
    obtain ⟨a, b, -, -, hdA, hdB, hsendA, hsendB, hest⟩ := Duplex.establish_explicit A hA
      overhead hE hov key a1 a2 a3 a4 b1 b2 b3 b4 chA nA restA chB nB restB hchA hnA hchB hnB
    refine ⟨_, nA, nB, _, _, hnA, hnB, hest, rfl, rfl, rfl, rfl, ?_, ?_, rfl, rfl, ?_, ?_,
      rfl, rfl, rfl⟩
    · simp only [hdA, Except.map]
    · simp only [hdB, Except.map]
    · simp only [hsendA, Except.map]
    · simp only [hsendB, Except.map]

theorem C19_handshake_exchange_witness :
    sampleAEAD.Correct ∧ sampleAEAD.Expands 16 ∧ 16 + 20 ≤ maxAlloc ∧
    (sampleConn sampleKey).key = (sampleConn sampleKey).key ∧
    20 ≤ sampleTape.length ∧ 20 ≤ sampleLongTape.length ∧
    (∀ (σ : Type) (T : NetConn σ) (net net2 : σ) (c c2 : Connection) (rnd rnd2 : Bytes)
        (e : Option GoError), handshake sampleAEAD T net c rnd = .ok (net2, c2, rnd2, e) →
        c2.counterLocal = 0 ∧ c2.counterRemote = 0) ∧
    ∃ d nA nB blockA blockB,
      nA.length = NonceSize ∧ nB.length = NonceSize ∧
      Duplex.establish sampleAEAD (sampleConn sampleKey) (sampleConn sampleKey)
        sampleTape sampleLongTape = .ok (d, none, none) ∧
      d.A.counterLocal = 0 ∧ d.A.counterRemote = 0 ∧
      d.B.counterLocal = 0 ∧ d.B.counterRemote = 0 ∧
      (RandomUint64 sampleTape).map Prod.snd = .ok d.A.challengeLocal ∧
      (RandomUint64 sampleLongTape).map Prod.snd = .ok d.B.challengeLocal ∧
      blockA = nA ++ sampleAEAD.Seal (sampleConn sampleKey).key nA
        (BigEndian.AppendUint64 [] d.A.challengeLocal) ∧
      blockB = nB ++ sampleAEAD.Seal (sampleConn sampleKey).key nB
        (BigEndian.AppendUint64 [] d.B.challengeLocal) ∧
      (handshakeSend sampleAEAD peerA ⟨[], []⟩ (sampleConn sampleKey) sampleTape).map
          (fun r => (r.1, r.2.2.2))
        = .ok (⟨BigEndian.AppendUint64 [] blockA.length ++ blockA, []⟩, none) ∧
      (handshakeSend sampleAEAD peerB ⟨BigEndian.AppendUint64 [] blockA.length ++ blockA, []⟩
          (sampleConn sampleKey) sampleLongTape).map (fun r => (r.1, r.2.2.2))
        = .ok (⟨BigEndian.AppendUint64 [] blockA.length ++ blockA,
                BigEndian.AppendUint64 [] blockB.length ++ blockB⟩, none) ∧
      d.net = ⟨[], []⟩ ∧
      d.A.challengeRemote = d.B.challengeLocal ∧
      d.B.challengeRemote = d.A.challengeLocal :=
  ⟨sampleAEAD_correct, sampleAEAD_expands, by decide, rfl, by decide, by decide,
    C19_handshake_exchange sampleAEAD sampleAEAD_correct 16 sampleAEAD_expands (by decide)
      (sampleConn sampleKey) (sampleConn sampleKey) rfl sampleTape sampleLongTape
      (by decide) (by decide)⟩

/-! ## A failed handshake -/

theorem Encode_preserves {σ : Type} (W : Writer σ) (P : σ → Prop)
    (hW : ∀ s p, P s → P (W.Write s p).1) (w : σ) (data : Bytes) (hP : P w) :
    P (Encode W w data).1 := by
  simp only [Encode]
  have h1 := hW w (BigEndian.AppendUint64 [] (data.length % 2 ^ 64)) hP
  rcases hw1 : W.Write w (BigEndian.AppendUint64 [] (data.length % 2 ^ 64)) with ⟨w1, n1, e1⟩
  rw [hw1] at h1
  cases e1 with
  | some err => exact h1
  | none => exact hW w1 data h1

theorem WriteEncrypted_preserves {σ : Type} (A : AEAD) (W : Writer σ) (P : σ → Prop)
    (hW : ∀ s p, P s → P (W.Write s p).1) (w : σ) (key : AESKey) (data rnd : Bytes)
    (hP : P w) : P (WriteEncrypted A W w key data rnd).1 := by
  simp only [WriteEncrypted]
  rcases he : Encrypt A key data rnd with ⟨r, c, e⟩
  cases e with
  | some err => exact hP
  | none => exact Encode_preserves W P hW w _ hP

theorem Decode_preserves {σ : Type} (R : Reader σ) (P : σ → Prop)
    (hR : ∀ s n, P s → P (R.ReadFull s n).1) (r r2 : σ) (d : Option Bytes)
    (e : Option GoError) (h : Decode R r = .ok (r2, d, e)) (hP : P r) : P r2 := by
  simp only [Decode] at h
  have h1 := hR r BytesFor64Bit hP
  rcases hr1 : R.ReadFull r BytesFor64Bit with ⟨r1, got, e1⟩
  rw [hr1] at h h1
  cases e1 with
  | some err =>
    simp only [Except.ok.injEq, Prod.mk.injEq] at h
    exact h.1 ▸ h1
  | none =>
    simp only [bind, Except.bind] at h
    split at h
    · simp at h
    · rename_i L hL
      split at h
      · simp at h
      · rename_i data hdata
        have h2 := hR r1 L h1
        simp only [Except.ok.injEq, Prod.mk.injEq] at h
        exact h.1 ▸ h2

theorem ReadEncrypted_preserves {σ : Type} (A : AEAD) (R : Reader σ) (P : σ → Prop)
    (hR : ∀ s n, P s → P (R.ReadFull s n).1) (r r2 : σ) (key : AESKey) (d : Option Bytes)
    (e : Option GoError) (h : ReadEncrypted A R r key = .ok (r2, d, e)) (hP : P r) : P r2 := by
  simp only [ReadEncrypted, bind, Except.bind] at h
  split at h
  · simp at h
  · rename_i v hv
    obtain ⟨rd, ct, e1⟩ := v
    have hrd := Decode_preserves R P hR r rd ct e1 hv hP
    cases e1 with
    | some err =>
      simp only [Except.ok.injEq, Prod.mk.injEq] at h
      exact h.1 ▸ hrd
    | none =>
      simp only [Except.ok.injEq, Prod.mk.injEq] at h
      exact h.1 ▸ hrd

theorem handshakeSend_inv {σ : Type} (A : AEAD) (T : NetConn σ) (net n1 : σ)
    (c c1 : Connection) (rnd r1 : Bytes) (e1 : Option GoError)
    (h : handshakeSend A T net c rnd = .ok (n1, c1, r1, e1)) :
    ∃ ch rndx, RandomUint64 rnd = .ok (rndx, ch) ∧
      c1 = { c with counterLocal := 0, counterRemote := 0, challengeLocal := ch } ∧
      WriteEncrypted A T.toWriter net c.key (BigEndian.AppendUint64 [] ch) rndx
        = (n1, r1, e1) := by
  simp only [handshakeSend, bind, Except.bind] at h
  split at h
  · simp at h
  · rename_i v hv
    obtain ⟨rndx, ch⟩ := v
    simp only [Except.ok.injEq, Prod.mk.injEq] at h
    obtain ⟨h1, h2, h3, h4⟩ := h
    exact ⟨ch, rndx, hv, h2.symm, Prod.ext h1 (Prod.ext h3 h4)⟩

theorem handshakeReceive_inv {σ : Type} (A : AEAD) (T : NetConn σ) (net n2 : σ)
    (c c2 : Connection) (e : GoError)
    (h : handshakeReceive A T net c = .ok (n2, c2, some e)) :
    c2 = c ∧ ReadEncrypted A T.toReader net c.key = .ok (n2, none, some e) := by
  simp only [handshakeReceive, bind, Except.bind] at h
  split at h
  · simp at h
  · rename_i v hv
    obtain ⟨rd, d, e1⟩ := v
    cases e1 with
    | some err =>
      simp only [Except.ok.injEq, Prod.mk.injEq, Option.some.injEq] at h
      obtain ⟨h1, h2, h3⟩ := h
      subst h1 h2 h3
      have hd := ReadEncrypted_err A T.toReader net rd c.key d err hv
      subst hd
      exact ⟨rfl, hv⟩
    | none =>
      simp only at h
      split at h <;> simp at h

theorem sock_Write_open (s : Sock) (p : Bytes) (h : s.closed = false) :
    (sock.Write s p).1.closed = false := by
  simp only [sock]
  split <;> exact h

theorem sock_ReadFull_open (s : Sock) (n : Nat) (h : s.closed = false) :
    (sock.ReadFull s n).1.closed = false := by
  simp only [sock]
  exact h

/-- **C20** (as amended) A failed handshake. When `NewConnection` returns an
error, the challenge had been drawn and the error is, unchanged, either the
error of the challenge write, in which case the connection is left as that
write left it and no read was made, or, the write having succeeded, the error
of the challenge read. `NewConnection` reaches the underlying connection
through `Write` and reads only, never through `Close`: every property of the
connection that writes and reads preserve, such as being open, still holds
when it returns. -/
theorem C20_handshake_failure {σ : Type} (A : AEAD) (T : NetConn σ) (conn s2 : σ)
    (key : AESKey) (rnd rnd2 : Bytes) (c : Connection) (e : GoError) (P : σ → Prop)
    (hW : ∀ s p, P s → P (T.Write s p).1) (hR : ∀ s n, P s → P (T.ReadFull s n).1)
    (hP : P conn) (h : NewConnection A T conn key rnd = .ok (s2, c, rnd2, some e)) :
    P s2 ∧
    ∃ ch rnd1, RandomUint64 rnd = .ok (rnd1, ch) ∧
      (WriteEncrypted A T.toWriter conn zeroKey (BigEndian.AppendUint64 [] ch) rnd1
          = (s2, rnd2, some e) ∨
       ∃ s1, WriteEncrypted A T.toWriter conn zeroKey (BigEndian.AppendUint64 [] ch) rnd1
          = (s1, rnd2, none) ∧
         ReadEncrypted A T.toReader s1 zeroKey = .ok (s2, none, some e)) := by
  simp only [NewConnection, handshake, bind, Except.bind] at h
  split at h
  · simp at h
  · rename_i v hv
    obtain ⟨n1, c1, r1, e1⟩ := v
    obtain ⟨ch, rndx, hdraw, hc1, hwrite⟩ := handshakeSend_inv A T _ _ _ _ _ _ _ hv
    simp only at hwrite
    have hP1 : P n1 := by
      have := WriteEncrypted_preserves A T.toWriter P hW conn zeroKey
        (BigEndian.AppendUint64 [] ch) rndx hP
      rw [hwrite] at this
      exact this
    cases e1 with
    | some err =>
      simp only [Except.ok.injEq, Prod.mk.injEq, Option.some.injEq] at h
      obtain ⟨h1, -, h3, h4⟩ := h
      subst h1 h3 h4
      exact ⟨hP1, ch, rndx, hdraw, Or.inl hwrite⟩
    | none =>
      simp only at h
      split at h
      · simp at h
      · rename_i w hw
        obtain ⟨n2, c2, e2⟩ := w
        simp only [Except.ok.injEq, Prod.mk.injEq] at h
        obtain ⟨h1, -, h3, h4⟩ := h
        subst h1 h3 h4
        obtain ⟨-, hread⟩ := handshakeReceive_inv A T n1 n2 c1 c2 e hw
        have hk : c1.key = zeroKey := by rw [hc1]
        rw [hk] at hread
        exact ⟨ReadEncrypted_preserves A T.toReader P hR n1 n2 zeroKey none (some e) hread hP1,
          ch, rndx, hdraw, Or.inr ⟨n1, hwrite, hread⟩⟩

theorem C20_handshake_failure_witness :
    (∀ (s : Sock) (p : Bytes), s.closed = false → (sock.Write s p).1.closed = false) ∧
    (∀ (s : Sock) (n : Nat), s.closed = false → (sock.ReadFull s n).1.closed = false) ∧
    (⟨[], [], false, none, 0⟩ : Sock).closed = false ∧
    NewConnection sampleAEAD sock ⟨[], [], false, none, 0⟩ sampleKey sampleTape
      = .ok (⟨[], sampleHandshakeWireZero, false, none, 1⟩, sampleFailedConn, sampleNonce,
             some .EOF) ∧
    (⟨[], sampleHandshakeWireZero, false, none, 1⟩ : Sock).closed = false ∧
    ∃ ch rnd1, RandomUint64 sampleTape = .ok (rnd1, ch) ∧
      (WriteEncrypted sampleAEAD sock.toWriter ⟨[], [], false, none, 0⟩ zeroKey
            (BigEndian.AppendUint64 [] ch) rnd1
          = (⟨[], sampleHandshakeWireZero, false, none, 1⟩, sampleNonce, some .EOF) ∨
       ∃ s1, WriteEncrypted sampleAEAD sock.toWriter ⟨[], [], false, none, 0⟩ zeroKey
            (BigEndian.AppendUint64 [] ch) rnd1
          = (s1, sampleNonce, none) ∧
         ReadEncrypted sampleAEAD sock.toReader s1 zeroKey
          = .ok (⟨[], sampleHandshakeWireZero, false, none, 1⟩, none, some .EOF)) :=
  ⟨sock_Write_open, sock_ReadFull_open, rfl, by decide,
    C20_handshake_failure sampleAEAD sock ⟨[], [], false, none, 0⟩
      ⟨[], sampleHandshakeWireZero, false, none, 1⟩ sampleKey sampleTape sampleNonce
      sampleFailedConn .EOF (fun s => s.closed = false) sock_Write_open sock_ReadFull_open rfl
      (by decide)⟩

/-- Counterexample to **C20** as stated: on an open connection on which
nothing arrives, the challenge read fails with `io.EOF`; `NewConnection`
returns that error and the connection is still open. Likewise when the
challenge write fails: the error of the write is returned, no read was made
and the connection is still open. -/
theorem C20_left_open :
    NewConnection sampleAEAD sock ⟨[], [], false, none, 0⟩ sampleKey sampleTape
      = .ok (⟨[], sampleHandshakeWireZero, false, none, 1⟩, sampleFailedConn, sampleNonce,
             some .EOF) ∧
    (⟨[], sampleHandshakeWireZero, false, none, 1⟩ : Sock).closed ≠ true ∧
    NewConnection sampleAEAD sock ⟨[1, 2, 3], [], false, some (.transport 1), 0⟩ sampleKey
        sampleTape
      = .ok (⟨[1, 2, 3], [], false, some (.transport 1), 0⟩, sampleFailedConn, sampleNonce,
             some (.transport 1)) ∧
    (⟨[1, 2, 3], [], false, some (.transport 1), 0⟩ : Sock).closed ≠ true := by
  refine ⟨by decide, by decide, by decide, by decide⟩

/-- The assumption that the primitive opens what it sealed does not give
tamper detection: `sampleAEAD` satisfies it, and a block of it with one
plaintext byte changed decrypts, with no error, to another plaintext. Whether
a changed block is rejected is decided by the primitive, not by `Decrypt`,
which returns what `Open` returns. -/
theorem tamper_detection_is_of_the_primitive :
    sampleAEAD.Correct ∧
    Decrypt sampleAEAD sampleKey (sampleNonce ++ [104, 105] ++ sampleNonce ++ [1, 1, 1, 1])
      = (some [104, 105], none) ∧
    Decrypt sampleAEAD sampleKey (sampleNonce ++ [105, 105] ++ sampleNonce ++ [1, 1, 1, 1])
      = (some [105, 105], none) :=
  ⟨sampleAEAD_correct, by decide, by decide⟩

/-! ## The errors and the counters of `ReadMessage` -/

/-- **C21** The errors of `ReadMessage` are those of package `helpers`. On a
message whose sequence tag (5) differs from the expected one (6),
`ReadMessage` returns `helpers.ErrInvalidRemoteMessageChallenge`, which is not
the value `message.ErrInvalidRemoteMessageChallenge`; on a message too short
to hold a tag it returns `helpers.ErrInvalidRemoteMessageSize`, which is not
`message.ErrInvalidRemoteMessageSize`. -/
theorem C21_ReadMessage_errors :
    ReadMessage sampleAEAD bufferConn sampleWire5
        { key := sampleKey, challengeLocal := 6, challengeRemote := 0,
          counterLocal := 0, counterRemote := 0 }
      = .ok ([], { key := sampleKey, challengeLocal := 6, challengeRemote := 0,
                   counterLocal := 0, counterRemote := 1 },
             none, some .helpersErrInvalidRemoteMessageChallenge) ∧
    GoError.helpersErrInvalidRemoteMessageChallenge
      ≠ GoError.messageErrInvalidRemoteMessageChallenge ∧
    ReadMessage sampleAEAD bufferConn sampleWireHi
        { key := sampleKey, challengeLocal := 6, challengeRemote := 0,
          counterLocal := 0, counterRemote := 0 }
      = .ok ([], { key := sampleKey, challengeLocal := 6, challengeRemote := 0,
                   counterLocal := 0, counterRemote := 1 },
             none, some .helpersErrInvalidRemoteMessageSize) ∧
    GoError.helpersErrInvalidRemoteMessageSize
      ≠ GoError.messageErrInvalidRemoteMessageSize := by
  refine ⟨by decide, by decide, by decide, by decide⟩

/-- **C22** A failed receive advances the counter: in a state with
`counterRemote = M`, when `ReadMessage` returns an error, whatever its cause,
it leaves `counterRemote = (M + 1) mod 2 ^ 64`, and the next `ReadMessage`
validates against the tag of `M + 1`, not of `M`. -/
theorem C22_failed_receive_advances {σ : Type} (A : AEAD) (T : NetConn σ) (net net2 : σ)
    (c c2 : Connection) (data : Option Bytes) (err : GoError)
    (h : ReadMessage A T net c = .ok (net2, c2, data, some err)) :
    c2.counterRemote = (c.counterRemote + 1) % 2 ^ 64 ∧
    ReadMessage A T net2 c2
      = (ReadEncryptedMessage A T.toReader net2 c.key
          (c.challengeLocal ^^^ ((c.challengeRemote * (c.counterRemote + 1)) % 2 ^ 64))).map
        (fun r => (r.1, { c with counterRemote := (c.counterRemote + 2) % 2 ^ 64 }, r.2)) := by
  rw [ReadMessage_eq] at h
  simp only [Except.map] at h
  split at h
  · simp at h
  · rename_i v hv
    obtain ⟨rd, d1, e1⟩ := v
    simp only [Except.ok.injEq, Prod.mk.injEq] at h
    obtain ⟨-, hc, -, -⟩ := h
    subst hc
    refine ⟨rfl, ?_⟩
    have e1 : (c.challengeRemote * ((c.counterRemote + 1) % 2 ^ 64)) % 2 ^ 64
        = (c.challengeRemote * (c.counterRemote + 1)) % 2 ^ 64 := by
      rw [Nat.mul_mod, Nat.mod_mod, ← Nat.mul_mod]
    have e2 : ((c.counterRemote + 1) % 2 ^ 64 + 1) % 2 ^ 64 = (c.counterRemote + 2) % 2 ^ 64 := by
      omega
    rw [ReadMessage_eq]
    simp only [e1, e2]

theorem C22_failed_receive_advances_witness :
    ReadMessage sampleAEAD bufferConn [] (sampleConn sampleKey)
      = .ok ([], { sampleConn sampleKey with counterRemote := 1 }, none, some .EOF) ∧
    ({ sampleConn sampleKey with counterRemote := 1 } : Connection).counterRemote
      = ((sampleConn sampleKey).counterRemote + 1) % 2 ^ 64 ∧
    ReadMessage sampleAEAD bufferConn [] { sampleConn sampleKey with counterRemote := 1 }
      = (ReadEncryptedMessage sampleAEAD bufferConn.toReader [] (sampleConn sampleKey).key
          ((sampleConn sampleKey).challengeLocal
            ^^^ (((sampleConn sampleKey).challengeRemote
                  * ((sampleConn sampleKey).counterRemote + 1)) % 2 ^ 64))).map
        (fun r => (r.1, { sampleConn sampleKey with
                          counterRemote := ((sampleConn sampleKey).counterRemote + 2) % 2 ^ 64 },
                   r.2)) :=
  ⟨by decide,
    C22_failed_receive_advances sampleAEAD bufferConn [] [] (sampleConn sampleKey)
      { sampleConn sampleKey with counterRemote := 1 } none .EOF (by decide)⟩

/-- **C24** Frame of the two paths: `WriteMessage` and `ReadMessage`,
successful or failing, leave `key`, `challengeLocal` and `challengeRemote` as
they were; `WriteMessage` leaves `counterRemote` unchanged and `ReadMessage`
leaves `counterLocal` unchanged; hence no sequence of such calls changes the
key or the challenges. -/
theorem C24_frame {σ : Type} (A : AEAD) (T : NetConn σ) (net : σ) (c : Connection)
    (data rnd : Bytes) :
    ((WriteMessage A T net c data rnd).2.1.key = c.key ∧
      (WriteMessage A T net c data rnd).2.1.challengeLocal = c.challengeLocal ∧
      (WriteMessage A T net c data rnd).2.1.challengeRemote = c.challengeRemote ∧
      (WriteMessage A T net c data rnd).2.1.counterRemote = c.counterRemote) ∧
    (∀ (net2 : σ) (c2 : Connection) (d : Option Bytes) (e : Option GoError),
      ReadMessage A T net c = .ok (net2, c2, d, e) →
      c2.key = c.key ∧ c2.challengeLocal = c.challengeLocal ∧
      c2.challengeRemote = c.challengeRemote ∧ c2.counterLocal = c.counterLocal) ∧
    (∀ (ops : List Op) (s s2 : Session σ), s.run A T ops = .ok s2 →
      s2.conn.key = s.conn.key ∧ s2.conn.challengeLocal = s.conn.challengeLocal ∧
      s2.conn.challengeRemote = s.conn.challengeRemote) := by
  refine ⟨?_, ?_, ?_⟩
  · rw [WriteMessage_eq]
    exact ⟨rfl, rfl, rfl, rfl⟩
  · intro net2 c2 d e h
    rw [ReadMessage_eq] at h
    simp only [Except.map] at h
    split at h
    · simp at h
    · rename_i v hv
      obtain ⟨rd, d1, e1⟩ := v
      simp only [Except.ok.injEq, Prod.mk.injEq] at h
      obtain ⟨-, hc, -, -⟩ := h
      subst hc
      exact ⟨rfl, rfl, rfl, rfl⟩
  · intro ops s s2 h
    obtain ⟨hk, ha, hb, -, -⟩ := Session.run_fields A T ops s s2 h
    exact ⟨hk, ha, hb⟩

theorem Session.step_counters_lt {σ : Type} (A : AEAD) (T : NetConn σ) (s s2 : Session σ)
    (op : Op) (h : s.step A T op = .ok s2)
    (hl : s.conn.counterLocal < 2 ^ 64) (hr : s.conn.counterRemote < 2 ^ 64) :
    s2.conn.counterLocal < 2 ^ 64 ∧ s2.conn.counterRemote < 2 ^ 64 := by
  cases op with
  | write data =>
    simp only [Session.step, WriteMessage_eq, Except.ok.injEq] at h
    subst h
    exact ⟨Nat.mod_lt _ (by decide), hr⟩
  | read =>
    simp only [Session.step, ReadMessage_eq, bind, Except.bind, Except.map] at h
    split at h
    · simp at h
    · rename_i v hv
      split at hv
      · simp at hv
      · simp only [Except.ok.injEq] at hv
        subst hv
        simp only [Except.ok.injEq] at h
        subst h
        exact ⟨hl, Nat.mod_lt _ (by decide)⟩

theorem Session.run_counters_lt {σ : Type} (A : AEAD) (T : NetConn σ) (ops : List Op) :
    ∀ (s s2 : Session σ), s.run A T ops = .ok s2 →
      s.conn.counterLocal < 2 ^ 64 → s.conn.counterRemote < 2 ^ 64 →
      s2.conn.counterLocal < 2 ^ 64 ∧ s2.conn.counterRemote < 2 ^ 64 := by
  induction ops with
  | nil =>
    intro s s2 h hl hr
    simp only [Session.run, Except.ok.injEq] at h
    subst h
    exact ⟨hl, hr⟩
  | cons op ops ih =>
    intro s s2 h hl hr
    simp only [Session.run, bind, Except.bind] at h
    split at h
    · simp at h
    · rename_i s1 hs1
      obtain ⟨hl1, hr1⟩ := Session.step_counters_lt A T s s1 op hs1 hl hr
      exact ih s1 s2 h hl1 hr1

/-- **C23** (as amended) Counter invariant: both counters are 0 right after
the handshake, and after any sequence of `WriteMessage` / `ReadMessage` calls
`counterLocal` is, modulo `2 ^ 64`, the number of `WriteMessage` calls made
and `counterRemote` the number of `ReadMessage` calls made, whether they
succeeded or failed, each call incrementing its counter by exactly 1. -/
theorem C23_counters {σ : Type} (A : AEAD) (T : NetConn σ) (net0 net : σ)
    (c0 conn : Connection) (rnd0 rnd : Bytes) (err : Option GoError)
    (hs : handshake A T net0 c0 rnd0 = .ok (net, conn, rnd, err))
    (ops : List Op) (s : Session σ)
    (hrun : Session.run A T ⟨net, conn, rnd⟩ ops = .ok s) :
    conn.counterLocal = 0 ∧ conn.counterRemote = 0 ∧
    s.conn.counterLocal = countWrites ops % 2 ^ 64 ∧
    s.conn.counterRemote = countReads ops % 2 ^ 64 ∧
    (∀ data : Bytes, (WriteMessage A T s.net s.conn data s.rnd).2.1.counterLocal
        = (s.conn.counterLocal + 1) % 2 ^ 64) ∧
    (∀ (net2 : σ) (c2 : Connection) (d : Option Bytes) (e : Option GoError),
      ReadMessage A T s.net s.conn = .ok (net2, c2, d, e) →
      c2.counterRemote = (s.conn.counterRemote + 1) % 2 ^ 64) := by
  obtain ⟨-, hl, hr, -, -⟩ := handshake_fields A T _ _ _ _ _ _ _ hs
  obtain ⟨-, -, -, hcl, hcr⟩ := Session.run_fields A T ops _ s hrun
  obtain ⟨hlt, hrt⟩ := Session.run_counters_lt A T ops _ s hrun
    (by simp only [hl]; decide) (by simp only [hr]; decide)
  simp only [hl, hr, Nat.zero_add] at hcl hcr
  rw [Nat.mod_eq_of_lt hlt] at hcl
  rw [Nat.mod_eq_of_lt hrt] at hcr
  refine ⟨hl, hr, hcl, hcr, ?_, ?_⟩
  · intro data
    rw [WriteMessage_eq]
  · intro net2 c2 d e h
    rw [ReadMessage_eq] at h
    simp only [Except.map] at h
    split at h
    · simp at h
    · rename_i v hv
      obtain ⟨rd, d1, e1⟩ := v
      simp only [Except.ok.injEq, Prod.mk.injEq] at h
      obtain ⟨-, hc, -, -⟩ := h
      subst hc
      rfl

theorem C23_counters_witness :
    handshake sampleAEAD bufferConn [] (sampleConn sampleKey) sampleTape
      = .ok ([], sampleConn sampleKey, sampleNonce, none) ∧
    Session.run sampleAEAD bufferConn ⟨[], sampleConn sampleKey, sampleNonce⟩
        [.read, .write [7]]
      = .ok ⟨sampleWire7, { sampleConn sampleKey with counterLocal := 1, counterRemote := 1 },
             []⟩ ∧
    (sampleConn sampleKey).counterLocal = 0 ∧ (sampleConn sampleKey).counterRemote = 0 ∧
    ({ sampleConn sampleKey with counterLocal := 1, counterRemote := 1 } : Connection).counterLocal
      = countWrites [.read, .write [7]] % 2 ^ 64 ∧
    ({ sampleConn sampleKey with counterLocal := 1, counterRemote := 1 } : Connection).counterRemote
      = countReads [.read, .write [7]] % 2 ^ 64 ∧
    (∀ data : Bytes, (WriteMessage sampleAEAD bufferConn sampleWire7
          { sampleConn sampleKey with counterLocal := 1, counterRemote := 1 } data []).2.1.counterLocal
        = (({ sampleConn sampleKey with counterLocal := 1, counterRemote := 1 }
              : Connection).counterLocal + 1) % 2 ^ 64) ∧
    (∀ (net2 : Bytes) (c2 : Connection) (d : Option Bytes) (e : Option GoError),
      ReadMessage sampleAEAD bufferConn sampleWire7
          { sampleConn sampleKey with counterLocal := 1, counterRemote := 1 }
        = .ok (net2, c2, d, e) →
      c2.counterRemote
        = (({ sampleConn sampleKey with counterLocal := 1, counterRemote := 1 }
              : Connection).counterRemote + 1) % 2 ^ 64) :=
  ⟨by decide, by decide,
    C23_counters sampleAEAD bufferConn [] [] (sampleConn sampleKey) (sampleConn sampleKey)
      sampleTape sampleNonce none (by decide) [.read, .write [7]]
      ⟨sampleWire7, { sampleConn sampleKey with counterLocal := 1, counterRemote := 1 }, []⟩
      (by decide)⟩

/-- Counterexample to **C23** as stated: right after the handshake, a
`ReadMessage` on a connection on which nothing arrives fails with `io.EOF`
and validates nothing, and yet leaves `counterRemote = 1`; a `WriteMessage`
whose random source fails writes nothing, returns the error, and yet leaves
`counterLocal = 1`. -/
theorem C23_failed_calls_count :
    handshake sampleAEAD bufferConn [] (sampleConn sampleKey) sampleTape
      = .ok ([], sampleConn sampleKey, sampleNonce, none) ∧
    ReadMessage sampleAEAD bufferConn [] (sampleConn sampleKey)
      = .ok ([], { sampleConn sampleKey with counterRemote := 1 }, none, some .EOF) ∧
    ({ sampleConn sampleKey with counterRemote := 1 } : Connection).counterRemote ≠ 0 ∧
    WriteMessage sampleAEAD bufferConn [] (sampleConn sampleKey) [7] []
      = ([], { sampleConn sampleKey with counterLocal := 1 }, [], some .EOF) ∧
    ({ sampleConn sampleKey with counterLocal := 1 } : Connection).counterLocal ≠ 0 := by
  refine ⟨by decide, by decide, by decide, by decide, by decide⟩

/-! ## Reflection -/

/-- **C29** (as amended) Reflection. A message that a peer with challenges
`(a, b)` wrote at counter `N`, fed back into the `ReadMessage` of that same
peer at `counterRemote = M`, is rejected with
`ErrInvalidRemoteMessageChallenge` and nil data exactly when the outgoing tag
`((a * N) mod 2 ^ 64) xor b` differs from the expected incoming tag
`a xor ((b * M) mod 2 ^ 64)`; when the two tags coincide it is accepted and
its body delivered. They coincide for `N = M = 1`, whatever the challenges,
and for `N = M = 0` exactly when `a = b`. -/
theorem C29_reflection (A : AEAD) (hA : A.Correct) (key : AESKey) (a b N M : Nat)
    (ha : a < 2 ^ 64) (hb : b < 2 ^ 64) (received sent : Nat) (body rnd buf rnd2 : Bytes)
    (c2 : Connection)
    (hw : WriteMessage A bufferConn []
        { key := key, challengeLocal := a, challengeRemote := b,
          counterLocal := N, counterRemote := received } body rnd = (buf, c2, rnd2, none))
    (hbuf : buf.length ≤ maxAlloc) :
    ReadMessage A bufferConn buf
        { key := key, challengeLocal := a, challengeRemote := b,
          counterLocal := sent, counterRemote := M }
      = .ok ([], { key := key, challengeLocal := a, challengeRemote := b,
                   counterLocal := sent, counterRemote := (M + 1) % 2 ^ 64 },
             if ((a * N) % 2 ^ 64) ^^^ b = a ^^^ ((b * M) % 2 ^ 64) then some body else none,
             if ((a * N) % 2 ^ 64) ^^^ b = a ^^^ ((b * M) % 2 ^ 64) then none
             else some .helpersErrInvalidRemoteMessageChallenge) ∧
    ((a * 1) % 2 ^ 64) ^^^ b = a ^^^ ((b * 1) % 2 ^ 64) ∧
    (((a * 0) % 2 ^ 64) ^^^ b = a ^^^ ((b * 0) % 2 ^ 64) ↔ a = b) := by
  refine ⟨?_, ?_, ?_⟩
  · rw [WriteMessage_eq, bufferConn_toWriter] at hw
    have h1 := congrArg Prod.fst hw
    have h2 := congrArg (fun r => r.2.2) hw
    simp only at h1 h2
    have hw2 : WriteEncryptedMessage A bufferWriter [] key (((a * N) % 2 ^ 64) ^^^ b) body rnd
        = (buf, rnd2, none) := Prod.ext h1 h2
    obtain ⟨nonce, hn, -, hbuf2⟩ := WriteEncryptedMessage_buffer_ok A key _ body rnd buf rnd2 hw2
    have hlen : (nonce ++ A.Seal key nonce
        (BigEndian.AppendUint64 [] (((a * N) % 2 ^ 64) ^^^ b) ++ body)).length ≤ maxAlloc := by
      rw [hbuf2, List.length_append] at hbuf
      omega
    have hread := ReadEncryptedMessage_frame A hA key nonce body [] (((a * N) % 2 ^ 64) ^^^ b)
      (a ^^^ ((b * M) % 2 ^ 64)) hn hlen
    rw [List.append_nil, ← hbuf2, Nat.mod_eq_of_lt (tag_lt a b N hb)] at hread
    simp only [ReadMessage_eq, bufferConn_toReader, hread, Except.map]
    split <;> rfl
  · rw [Nat.mul_one, Nat.mul_one, Nat.mod_eq_of_lt ha, Nat.mod_eq_of_lt hb]
  · simp only [Nat.mul_zero, Nat.zero_mod, Nat.zero_xor, Nat.xor_zero]
    exact eq_comm

theorem C29_reflection_witness :
    sampleAEAD.Correct ∧ 3 < 2 ^ 64 ∧ 5 < 2 ^ 64 ∧
    WriteMessage sampleAEAD bufferConn []
        { key := sampleKey, challengeLocal := 3, challengeRemote := 5,
          counterLocal := 0, counterRemote := 0 } [42] sampleNonce
      = (sampleWire5, { key := sampleKey, challengeLocal := 3, challengeRemote := 5,
                        counterLocal := 1, counterRemote := 0 }, [], none) ∧
    sampleWire5.length ≤ maxAlloc ∧
    ReadMessage sampleAEAD bufferConn sampleWire5
        { key := sampleKey, challengeLocal := 3, challengeRemote := 5,
          counterLocal := 1, counterRemote := 0 }
      = .ok ([], { key := sampleKey, challengeLocal := 3, challengeRemote := 5,
                   counterLocal := 1, counterRemote := (0 + 1) % 2 ^ 64 },
             if ((3 * 0) % 2 ^ 64) ^^^ 5 = 3 ^^^ ((5 * 0) % 2 ^ 64) then some [42] else none,
             if ((3 * 0) % 2 ^ 64) ^^^ 5 = 3 ^^^ ((5 * 0) % 2 ^ 64) then none
             else some .helpersErrInvalidRemoteMessageChallenge) ∧
    ((3 * 1) % 2 ^ 64) ^^^ 5 = 3 ^^^ ((5 * 1) % 2 ^ 64) ∧
    (((3 * 0) % 2 ^ 64) ^^^ 5 = 3 ^^^ ((5 * 0) % 2 ^ 64) ↔ 3 = 5) :=
  ⟨sampleAEAD_correct, by decide, by decide, by decide, by decide,
    C29_reflection sampleAEAD sampleAEAD_correct sampleKey 3 5 0 0 (by decide) (by decide) 0 1
      [42] sampleNonce sampleWire5 []
      { key := sampleKey, challengeLocal := 3, challengeRemote := 5,
        counterLocal := 1, counterRemote := 0 } (by decide) (by decide)⟩

/-- Counterexample to **C29** as stated: the peer with challenges `(3, 5)`
writes its second message (counter 1) with the tag `3 xor 5 = 6`; fed back
into the `ReadMessage` of that same peer, which expects its second incoming
message, the message is accepted and its body delivered. -/
theorem C29_reflection_accepted :
    (nextOutgoingSequenceNumber
        { key := sampleKey, challengeLocal := 3, challengeRemote := 5,
          counterLocal := 1, counterRemote := 1 }).1
      = (nextExpectedIncomingSequenceNumber
          { key := sampleKey, challengeLocal := 3, challengeRemote := 5,
            counterLocal := 1, counterRemote := 1 }).1 ∧
    WriteMessage sampleAEAD bufferConn []
        { key := sampleKey, challengeLocal := 3, challengeRemote := 5,
          counterLocal := 1, counterRemote := 1 } [42] sampleNonce
      = (sampleWire6, { key := sampleKey, challengeLocal := 3, challengeRemote := 5,
                        counterLocal := 2, counterRemote := 1 }, [], none) ∧
    ReadMessage sampleAEAD bufferConn sampleWire6
        { key := sampleKey, challengeLocal := 3, challengeRemote := 5,
          counterLocal := 2, counterRemote := 1 }
      = .ok ([], { key := sampleKey, challengeLocal := 3, challengeRemote := 5,
                   counterLocal := 2, counterRemote := 2 }, some [42], none) := by
  refine ⟨by decide, by decide, by decide⟩

/-! ## A short remote challenge -/

/-- **C30** A short remote challenge aborts the handshake. When the block
received in the handshake is authentic and its plaintext is empty, or has 7
bytes, `handshake` does not return: reading the remote challenge panics with
an index out of range; so does `NewConnection`. On the same block
`ReadEncryptedMessage`, which checks the length first, returns
`ErrInvalidRemoteMessageSize`. -/
theorem C30_handshake_panics :
    ReadEncrypted sampleAEAD sock.toReader ⟨sampleWireEmpty, [], false, none, 0⟩ sampleKey
      = .ok (⟨[], [], false, none, 1 + 1⟩, none, none) ∧
    handshake sampleAEAD sock ⟨sampleWireEmpty, [], false, none, 0⟩ (sampleConn sampleKey)
        sampleTape
      = .error .indexOutOfRange ∧
    NewConnection sampleAEAD sock ⟨sampleWireEmptyZero, [], false, none, 0⟩ sampleKey sampleTape
      = .error .indexOutOfRange ∧
    handshake sampleAEAD sock
        ⟨[0, 0, 0, 0, 0, 0, 0, 35] ++ sampleNonce ++ [1, 2, 3, 4, 5, 6, 7] ++ sampleNonce
          ++ [1, 1, 1, 1], [], false, none, 0⟩ (sampleConn sampleKey) sampleTape
      = .error .indexOutOfRange ∧
    ReadEncryptedMessage sampleAEAD sock.toReader ⟨sampleWireEmpty, [], false, none, 0⟩
        sampleKey 0
      = .ok (⟨[], [], false, none, 1 + 1⟩, none, some .helpersErrInvalidRemoteMessageSize) := by
  refine ⟨by decide, by decide, by decide, by decide, by decide⟩

/-! ## `Encode` on a writer that fails -/

/-- **C27** (as amended) Errors of `Encode`. `Encode` looks at the errors of
its two writes only, not at their byte counts: when the write of the 8-byte
length returns an error, `Encode` returns that error and does not write the
payload; otherwise it returns what the write of the payload returns; it
reports success exactly when both writes returned the nil error. For a writer
that honours the contract of `io.Writer` (a write that accepts fewer bytes
than requested returns an error), success means that all `8 + len(payload)`
bytes were accepted. -/
theorem C27_Encode_errors {σ : Type} (W : Writer σ) (w : σ) (data : Bytes) :
    (∀ e : GoError,
      (W.Write w (BigEndian.AppendUint64 [] (data.length % 2 ^ 64))).2.2 = some e →
      Encode W w data
        = ((W.Write w (BigEndian.AppendUint64 [] (data.length % 2 ^ 64))).1, some e)) ∧
    ((W.Write w (BigEndian.AppendUint64 [] (data.length % 2 ^ 64))).2.2 = none →
      Encode W w data
        = ((W.Write (W.Write w (BigEndian.AppendUint64 [] (data.length % 2 ^ 64))).1 data).1,
           (W.Write (W.Write w (BigEndian.AppendUint64 [] (data.length % 2 ^ 64))).1
              data).2.2)) ∧
    ((Encode W w data).2 = none ↔
      (W.Write w (BigEndian.AppendUint64 [] (data.length % 2 ^ 64))).2.2 = none ∧
      (W.Write (W.Write w (BigEndian.AppendUint64 [] (data.length % 2 ^ 64))).1 data).2.2
        = none) ∧
    ((∀ s p, (W.Write s p).2.1 ≤ p.length) →
      (∀ s p, (W.Write s p).2.1 < p.length → (W.Write s p).2.2 ≠ none) →
      (Encode W w data).2 = none →
      (W.Write w (BigEndian.AppendUint64 [] (data.length % 2 ^ 64))).2.1 = 8 ∧
      (W.Write (W.Write w (BigEndian.AppendUint64 [] (data.length % 2 ^ 64))).1 data).2.1
        = data.length) := by
  have key : ∀ r1 : σ × Nat × Option GoError,
      W.Write w (BigEndian.AppendUint64 [] (data.length % 2 ^ 64)) = r1 →
      (∀ e : GoError, r1.2.2 = some e → Encode W w data = (r1.1, some e)) ∧
      (r1.2.2 = none → Encode W w data = ((W.Write r1.1 data).1, (W.Write r1.1 data).2.2)) := by
    intro r1 h1
    obtain ⟨w1, n1, e1⟩ := r1
    constructor
    · intro e he
      simp only at he
      subst he
      simp only [Encode, h1]
    · intro he
      simp only at he
      subst he
      simp only [Encode, h1]
  obtain ⟨k1, k2⟩ := key _ rfl
  have hiff : (Encode W w data).2 = none ↔
      (W.Write w (BigEndian.AppendUint64 [] (data.length % 2 ^ 64))).2.2 = none ∧
      (W.Write (W.Write w (BigEndian.AppendUint64 [] (data.length % 2 ^ 64))).1 data).2.2
        = none := by
    cases h1 : (W.Write w (BigEndian.AppendUint64 [] (data.length % 2 ^ 64))).2.2 with
    | some e =>
      rw [k1 e h1]
      simp
    | none =>
      rw [k2 h1]
      simp
  refine ⟨k1, k2, hiff, ?_⟩
  intro hle hshort hok
  obtain ⟨h1, h2⟩ := hiff.mp hok
  constructor
  · have hl := hle w (BigEndian.AppendUint64 [] (data.length % 2 ^ 64))
    have hs := hshort w (BigEndian.AppendUint64 [] (data.length % 2 ^ 64))
    simp only [AppendUint64_length, List.length_nil, Nat.zero_add] at hl hs
    by_contra hne
    exact hs (by omega) h1
  · have hl := hle (W.Write w (BigEndian.AppendUint64 [] (data.length % 2 ^ 64))).1 data
    have hs := hshort (W.Write w (BigEndian.AppendUint64 [] (data.length % 2 ^ 64))).1 data
    by_contra hne
    exact hs (by omega) h2

/-- Counterexample to **C27** as stated: on a writer that accepts 3 bytes of
each write and reports the short count with a nil error, `Encode` of a 5-byte
payload reports success although only 6 of the 13 bytes were written. -/
theorem C27_short_write_unnoticed :
    (shortWriter 3).Write [] [0, 0, 0, 0, 0, 0, 0, 5] = ([0, 0, 0], 3, none) ∧
    Encode (shortWriter 3) [] [1, 2, 3, 4, 5] = ([0, 0, 0, 1, 2, 3], none) ∧
    ([0, 0, 0, 1, 2, 3] : Bytes).length < 8 + ([1, 2, 3, 4, 5] : Bytes).length := by
  refine ⟨by decide, by decide, by decide⟩

/-! ## Key derivation with defaults -/

/-- On the sample derivation function the defaults give a key: the password,
then the default salt, cut to the key size. -/
theorem DeriveSecureKey_example :
    (DeriveSecureKey sampleIDKey [112, 119] none 0 0 0).map AESKey.bytes
      = .ok ([112, 119] ++ DefaultSalt.take 30) := by
  decide

/-- C25: for every password, salt, time, memory and threads, `DeriveSecureKey`
equals `helpers.DeriveKeySecure` called with a nil salt replaced by
`DefaultSalt` and each zero parameter replaced by its default (2, 124*1024,
8), each substitution independent of the others; non-nil and non-zero
arguments are passed unchanged; and the call with nil and zeros equals the
call with the defaults given explicitly. -/
theorem C25_DeriveSecureKey_defaults
    (IDKey : Bytes → Bytes → Nat → Nat → Nat → Nat → Bytes)
    (password : Bytes) (salt : Option Bytes) (time memory threads : Nat) :
    DeriveSecureKey IDKey password salt time memory threads
        = DeriveKeySecure IDKey password (salt.getD DefaultSalt)
            (if time = 0 then 2 else time)
            (if memory = 0 then 124 * 1024 else memory)
            (if threads = 0 then 8 else threads)
      ∧ (∀ s : Bytes, time ≠ 0 → memory ≠ 0 → threads ≠ 0 →
          DeriveSecureKey IDKey password (some s) time memory threads
            = DeriveKeySecure IDKey password s time memory threads)
      ∧ DeriveSecureKey IDKey password none 0 0 0
          = DeriveSecureKey IDKey password (some DefaultSalt) DefaultTime DefaultMemory
              DefaultParallelism
      ∧ DefaultTime = 2 ∧ DefaultMemory = 124 * 1024 ∧ DefaultParallelism = 8
      ∧ DefaultSalt.length = 64 := by
  refine ⟨?_, ?_, ?_, rfl, rfl, rfl, rfl⟩
  · cases salt <;> rfl
  · intro s ht hm hp
    simp only [DeriveSecureKey, if_neg ht, if_neg hm, if_neg hp]
  · rfl

/-! ## A long remote challenge -/

theorem Uint64_append (first trailing : Bytes) (h : 8 ≤ first.length) :
    BigEndian.Uint64 (first ++ trailing) = BigEndian.Uint64 first := by
  match first, h with
  | b0 :: b1 :: b2 :: b3 :: b4 :: b5 :: b6 :: b7 :: _, _ => rfl

/-- **C32** A remote challenge of more than 8 bytes. When the challenge was
sent and the handshake block read is authentic with a plaintext of 8 bytes
`first` followed by at least one more byte, `handshake` succeeds,
`challengeRemote` is the big-endian value of `first`, and the trailing bytes
have no effect: any other trailing bytes give the same value. Nothing else of
the connection changes in the receive half. -/
theorem C32_trailing_bytes_ignored {σ : Type} (A : AEAD) (T : NetConn σ) (net net1 net2 : σ)
    (c c1 : Connection) (rnd rnd1 first trailing : Bytes)
    (hs : handshakeSend A T net c rnd = .ok (net1, c1, rnd1, none))
    (hr : ReadEncrypted A T.toReader net1 c1.key = .ok (net2, some (first ++ trailing), none))
    (hf : first.length = BytesFor64Bit) (ht : trailing ≠ []) :
    BytesFor64Bit < (first ++ trailing).length ∧
    ∃ v, BigEndian.Uint64 first = .ok v ∧ v < 2 ^ 64 ∧
      (∀ other : Bytes, BigEndian.Uint64 (first ++ other) = .ok v) ∧
      handshakeReceive A T net1 c1 = .ok (net2, { c1 with challengeRemote := v }, none) ∧
      handshake A T net c rnd = .ok (net2, { c1 with challengeRemote := v }, rnd1, none) := by
  have h8 : 8 ≤ first.length := by
    rw [hf]
    decide
  obtain ⟨v, hv⟩ := Uint64_ok_of_length first h8
  have hall : ∀ other : Bytes, BigEndian.Uint64 (first ++ other) = .ok v := by
    intro other
    rw [Uint64_append first other h8, hv]
  have hrecv : handshakeReceive A T net1 c1
      = .ok (net2, { c1 with challengeRemote := v }, none) := by
    simp only [handshakeReceive, hr, bind, Except.bind, Option.getD_some, hall trailing]
  refine ⟨?_, v, hv, Uint64_lt _ _ hv, hall, hrecv, ?_⟩
  · have : 0 < trailing.length := List.length_pos.mpr ht
    rw [List.length_append, hf]
    omega
  · simp only [handshake, hs, bind, Except.bind, hrecv]

theorem C32_trailing_bytes_ignored_witness :
    (handshakeSend sampleAEAD sock ⟨sampleWireLong, [], false, none, 0⟩ (sampleConn sampleKey)
        sampleTape
      = .ok (⟨sampleWireLong, sampleHandshakeWire, false, none, 0⟩, sampleConn sampleKey,
          sampleNonce, none) ∧
    ReadEncrypted sampleAEAD sock.toReader
        ⟨sampleWireLong, sampleHandshakeWire, false, none, 0⟩ (sampleConn sampleKey).key
      = .ok (⟨[], sampleHandshakeWire, false, none, 2⟩,
          some ([0, 0, 0, 0, 0, 0, 0, 5] ++ [99]), none) ∧
    ([0, 0, 0, 0, 0, 0, 0, 5] : Bytes).length = BytesFor64Bit ∧ ([99] : Bytes) ≠ []) ∧
    handshake sampleAEAD sock ⟨sampleWireLong, [], false, none, 0⟩ (sampleConn sampleKey)
        sampleTape
      = .ok (⟨[], sampleHandshakeWire, false, none, 2⟩,
          { sampleConn sampleKey with challengeRemote := 5 }, sampleNonce, none) ∧
    (BytesFor64Bit < (([0, 0, 0, 0, 0, 0, 0, 5] : Bytes) ++ [99]).length ∧
    ∃ v, BigEndian.Uint64 [0, 0, 0, 0, 0, 0, 0, 5] = .ok v ∧ v < 2 ^ 64 ∧
      (∀ other : Bytes, BigEndian.Uint64 ([0, 0, 0, 0, 0, 0, 0, 5] ++ other) = .ok v) ∧
      handshakeReceive sampleAEAD sock ⟨sampleWireLong, sampleHandshakeWire, false, none, 0⟩
          (sampleConn sampleKey)
        = .ok (⟨[], sampleHandshakeWire, false, none, 2⟩,
            { sampleConn sampleKey with challengeRemote := v }, none) ∧
      handshake sampleAEAD sock ⟨sampleWireLong, [], false, none, 0⟩ (sampleConn sampleKey)
          sampleTape
        = .ok (⟨[], sampleHandshakeWire, false, none, 2⟩,
            { sampleConn sampleKey with challengeRemote := v }, sampleNonce, none)) :=
  ⟨⟨by decide, by decide, by decide, by decide⟩, by decide,
    C32_trailing_bytes_ignored sampleAEAD sock ⟨sampleWireLong, [], false, none, 0⟩
      ⟨sampleWireLong, sampleHandshakeWire, false, none, 0⟩
      ⟨[], sampleHandshakeWire, false, none, 2⟩ (sampleConn sampleKey) (sampleConn sampleKey)
      sampleTape sampleNonce [0, 0, 0, 0, 0, 0, 0, 5] [99] (by decide) (by decide) (by decide)
      (by decide)⟩

/-! ## `RandomHex` -/

theorem hexEncode_length (src : Bytes) : (hexEncode src).length = 2 * src.length := by
  induction src with
  | nil => rfl
  | cons v rest ih =>
    simp only [hexEncode, List.flatMap_cons, List.length_append, List.length_cons,
      List.length_nil] at ih ⊢
    omega

theorem hextable_getD_mem (m : Nat) (h : m < 16) : hextable.getD m '0' ∈ hextable := by
  interval_cases m <;> decide

theorem hexEncode_mem (src : Bytes) (c : Char) (h : c ∈ hexEncode src) : c ∈ hextable := by
  simp only [hexEncode, List.mem_flatMap, List.mem_cons, List.mem_singleton,
    List.not_mem_nil, or_false] at h
  obtain ⟨v, _, hc | hc⟩ := h
  · rw [hc]
    exact hextable_getD_mem _ (by omega)
  · rw [hc]
    exact hextable_getD_mem _ (by omega)

theorem wrapInt_of_le (n : Nat) (h : n ≤ maxInt) : wrapInt (n : Int) = (n : Int) := by
  simp only [maxInt] at h
  simp only [wrapInt]
  omega

theorem makeSliceInt_ofNat (k : Nat) (h : k ≤ maxAlloc) :
    makeSliceInt (k : Int) = .ok (List.replicate k 0) := by
  have hk : (0 : Int) ≤ (k : Int) ∧ (k : Int) ≤ (maxAlloc : Int) :=
    ⟨Int.ofNat_nonneg k, Int.ofNat_le.mpr h⟩
  unfold makeSliceInt
  rw [if_pos hk, Int.toNat_ofNat]

theorem makeSliceInt_large (k : Nat) (h : maxAlloc < k) :
    makeSliceInt (k : Int) = .error .makesliceLenOutOfRange := by
  have hk : ¬ ((0 : Int) ≤ (k : Int) ∧ (k : Int) ≤ (maxAlloc : Int)) := by
    intro hc
    have := Int.ofNat_le.mp hc.2
    omega
  unfold makeSliceInt
  rw [if_neg hk]

theorem hexEncodeToString_ok (src : Bytes) (h : 2 * src.length ≤ maxAlloc) :
    hexEncodeToString src = .ok (hexEncode src) := by
  unfold hexEncodeToString
  rw [makeSliceInt_ofNat _ h]
  rfl

/-- Within the limit of `make`, and with enough random bytes, `RandomHex` reads
`(n + 1) / 2` bytes and returns the first `n` digits of their encoding. -/
theorem RandomHex_ok (n : Nat) (hn : n ≤ maxAlloc) (rnd : Bytes)
    (hr : (n + 1) / 2 ≤ rnd.length) :
    RandomHex (n : Int) rnd
      = .ok (rnd.drop ((n + 1) / 2), (hexEncode (rnd.take ((n + 1) / 2))).take n) := by
  have hn2 : n ≤ 2 ^ 48 := hn
  have hw : wrapInt ((n : Int) + 1) = ((n + 1 : Nat) : Int) := by
    have := wrapInt_of_le (n + 1) (by simp only [maxInt]; omega)
    simpa using this
  have hd : Int.tdiv ((n + 1 : Nat) : Int) 2 = (((n + 1) / 2 : Nat) : Int) :=
    (Int.ofNat_tdiv (n + 1) 2).symm
  have hm : makeSliceInt (((n + 1) / 2 : Nat) : Int) = .ok (List.replicate ((n + 1) / 2) 0) :=
    makeSliceInt_ofNat _ (by simp only [maxAlloc]; omega)
  have hread : bufferReader.ReadFull rnd ((n + 1) / 2)
      = (rnd.drop ((n + 1) / 2), rnd.take ((n + 1) / 2), none) := by
    simp only [bufferReader, if_pos hr]
  have hfill : fill (List.replicate ((n + 1) / 2) 0) (rnd.take ((n + 1) / 2))
      = rnd.take ((n + 1) / 2) := by
    apply fill_full
    simp only [List.length_take, List.length_replicate]
    omega
  have henc : hexEncodeToString (rnd.take ((n + 1) / 2))
      = .ok (hexEncode (rnd.take ((n + 1) / 2))) := by
    apply hexEncodeToString_ok
    rw [List.length_take]
    simp only [maxAlloc]
    omega
  have hlen : (0 : Int) ≤ (n : Int)
      ∧ (n : Int) ≤ ((hexEncode (rnd.take ((n + 1) / 2))).length : Int) := by
    refine ⟨Int.ofNat_nonneg _, ?_⟩
    rw [hexEncode_length, List.length_take]
    have : n ≤ 2 * min ((n + 1) / 2) rnd.length := by omega
    exact_mod_cast this
  unfold RandomHex
  rw [hw, hd, hm]
  simp only [bind, Except.bind, List.length_replicate, hread, hfill, henc]
  rw [if_pos hlen]
  rfl

/-- Above the limit of `make` (and within the range of `int`) `RandomHex`
returns no string, whatever the random source holds: one of its two buffers is
refused by `make`, or the random source fails before. -/
theorem RandomHex_large (n : Nat) (hn : maxAlloc < n) (hi : n ≤ maxInt) (rnd : Bytes) :
    ∃ e, RandomHex (n : Int) rnd = .error e := by
  have hn2 : 2 ^ 48 < n := hn
  have hi2 : n ≤ 2 ^ 63 - 1 := hi
  by_cases hmax : n = maxInt
  · have hw : wrapInt ((n : Int) + 1) = -(2 ^ 63) := by
      simp only [maxInt] at hmax
      simp only [wrapInt]
      omega
    have hneg : ¬ ((0 : Int) ≤ Int.tdiv (-(2 ^ 63)) 2
        ∧ Int.tdiv (-(2 ^ 63)) 2 ≤ (maxAlloc : Int)) := by
      decide
    refine ⟨.makesliceLenOutOfRange, ?_⟩
    unfold RandomHex
    rw [hw]
    unfold makeSliceInt
    rw [if_neg hneg]
    rfl
  · have hw : wrapInt ((n : Int) + 1) = ((n + 1 : Nat) : Int) := by
      have := wrapInt_of_le (n + 1) (by simp only [maxInt] at hmax ⊢; omega)
      simpa using this
    have hd : Int.tdiv ((n + 1 : Nat) : Int) 2 = (((n + 1) / 2 : Nat) : Int) :=
      (Int.ofNat_tdiv (n + 1) 2).symm
    by_cases hk : (n + 1) / 2 ≤ maxAlloc
    · have hm : makeSliceInt (((n + 1) / 2 : Nat) : Int)
          = .ok (List.replicate ((n + 1) / 2) 0) := makeSliceInt_ofNat _ hk
      by_cases hr : (n + 1) / 2 ≤ rnd.length
      · have hread : bufferReader.ReadFull rnd ((n + 1) / 2)
            = (rnd.drop ((n + 1) / 2), rnd.take ((n + 1) / 2), none) := by
          simp only [bufferReader, if_pos hr]
        have hfill : fill (List.replicate ((n + 1) / 2) 0) (rnd.take ((n + 1) / 2))
            = rnd.take ((n + 1) / 2) := by
          apply fill_full
          simp only [List.length_take, List.length_replicate]
          omega
        have henc : hexEncodeToString (rnd.take ((n + 1) / 2))
            = .error .makesliceLenOutOfRange := by
          unfold hexEncodeToString
          rw [makeSliceInt_large _ (by rw [List.length_take]; simp only [maxAlloc]; omega)]
          rfl
        refine ⟨.makesliceLenOutOfRange, ?_⟩
        unfold RandomHex
        rw [hw, hd, hm]
        simp only [bind, Except.bind, List.length_replicate, hread, hfill, henc]
      · have hread : ∃ r g e, bufferReader.ReadFull rnd ((n + 1) / 2) = (r, g, some e) := by
          simp only [bufferReader, if_neg hr]
          split
          · exact ⟨_, _, _, rfl⟩
          · exact ⟨_, _, _, rfl⟩
        obtain ⟨r, g, e, hread⟩ := hread
        refine ⟨.randomSourceFailed, ?_⟩
        unfold RandomHex
        rw [hw, hd, hm]
        simp only [bind, Except.bind, List.length_replicate, hread]
    · refine ⟨.makesliceLenOutOfRange, ?_⟩
      unfold RandomHex
      rw [hw, hd, makeSliceInt_large _ (by omega)]
      rfl

/-- **C26** (amended) For every length `n` from `0` up to the limit of `make`
(`maxAlloc`, `2 ^ 48`), even or odd, and every random tape that yields the
`(n + 1) / 2` bytes asked of it, whatever their values, `RandomHex n` (of
`helpers` and of `crypto`) returns a string of exactly `n` characters, each a
lowercase hexadecimal digit, without a panic. -/
theorem C26_RandomHex (n : Nat) (hn : n ≤ maxAlloc) (rnd : Bytes)
    (hr : (n + 1) / 2 ≤ rnd.length) :
    ∃ s : List Char,
      RandomHex (n : Int) rnd = .ok (rnd.drop ((n + 1) / 2), s)
        ∧ crypto.RandomHex (n : Int) rnd = .ok (rnd.drop ((n + 1) / 2), s)
        ∧ s.length = n
        ∧ ∀ c ∈ s, c ∈ hextable := by
  refine ⟨(hexEncode (rnd.take ((n + 1) / 2))).take n, RandomHex_ok n hn rnd hr,
    RandomHex_ok n hn rnd hr, ?_, ?_⟩
  · rw [List.length_take, hexEncode_length, List.length_take]
    omega
  · intro c hc
    exact hexEncode_mem _ c (List.mem_of_mem_take hc)

theorem C26_RandomHex_witness :
    (3 ≤ maxAlloc ∧ (3 + 1) / 2 ≤ ([171, 205, 7] : Bytes).length)
      ∧ RandomHex 3 [171, 205, 7] = .ok ([7], ['a', 'b', 'c'])
      ∧ ∃ s : List Char,
        RandomHex ((3 : Nat) : Int) [171, 205, 7]
            = .ok (([171, 205, 7] : Bytes).drop ((3 + 1) / 2), s)
          ∧ crypto.RandomHex ((3 : Nat) : Int) [171, 205, 7]
              = .ok (([171, 205, 7] : Bytes).drop ((3 + 1) / 2), s)
          ∧ s.length = 3
          ∧ ∀ c ∈ s, c ∈ hextable :=
  ⟨⟨by decide, by decide⟩, by decide,
    C26_RandomHex 3 (by decide) [171, 205, 7] (by decide)⟩

/-- **C26** (counterexample) At the length `2 ^ 49 + 2` the buffer of random
bytes would have `2 ^ 48 + 1` bytes, more than `make` accepts, and `RandomHex`
panics; at the largest `int` the sum `length + 1` wraps to the smallest `int`,
its half is negative and `make` panics as well. No string is returned,
whatever the random source holds. -/
theorem C26_RandomHex_panics :
    ((0 : Int) ≤ 2 ^ 49 + 2 ∧ (2 : Int) ^ 49 + 2 ≤ (maxInt : Int))
      ∧ Int.tdiv (wrapInt ((2 ^ 49 + 2 : Int) + 1)) 2 = 2 ^ 48 + 1
      ∧ RandomHex (2 ^ 49 + 2) sampleLongTape = .error .makesliceLenOutOfRange
      ∧ crypto.RandomHex (2 ^ 49 + 2) sampleLongTape = .error .makesliceLenOutOfRange
      ∧ Int.tdiv (wrapInt ((maxInt : Int) + 1)) 2 = -(2 ^ 62)
      ∧ RandomHex (maxInt : Int) sampleLongTape = .error .makesliceLenOutOfRange
      ∧ crypto.RandomHex (maxInt : Int) sampleLongTape = .error .makesliceLenOutOfRange := by
  decide

/-! ## Declared lengths above the limit of `make` -/

/-- When the 8 length bytes read declare more than `make` accepts, `Decode`
does not return: `make` panics, whatever the reader holds after them. -/
theorem Decode_large_length {σ : Type} (R : Reader σ) (r r1 : σ) (hdr : Bytes) (n : Nat)
    (h1 : R.ReadFull r BytesFor64Bit = (r1, hdr, none)) (hl : hdr.length = BytesFor64Bit)
    (hu : BigEndian.Uint64 hdr = .ok n) (hn : maxAlloc < n) :
    Decode R r = .error .makesliceLenOutOfRange := by
  have hfill : fill (List.replicate BytesFor64Bit 0) hdr = hdr :=
    fill_full _ _ (by rw [hl, List.length_replicate])
  have hm : makeSlice n = .error .makesliceLenOutOfRange := by
    unfold makeSlice
    rw [if_neg (by omega)]
  simp only [Decode, h1, hfill, hu, hm, bind, Except.bind]

theorem Decode_buffer_large_length (n : Nat) (rest : Bytes) (hn : maxAlloc < n)
    (h64 : n < 2 ^ 64) :
    Decode bufferReader (BigEndian.AppendUint64 [] n ++ rest)
      = .error .makesliceLenOutOfRange := by
  have hl : (BigEndian.AppendUint64 [] n).length = BytesFor64Bit := by
    rw [AppendUint64_length]
    rfl
  have h1 : bufferReader.ReadFull (BigEndian.AppendUint64 [] n ++ rest) BytesFor64Bit
      = (rest, BigEndian.AppendUint64 [] n, none) := by
    rw [← hl]
    exact bufferReader_ReadFull_append _ _
  have hu : BigEndian.Uint64 (BigEndian.AppendUint64 [] n) = .ok n := by
    have := Uint64_AppendUint64 n []
    rwa [List.append_nil, Nat.mod_eq_of_lt h64] at this
  exact Decode_large_length bufferReader _ rest _ n h1 hl hu hn

/-- **C31** `Decode` is not total. On a stream that holds the 8 length bytes
`80 00 00 00 00 00 00 00` (a declared length of `2 ^ 63`) and nothing else, on
`7f ff ff ff ff ff ff ff` (the largest `int`), on `00 01 00 00 00 00 00 01`
(`2 ^ 48 + 1`), and on one that declares `2 ^ 64 - 1` bytes and holds 3,
`Decode` does not return an I/O error: `make` panics. So it does for every
declared length above the limit of `make`, whatever follows the length bytes.
A small declared length that exceeds the bytes remaining gives an I/O error:
`io.EOF` when nothing follows the length bytes, `io.ErrUnexpectedEOF`
otherwise. -/
theorem C31_Decode_aborts :
    (BigEndian.Uint64 [128, 0, 0, 0, 0, 0, 0, 0] = .ok (2 ^ 63) ∧
      BigEndian.Uint64 [127, 255, 255, 255, 255, 255, 255, 255] = .ok maxInt ∧
      BigEndian.Uint64 [0, 1, 0, 0, 0, 0, 0, 1] = .ok (maxAlloc + 1)) ∧
    Decode bufferReader [128, 0, 0, 0, 0, 0, 0, 0] = .error .makesliceLenOutOfRange ∧
    Decode bufferReader [127, 255, 255, 255, 255, 255, 255, 255]
      = .error .makesliceLenOutOfRange ∧
    Decode bufferReader [0, 1, 0, 0, 0, 0, 0, 1] = .error .makesliceLenOutOfRange ∧
    Decode bufferReader [255, 255, 255, 255, 255, 255, 255, 255, 1, 2, 3]
      = .error .makesliceLenOutOfRange ∧
    (∀ (n : Nat) (rest : Bytes), maxAlloc < n → n < 2 ^ 64 →
      Decode bufferReader (BigEndian.AppendUint64 [] n ++ rest)
        = .error .makesliceLenOutOfRange) ∧
    Decode bufferReader [0, 0, 0, 0, 0, 0, 0, 3]
      = .ok ([], some [0, 0, 0], some .EOF) ∧
    Decode bufferReader [0, 0, 0, 0, 0, 0, 0, 3, 1]
      = .ok ([], some [1, 0, 0], some .ErrUnexpectedEOF) := by
  refine ⟨⟨by decide, by decide, by decide⟩, by decide, by decide, by decide, by decide,
    Decode_buffer_large_length, by decide, by decide⟩

end GoSymCryto
